import Mathlib

/-!
Verification of the Click-language lexer/parser core (src/lib/lexer.cc).

The development shallowly embeds the data model and operations of the
lexer: machine integers become Nat/Int, C++ vectors become lists,
linked tunnel-end structures become an explicit pool with chain lists,
error reports become lists of error tags.  Definitions mirror the
source functions; spec-side characterisations are separate definitions
and the theorems relate the two.
-/

/-- A connection endpoint: element index and port number
    (Router::Hookup in the source). -/
structure Hookup where
  idx : Nat
  port : Nat
deriving DecidableEq, Repr

/-- The element type id of the tunnel sentinel class.  The lexer
    constructor adds the tunnel class first and asserts its id. -/
def TUNNEL_TYPE : Nat := 0

/-- The element type id of the error placeholder class. -/
def ERROR_TYPE : Nat := 1

/-! ## Overload selection (Lexer::Compound::find_relevant_class) -/

/-- The arity signature of one compound class record: the data that
    find_relevant_class compares against the call site. -/
structure CompoundSig where
  ninputs : Nat
  noutputs : Nat
  nformals : Nat
deriving DecidableEq, Repr

/-- Result of find_relevant_class: the chain position of the matching
    compound record, the non-compound fallback that terminates the
    chain, or a null result. -/
inductive FindResult where
  | matched (i : Nat)
  | fallback
  | noMatch
deriving DecidableEq, Repr

/-- The comparison made at each chain record:
    ninputs, noutputs and formals count must all equal the call site. -/
def sigMatches (c : CompoundSig) (ninputs noutputs nargs : Nat) : Bool :=
  c.ninputs == ninputs && c.noutputs == noutputs && c.nformals == nargs

/-- Shift a chain position by one (used when the recursion peels the
    newest record off the chain). -/
def bumpFind : FindResult → FindResult
  | .matched i => .matched (i + 1)
  | r => r

/-- Lexer::Compound::find_relevant_class.  The overload chain is the
    list of compound records newest first (the _next links); a chain
    that terminates in a non-compound element is represented by
    hasFallback = true.  The source loops: return the current record
    on a signature match, stop with null when _next is null, stop with
    the fallback when _next is not a compound. -/
def find_relevant_class : List CompoundSig → Bool → Nat → Nat → Nat → FindResult
  | [], hasFallback, _, _, _ => if hasFallback then .fallback else .noMatch
  | c :: rest, hasFallback, ni, no, na =>
    if sigMatches c ni no na then .matched 0
    else bumpFind (find_relevant_class rest hasFallback ni no na)

/-! ## Compound arity inference (Lexer::Compound::finish) -/

/-- Loop state of Compound::finish: the from_in / to_out flag vectors
    and the misuse flags to_in / from_out. -/
structure FinishAcc where
  from_in : List Bool
  to_out : List Bool
  to_in : Bool
  from_out : Bool
deriving DecidableEq, Repr

/-- Set flag p in a flag vector, growing it with zeroes exactly as
    Vector::resize(port + 1, 0) followed by the store does. -/
def markPort (v : List Bool) (p : Nat) : List Bool :=
  let w := if v.length ≤ p then v ++ List.replicate (p + 1 - v.length) false else v
  w.set p true

/-- One iteration of the finish loop over the parallel hookup arrays
    (hf = source endpoint, ht = sink endpoint). -/
def finishStep (acc : FinishAcc) (h : Hookup × Hookup) : FinishAcc :=
  let acc1 :=
    if h.1.idx = 0 then { acc with from_in := markPort acc.from_in h.1.port }
    else if h.1.idx = 1 then { acc with from_out := true }
    else acc
  if h.2.idx = 1 then { acc1 with to_out := markPort acc1.to_out h.2.port }
  else if h.2.idx = 0 then { acc1 with to_in := true }
  else acc1

/-- The whole finish loop. -/
def finishScan (hookups : List (Hookup × Hookup)) : FinishAcc :=
  hookups.foldl finishStep { from_in := [], to_out := [], to_in := false, from_out := false }

/-- Error reports of Compound::finish, as tags. -/
inductive CompoundErr where
  | inputMayOnlyBeOutput
  | outputMayOnlyBeInput
  | inputUnused (p : Nat)
  | outputUnused (p : Nat)
deriving DecidableEq, Repr

/-- Lexer::Compound::finish: computes (ninputs, noutputs, error list)
    from the body hookups, given as the zipped parallel arrays
    _hookup_from / _hookup_to. -/
def Compound.finish (hookups : List (Hookup × Hookup)) : Nat × Nat × List CompoundErr :=
  let acc := finishScan hookups
  let errIn := if acc.to_in then [CompoundErr.inputMayOnlyBeOutput] else []
  let errInUnused := (List.range acc.from_in.length).filterMap fun i =>
    if acc.from_in.getD i false then none else some (CompoundErr.inputUnused i)
  let errOut := if acc.from_out then [CompoundErr.outputMayOnlyBeInput] else []
  let errOutUnused := (List.range acc.to_out.length).filterMap fun i =>
    if acc.to_out.getD i false then none else some (CompoundErr.outputUnused i)
  (acc.from_in.length, acc.to_out.length, errIn ++ errInUnused ++ errOut ++ errOutUnused)

/-- Spec-side: one past the highest value of a selection, zero when
    the selection is empty. -/
def listMax : List Nat → Nat
  | [] => 0
  | x :: xs => max x (listMax xs)

/-! ## Lexeme kinds and lexeme_string -/

/-- Kind code of the end-of-file lexeme. -/
def lexEOF : Nat := 0

/-- Kind codes of the word lexemes.  The header that assigns the codes
    is not among the sources; codes start above the one-character
    lexeme range 0..255, in declaration order, as the source file
    assumes (lexeme_string prints kinds in 32..126 as characters). -/
def lexIdent : Nat := 256

/-- Kind code of a variable lexeme. -/
def lexVariable : Nat := 257

/-- Kind code of the arrow lexeme. -/
def lexArrow : Nat := 258

/-- Kind code of the double-colon lexeme. -/
def lex2Colon : Nat := 259

/-- Kind code of the double-bar lexeme. -/
def lex2Bar : Nat := 260

/-- Kind code of the ellipsis lexeme. -/
def lex3Dot : Nat := 261

/-- Kind code of the connectiontunnel keyword lexeme. -/
def lexTunnel : Nat := 262

/-- Kind code of the elementclass keyword lexeme. -/
def lexElementclass : Nat := 263

/-- Kind code of the require keyword lexeme. -/
def lexRequire : Nat := 264

/-- Wrap a string in backquote and forward quote, as the source string
    literals and sprintf formats do. -/
def bq (s : String) : String :=
  String.mk [Char.ofNat 96] ++ s ++ String.mk [Char.ofNat 39]

/-- Zero-padded three-digit decimal, the %03d conversion. -/
def decimal3 (n : Nat) : String :=
  (if n < 10 then "00" else if n < 100 then "0" else "") ++ Nat.repr n

/-- Lexer::lexeme_string, translated branch for branch: note that the
    second branch repeats the lexIdent comparison, as the source does. -/
def lexeme_string (kind : Nat) : String :=
  if kind = lexIdent then "identifier"
  else if kind = lexIdent then "variable"
  else if kind = lexArrow then bq "->"
  else if kind = lex2Colon then bq "::"
  else if kind = lex2Bar then bq "||"
  else if kind = lex3Dot then bq "..."
  else if kind = lexTunnel then bq "connectiontunnel"
  else if kind = lexElementclass then bq "elementclass"
  else if kind = lexRequire then bq "require"
  else if 32 ≤ kind ∧ kind < 127 then bq (String.mk [Char.ofNat kind])
  else bq ("\\" ++ decimal3 kind)

/-! ## Element creation (Lexer::get_element, Lexer::ydeclaration) -/

/-- The element-level state of the lexer: the name-to-index map (a
    HashMap with default -1 in the source) and the parallel element
    arrays. -/
structure ElemState where
  element_map : String → Int
  elements : List Nat
  element_names : List String
  element_configurations : List String
  element_landmarks : List String

/-- Lexer::get_element.  curLandmark stands for the landmark() value
    at the call.  If the name is mapped, its index is returned and
    nothing changes; otherwise a new element is appended. -/
def Lexer.get_element (st : ElemState) (curLandmark : String) (name : String)
    (etype : Nat) (conf : String) (lm : String) : Nat × ElemState :=
  if 0 ≤ st.element_map name then ((st.element_map name).toNat, st)
  else
    let eid := st.elements.length
    (eid,
      { element_map := fun n => if n = name then (eid : Int) else st.element_map n
        elements := st.elements ++ [etype]
        element_names := st.element_names ++ [name]
        element_configurations := st.element_configurations ++ [conf]
        element_landmarks := st.element_landmarks ++ [if lm = "" then curLandmark else lm] })

/-- Error reports of the declaration loop, as tags. -/
inductive DeclErr where
  | redeclaration (name : String)
  | previouslyDeclaredHere (name : String)
  | isAnElementClass (name : String)
deriving DecidableEq, Repr

/-- The final loop of Lexer::ydeclaration: commit each declared name.
    A name already in the element map reports a redeclaration (plus
    the previously-declared hint unless the existing element is a
    tunnel); a name in the element type map reports a class clash;
    otherwise the element is created through get_element. -/
def Lexer.ydeclaration_commit (type_map : String → Int) (curLandmark : String)
    (st : ElemState) (decls : List String) (etype : Nat) (conf : String) (lm : String) :
    ElemState × List DeclErr :=
  decls.foldl
    (fun acc name =>
      if 0 ≤ acc.1.element_map name then
        let e := (acc.1.element_map name).toNat
        let hint := if acc.1.elements.getD e TUNNEL_TYPE ≠ TUNNEL_TYPE
          then [DeclErr.previouslyDeclaredHere name] else []
        (acc.1, acc.2 ++ DeclErr.redeclaration name :: hint)
      else if 0 ≤ type_map name then
        (acc.1, acc.2 ++ [DeclErr.isAnElementClass name])
      else
        ((Lexer.get_element acc.1 curLandmark name etype conf lm).2, acc.2))
    (st, [])

/-- Concrete element state for the get_element witness: one element
    named a. -/
def egElemState : ElemState :=
  { element_map := fun n => if n = "a" then 0 else -1
    elements := [2]
    element_names := ["a"]
    element_configurations := ["cfg1"]
    element_landmarks := ["file:1"] }

/-- Empty element state for the redeclaration witness. -/
def emptyElemState : ElemState :=
  { element_map := fun _ => -1
    elements := []
    element_names := []
    element_configurations := []
    element_landmarks := [] }

/-- Type map for the redeclaration witness: one class Id. -/
def egTypeMap : String → Int := fun n => if n = "Id" then 2 else -1

/-- State after the first declaration a :: Id of the redeclaration
    scenario. -/
def egDeclState : ElemState :=
  (Lexer.ydeclaration_commit egTypeMap "file:1" emptyElemState ["a"] 2 "cfg1" "file:1").1


/-! ## Class registry (Lexer element types, lexical scoping) -/

/-- The element-type registry state of the lexer: the slot vectors
    (types as abstract payloads, 0 models the null pointer), the
    next-in-scope / free-list link array, the name map (HashMap with
    default -1) and the head pointers. -/
structure Reg where
  element_types : List Nat
  element_type_names : List String
  element_type_next : List Int
  element_type_map : String → Int
  last_element_type : Int
  free_element_type : Int

/-- Lexer::add_element_type: reuse a free slot when there is one,
    otherwise push a new slot; link it to the previous head, update
    the name map and the head.  The name argument stands for the name
    after the empty-name default is resolved. -/
def add_element_type (s : Reg) (name : String) (e : Nat) : Nat × Reg :=
  if s.free_element_type < 0 then
    let tid := s.element_types.length
    (tid,
      { element_types := s.element_types ++ [e]
        element_type_names := s.element_type_names ++ [name]
        element_type_next := s.element_type_next ++ [s.last_element_type]
        element_type_map := fun n => if n = name then (tid : Int) else s.element_type_map n
        last_element_type := (tid : Int)
        free_element_type := s.free_element_type })
  else
    let tid := s.free_element_type.toNat
    (tid,
      { element_types := s.element_types.set tid e
        element_type_names := s.element_type_names.set tid name
        element_type_next := s.element_type_next.set tid s.last_element_type
        element_type_map := fun n => if n = name then (tid : Int) else s.element_type_map n
        last_element_type := (tid : Int)
        free_element_type := s.element_type_next.getD tid (-1) })

/-- The prev-search loop at the head of remove_element_type: walk the
    scope chain from the head until the removed slot (or a negative
    link), keeping the predecessor. -/
def chainWalkPrev (s : Reg) (removed : Int) : Nat → Int → Int → Int × Int
  | 0, prev, trav => (prev, trav)
  | fuel + 1, prev, trav =>
    if trav = removed ∨ trav < 0 then (prev, trav)
    else chainWalkPrev s removed fuel trav (s.element_type_next.getD trav.toNat (-1))

/-- The name-map repair loop of remove_element_type: walk the chain
    from a link until a slot carrying the name (or a negative link). -/
def nameWalk (s : Reg) (name : String) : Nat → Int → Int
  | 0, trav => trav
  | fuel + 1, trav =>
    if trav < 0 then trav
    else if s.element_type_names.getD trav.toNat "" = name then trav
    else nameWalk s name fuel (s.element_type_next.getD trav.toNat (-1))

/-- Lexer::remove_element_type: unlink the slot from the scope chain
    (a no-op when it is not on the chain), repair the name map by
    walking to the next same-named live slot, clear the slot and push
    it onto the free list. -/
def remove_element_type (fuel : Nat) (s : Reg) (removed : Int) : Reg :=
  let pt := chainWalkPrev s removed fuel (-1) s.last_element_type
  if pt.2 < 0 then s
  else
    let s1 :=
      if 0 ≤ pt.1 then
        { s with element_type_next :=
            s.element_type_next.set pt.1.toNat (s.element_type_next.getD removed.toNat (-1)) }
      else
        { s with last_element_type := s.element_type_next.getD removed.toNat (-1) }
    let name := s1.element_type_names.getD removed.toNat ""
    let s2 :=
      if s1.element_type_map name = removed then
        { s1 with element_type_map := fun n =>
            if n = name then nameWalk s1 name fuel (s1.element_type_next.getD removed.toNat (-1))
            else s1.element_type_map n }
      else s1
    { s2 with
      element_type_names := s2.element_type_names.set removed.toNat ""
      element_types := s2.element_types.set removed.toNat 0
      element_type_next := s2.element_type_next.set removed.toNat s2.free_element_type
      free_element_type := removed }

/-- The reachability check at the head of lexical_scoping_out: walk
    the scope chain from the head looking for the cookie. -/
def regReaches (s : Reg) (cookie : Int) : Nat → Int → Bool
  | 0, _ => false
  | fuel + 1, t =>
    if t < 0 then false
    else if t = cookie then true
    else regReaches s cookie fuel (s.element_type_next.getD t.toNat (-1))

/-- The removal loop of lexical_scoping_out: pop the chain head until
    it equals the cookie.  Also returns the removal log, newest
    first. -/
def scopingLoop (cookie : Int) : Nat → Reg → Reg × List Int
  | 0, s => (s, [])
  | fuel + 1, s =>
    if s.last_element_type = cookie then (s, [])
    else
      let removedId := s.last_element_type
      let s1 := remove_element_type fuel s removedId
      let rest := scopingLoop cookie fuel s1
      (rest.1, removedId :: rest.2)

/-- Lexer::lexical_scoping_out: with a cookie of -1 remove everything;
    otherwise remove down to the cookie provided it is on the chain,
    and do nothing when it is not. -/
def lexical_scoping_out (fuel : Nat) (cookie : Int) (s : Reg) : Reg × List Int :=
  if cookie = -1 then scopingLoop cookie fuel s
  else if regReaches s cookie fuel s.last_element_type then scopingLoop cookie fuel s
  else (s, [])

/-- The scope chain as a list of slot indices: the head link reaches
    the listed slots in order and ends in -1, every link staying in
    bounds. -/
inductive RegChain (next : List Int) : Int → List Nat → Prop
  | nil : RegChain next (-1) []
  | cons (t : Nat) (rest : List Nat) (hlt : t < next.length)
      (htail : RegChain next (next.getD t (-1)) rest) :
      RegChain next (t : Int) (t :: rest)

/-- Spec-side: the newest slot on the chain carrying a name, -1 when
    none does (what the name map must say about a consistent
    registry). -/
def firstWithName (names : List String) (l : List Nat) (n : String) : Int :=
  match l with
  | [] => -1
  | t :: rest => if names.getD t "" = n then (t : Int) else firstWithName names rest n

/-- The head of a chain suffix, as a cookie value. -/
def chainHead : List Nat → Int
  | [] => -1
  | t :: _ => (t : Int)

/-- Concrete registry for the C5 witness: slots 0, 1, 2 on the chain
    2, 1, 0, names A, B, A, map consistent. -/
def egReg : Reg :=
  { element_types := [10, 11, 12]
    element_type_names := ["A", "B", "A"]
    element_type_next := [-1, 0, 1]
    element_type_map := fun n => if n = "A" then 2 else if n = "B" then 1 else -1
    last_element_type := 2
    free_element_type := -1 }


/-! ## Tunnel engine (Lexer::TunnelEnd, Lexer::expand_connection) -/

/-- One tunnel end node: its port, its direction flag _output, the
    pool index of its paired opposite end, the memoisation state
    _expanded (0 fresh, 1 expanding, 2 done) and the cached
    _correspond list. -/
structure TEnd where
  port : Hookup
  output : Bool
  other : Nat
  expanded : Nat
  correspond : List Hookup
deriving DecidableEq, Repr

/-- The tunnel-end state: the node pool (a heap view of the linked
    nodes, never shrinking during expansion) plus the two chains
    _definputs and _defoutputs as lists of pool indices in chain
    order; next pointers become list order. -/
structure TState where
  pool : List TEnd
  ichain : List Nat
  ochain : List Nat
deriving DecidableEq, Repr

/-- Default node for out-of-pool reads (unreachable in the source,
    where the pointers are always valid); its expanding state makes a
    dangling read inert. -/
def defaultTEnd : TEnd :=
  { port := ⟨0, 0⟩, output := false, other := 0, expanded := 1, correspond := [] }

/-- The chain heads: _defoutputs for the output direction, _definputs
    otherwise. -/
def TState.chain (s : TState) (output : Bool) : List Nat :=
  if output then s.ochain else s.ichain

/-- Read a pool node. -/
def TState.getEnd (s : TState) (i : Nat) : TEnd :=
  s.pool.getD i defaultTEnd

/-- Write the _expanded field of a pool node. -/
def TState.setExpanded (s : TState) (i : Nat) (v : Nat) : TState :=
  { s with pool := s.pool.set i { s.getEnd i with expanded := v } }

/-- Write the _correspond field of a pool node. -/
def TState.setCorrespond (s : TState) (i : Nat) (v : List Hookup) : TState :=
  { s with pool := s.pool.set i { s.getEnd i with correspond := v } }

/-- Outcome of the chain walk in TunnelEnd::find. -/
inductive FindOutcome where
  | found (id : Nat)
  | parent (pos : Nat) (id : Nat)
  | missing
deriving DecidableEq, Repr

/-- The chain walk of TunnelEnd::find: the first exact port match
    wins; otherwise remember the newest-seen node with the same
    element index together with its chain position (the parent for
    lazy allocation). -/
def findLoop (s : TState) (h : Hookup) : List Nat → Nat → FindOutcome → FindOutcome
  | [], _, acc => acc
  | id :: rest, pos, acc =>
    if (s.getEnd id).port = h then FindOutcome.found id
    else if (s.getEnd id).port.idx = h.idx then
      findLoop s h rest (pos + 1) (FindOutcome.parent pos id)
    else findLoop s h rest (pos + 1) acc

/-- The fresh node allocated by TunnelEnd::find for the queried
    port. -/
def meEnd (s : TState) (h : Hookup) (output : Bool) : TEnd :=
  { port := h, output := output, other := s.pool.length + 1, expanded := 0, correspond := [] }

/-- The partner node allocated with it: same element as the parent
    partner, at the queried port number. -/
def othEnd (s : TState) (h : Hookup) (output : Bool) (id : Nat) : TEnd :=
  { port := ⟨(s.getEnd (s.getEnd id).other).port.idx, h.port⟩, output := !output,
    other := s.pool.length, expanded := 0, correspond := [] }

/-- The lazy allocation of TunnelEnd::find: push the fresh pair onto
    the pool, insert one node after the parent (chain position pos,
    node id) and its partner after the parent partner on the
    opposite chain. -/
def tallocate (s : TState) (h : Hookup) (output : Bool) (pos id : Nat) : TState :=
  let q := (s.chain (!output)).indexOf (s.getEnd id).other
  let myChain := List.insertIdx (pos + 1) s.pool.length (s.chain output)
  let otherChain := List.insertIdx (q + 1) (s.pool.length + 1) (s.chain (!output))
  { pool := s.pool ++ [meEnd s h output, othEnd s h output id]
    ichain := if output then otherChain else myChain
    ochain := if output then myChain else otherChain }

/-- Lexer::TunnelEnd::find on the chain of the given direction:
    return the pool index of the matching end; when the element is
    present only at other ports, allocate a fresh paired node pair
    (the pointer insert of the source becomes a positional
    insert). -/
def tfind (s : TState) (h : Hookup) (output : Bool) : Option (Nat × TState) :=
  match findLoop s h (s.chain output) 0 FindOutcome.missing with
  | FindOutcome.found id => some (id, s)
  | FindOutcome.missing => none
  | FindOutcome.parent pos id => some (s.pool.length, tallocate s h output pos id)

/-- The element list and the parallel connection arrays of the lexer
    at router-creation time. -/
structure LexGraph where
  elements : List Nat
  hfrom : List Hookup
  hto : List Hookup
deriving DecidableEq, Repr

/-- Lexer::find_connections: all opposite endpoints of connections
    touching the given endpoint on the given side. -/
def find_connections (g : LexGraph) (this_end : Hookup) (is_out : Bool) : List Hookup :=
  let hookup_this := if is_out then g.hfrom else g.hto
  let hookup_that := if is_out then g.hto else g.hfrom
  (hookup_this.zip hookup_that).filterMap fun pr =>
    if pr.1 = this_end then some pr.2 else none

mutual

/-- Lexer::TunnelEnd::expand.  Returns the updated state and the list
    of ports the call appends to its output vector: nothing when the
    end is already expanding (the cycle safe-stop), the cached
    resolved list when it is done, and the freshly computed resolved
    list after a first expansion.  Every level of the mutual
    recursion consumes one unit of fuel; none is fuel exhaustion. -/
def expandEnd (g : LexGraph) : Nat → Nat → TState → Option (TState × List Hookup)
  | 0, _, _ => none
  | fuel + 1, i, s =>
    let e := s.getEnd i
    if e.expanded = 1 then some (s, [])
    else if e.expanded = 0 then
      let s1 := s.setExpanded i 1
      let conns := find_connections g (s1.getEnd e.other).port (!e.output)
      match expandConns g fuel conns e.output s1 with
      | none => none
      | some (s2, corr) => some ((s2.setCorrespond i corr).setExpanded i 2, corr)
    else some (s, e.correspond)

/-- The loop in TunnelEnd::expand over the found connections, each
    flattened through Lexer::expand_connection into the _correspond
    vector. -/
def expandConns (g : LexGraph) : Nat → List Hookup → Bool → TState →
    Option (TState × List Hookup)
  | 0, _, _, _ => none
  | fuel + 1, conns, output, s =>
    match conns with
    | [] => some (s, [])
    | c :: rest =>
      match expand_connection g fuel c output s with
      | none => none
      | some (s1, out1) =>
        match expandConns g fuel rest output s1 with
        | none => none
        | some (s2, out2) => some (s2, out1 ++ out2)

/-- Lexer::expand_connection: a non-tunnel endpoint is emitted as is;
    a tunnel endpoint is resolved through its tunnel end (which find
    may lazily allocate); a tunnel endpoint found only on the
    opposite-direction chain is a direction error and yields
    nothing. -/
def expand_connection (g : LexGraph) : Nat → Hookup → Bool → TState →
    Option (TState × List Hookup)
  | 0, _, _, _ => none
  | fuel + 1, this_end, is_out, s =>
    if g.elements.getD this_end.idx TUNNEL_TYPE ≠ TUNNEL_TYPE then some (s, [this_end])
    else
      match tfind s this_end is_out with
      | some (i, s1) => expandEnd g fuel i s1
      | none =>
        match tfind s this_end (!is_out) with
        | some (_, s2) => some (s2, [])
        | none => some (s, [])

end

/-! ## Router emission (Lexer::create_router, add_router_connections) -/

/-- The element-to-router index map built by create_router: each
    non-tunnel element receives the next router index (the external
    Router hands out consecutive indices, per the interface), each
    tunnel-typed element receives -1. -/
def build_router_id : List Nat → Nat → List Int
  | [], _ => []
  | t :: rest, k =>
    if t ≠ TUNNEL_TYPE then (k : Int) :: build_router_id rest (k + 1)
    else (-1 : Int) :: build_router_id rest k

/-- A connection record handed to Router::add_connection. -/
structure EmittedConn where
  fromIdx : Int
  fromPort : Nat
  toIdx : Int
  toPort : Nat
deriving DecidableEq, Repr

/-- The nested emission loops of add_router_connections: the cross
    product of the expanded endpoint lists, filtered to pairs whose
    router indices are both non-negative. -/
def crossEmit (router_id : List Int) (hfroml htol : List Hookup) : List EmittedConn :=
  hfroml.foldr (fun hf acc =>
    (if 0 ≤ router_id.getD hf.idx (-1) then
      htol.filterMap (fun ht =>
        if 0 ≤ router_id.getD ht.idx (-1) then
          some ⟨router_id.getD hf.idx (-1), hf.port, router_id.getD ht.idx (-1), ht.port⟩
        else none)
    else []) ++ acc) []

/-- Lexer::add_router_connections: expand both endpoints of
    connection c through the tunnel engine and emit the guarded cross
    product. -/
def add_router_connections (g : LexGraph) (fuel : Nat) (c : Nat) (router_id : List Int)
    (s : TState) : Option (TState × List EmittedConn) :=
  match expand_connection g fuel (g.hfrom.getD c ⟨0, 0⟩) true s with
  | none => none
  | some (s1, hfroml) =>
    match expand_connection g fuel (g.hto.getD c ⟨0, 0⟩) false s1 with
    | none => none
    | some (s2, htol) => some (s2, crossEmit router_id hfroml htol)

/-- One iteration of the connection-emission loop of
    Lexer::create_router: a direct connection when both endpoints map
    to router elements, otherwise tunnel expansion through
    add_router_connections. -/
def crcStep (g : LexGraph) (fuel : Nat) (router_id : List Int)
    (acc : Option (TState × List EmittedConn)) (i : Nat) :
    Option (TState × List EmittedConn) :=
  match acc with
  | none => none
  | some (st, conns) =>
    let hf := g.hfrom.getD i ⟨0, 0⟩
    let ht := g.hto.getD i ⟨0, 0⟩
    let fromi := router_id.getD hf.idx (-1)
    let toi := router_id.getD ht.idx (-1)
    if 0 ≤ fromi ∧ 0 ≤ toi then
      some (st, conns ++ [⟨fromi, hf.port, toi, ht.port⟩])
    else
      match add_router_connections g fuel i router_id st with
      | none => none
      | some (st2, newConns) => some (st2, conns ++ newConns)

/-- The connection-emission phase of Lexer::create_router. -/
def create_router_connections (g : LexGraph) (fuel : Nat) (s : TState) :
    Option (TState × List EmittedConn) :=
  (List.range g.hfrom.length).foldl
    (crcStep g fuel (build_router_id g.elements 0)) (some (s, []))

/-- Concrete graph for the C3 witness: elements 0 and 1 are the two
    sides of a tunnel, elements 2 and 3 are real; element 2 feeds the
    tunnel and the tunnel feeds element 3. -/
def egGraph : LexGraph :=
  { elements := [0, 0, 2, 3]
    hfrom := [⟨2, 0⟩, ⟨1, 0⟩]
    hto := [⟨0, 0⟩, ⟨3, 0⟩] }

/-- Concrete tunnel-end state for the C3 and C4 witnesses: the pair
    of ends of the tunnel between elements 0 and 1. -/
def egTState : TState :=
  { pool := [⟨⟨0, 0⟩, false, 1, 0, []⟩, ⟨⟨1, 0⟩, true, 0, 0, []⟩]
    ichain := [0]
    ochain := [1] }


/-- The final tunnel state of the C3 witness run: both tunnel ends
    done, with their resolved lists cached. -/
def egTStateDone : TState :=
  { pool := [⟨⟨0, 0⟩, false, 1, 2, [⟨3, 0⟩]⟩, ⟨⟨1, 0⟩, true, 0, 2, [⟨2, 0⟩]⟩]
    ichain := [0]
    ochain := [1] }


/-- Number of fresh pool nodes (ends not yet visited by expand). -/
def freshCount (s : TState) : Nat :=
  s.pool.countP (fun e => e.expanded == 0)

/-- Whether the chain of a direction holds a node with the given
    port. -/
def inChain (s : TState) (output : Bool) (h : Hookup) : Bool :=
  (s.chain output).any (fun id => (s.getEnd id).port == h)

/-- Connection endpoints not yet materialised on the chain of one
    direction: lazy allocations still possible there. -/
def sideMiss (g : LexGraph) (s : TState) (output : Bool) : Nat :=
  ((g.hfrom ++ g.hto).filter (fun h => !(inChain s output h))).length

/-- All lazy allocations still possible during expansion. -/
def allocBudget (g : LexGraph) (s : TState) : Nat :=
  sideMiss g s false + sideMiss g s true

/-- The termination potential of the tunnel engine: it strictly
    decreases whenever an end leaves the fresh state and never
    increases under any engine step. -/
def tunnelPotential (g : LexGraph) (s : TState) : Nat :=
  freshCount s + 2 * allocBudget g s

/-- Chains reference only live pool nodes, as the pointer-based
    chains of the source always do. -/
def ChainsWF (s : TState) : Prop :=
  (∀ id ∈ s.ichain, id < s.pool.length) ∧ (∀ id ∈ s.ochain, id < s.pool.length)

/-- Fuel sufficient for a full expansion from a given state. -/
def tunnelFuel (g : LexGraph) (s : TState) : Nat :=
  1 + ((g.hfrom ++ g.hto).length + 3) * tunnelPotential g s

/-- Tunnel-end state with the input end mid-expansion, for the C4
    witness of the re-entry safe-stop. -/
def egTStateMid : TState :=
  { pool := [⟨⟨0, 0⟩, false, 1, 1, []⟩, ⟨⟨1, 0⟩, true, 0, 0, []⟩]
    ichain := [0]
    ochain := [1] }


/-- Tunnel-end state after expanding only the input end of the
    witness pair. -/
def egTStateHalf : TState :=
  { pool := [⟨⟨0, 0⟩, false, 1, 2, [⟨3, 0⟩]⟩, ⟨⟨1, 0⟩, true, 0, 0, []⟩]
    ichain := [0]
    ochain := [1] }


/-! ## Low-level scanning (Lexer::skip_line, skip_slash_star,
    lex_config, process_line_directive, next_lexeme) -/

/-- C-locale isspace. -/
def c_isspace (c : Char) : Bool :=
  c == ' ' || c == '\t' || c == '\n' || c == Char.ofNat 11 || c == Char.ofNat 12 || c == '\r'

/-- C-locale isdigit. -/
def c_isdigit (c : Char) : Bool :=
  '0' ≤ c && c ≤ '9'

/-- C-locale isalnum. -/
def c_isalnum (c : Char) : Bool :=
  ('0' ≤ c && c ≤ '9') || ('a' ≤ c && c ≤ 'z') || ('A' ≤ c && c ≤ 'Z')

/-- The scan loop of Lexer::skip_line (fuelled; every wrapper below
    supplies fuel covering the whole remaining text, so the zero-fuel
    arm coincides with the end-of-text exit). -/
def skip_line_f (d : List Char) : Nat → Nat → Nat → Nat × Nat
  | 0, _, lineno => (d.length, lineno - 1)
  | fuel + 1, pos, lineno =>
    if pos < d.length then
      if d.getD pos ' ' = '\n' then (pos + 1, lineno)
      else if d.getD pos ' ' = '\r' then
        if pos + 1 < d.length ∧ d.getD (pos + 1) ' ' = '\n' then (pos + 2, lineno)
        else (pos + 1, lineno)
      else skip_line_f d fuel (pos + 1) lineno
    else (d.length, lineno - 1)

/-- Lexer::skip_line: step past the next line terminator, counting
    the line; reaching the end of text leaves the count unchanged. -/
def skip_line (d : List Char) (pos lineno : Nat) : Nat × Nat :=
  skip_line_f d (d.length + 1 - pos) pos (lineno + 1)

/-- The scan loop of Lexer::skip_slash_star. -/
def skip_slash_star_f (d : List Char) : Nat → Nat → Nat → Nat × Nat
  | 0, _, lineno => (d.length, lineno)
  | fuel + 1, pos, lineno =>
    if pos < d.length then
      if d.getD pos ' ' = '\n' then skip_slash_star_f d fuel (pos + 1) (lineno + 1)
      else if d.getD pos ' ' = '\r' then
        if pos + 1 < d.length ∧ d.getD (pos + 1) ' ' = '\n' then
          skip_slash_star_f d fuel (pos + 2) (lineno + 1)
        else skip_slash_star_f d fuel (pos + 1) (lineno + 1)
      else if d.getD pos ' ' = '*' ∧ pos + 1 < d.length ∧ d.getD (pos + 1) ' ' = '/' then
        (pos + 2, lineno)
      else skip_slash_star_f d fuel (pos + 1) lineno
    else (d.length, lineno)

/-- Lexer::skip_slash_star: step past the closing star-slash,
    counting lines on the way. -/
def skip_slash_star (d : List Char) (pos lineno : Nat) : Nat × Nat :=
  skip_slash_star_f d (d.length + 1 - pos) pos lineno

/-- The scan loop of Lexer::lex_config: quote holds the character
    code of the active quote (0 when outside quotes), paren_depth the
    number of open parentheses.  The loop stops on the parenthesis
    that takes the depth to zero without consuming it, or at the end
    of text. -/
def lex_config_f (d : List Char) : Nat → Nat → Nat → Nat → Nat → Nat × Nat
  | 0, pos, lineno, _, _ => (pos, lineno)
  | fuel + 1, pos, lineno, depth, quote =>
    if pos < d.length then
      let c := d.getD pos ' '
      if c = '(' ∧ quote = 0 then lex_config_f d fuel (pos + 1) lineno (depth + 1) quote
      else if c = ')' ∧ quote = 0 then
        if depth = 1 then (pos, lineno)
        else lex_config_f d fuel (pos + 1) lineno (depth - 1) quote
      else if c = '\n' then lex_config_f d fuel (pos + 1) (lineno + 1) depth quote
      else if c = '\r' then
        if pos + 1 < d.length ∧ d.getD (pos + 1) ' ' = '\n' then
          lex_config_f d fuel (pos + 2) (lineno + 1) depth quote
        else lex_config_f d fuel (pos + 1) (lineno + 1) depth quote
      else if c = '/' ∧ pos + 1 < d.length ∧ quote = 0 then
        if d.getD (pos + 1) ' ' = '/' then
          let r := skip_line d (pos + 2) lineno
          lex_config_f d fuel r.1 r.2 depth quote
        else if d.getD (pos + 1) ' ' = '*' then
          let r := skip_slash_star d (pos + 2) lineno
          lex_config_f d fuel r.1 r.2 depth quote
        else lex_config_f d fuel (pos + 1) lineno depth quote
      else if (c = Char.ofNat 39 ∨ c = '"') ∧ quote = 0 then
        lex_config_f d fuel (pos + 1) lineno depth c.toNat
      else if quote ≠ 0 ∧ c.toNat = quote then
        lex_config_f d fuel (pos + 1) lineno depth 0
      else if c = '\\' ∧ pos + 1 < d.length ∧ quote = ('"').toNat then
        if d.getD (pos + 1) ' ' = '"' ∨ d.getD (pos + 1) ' ' = '$' then
          lex_config_f d fuel (pos + 2) lineno depth quote
        else lex_config_f d fuel (pos + 1) lineno depth quote
      else lex_config_f d fuel (pos + 1) lineno depth quote
    else (pos, lineno)

/-- Lexer::lex_config: the configuration substring from the current
    position up to the stopping position (which is not consumed),
    plus the stopping position and the updated line count. -/
def lex_config (d : List Char) (pos lineno : Nat) : List Char × Nat × Nat :=
  let r := lex_config_f d (d.length + 1 - pos) pos lineno 1 0
  ((d.drop pos).take (r.1 - pos), r.1, r.2)

/-- Modelled from the spec (the balancing-parenthesis contract of
    lex_config): position just past a raw single-quoted span. -/
def spec_squote_end_f (d : List Char) : Nat → Nat → Nat
  | 0, pos => pos
  | fuel + 1, pos =>
    if pos < d.length then
      if d.getD pos ' ' = Char.ofNat 39 then pos + 1
      else spec_squote_end_f d fuel (pos + 1)
    else d.length

/-- Modelled from the spec: position just past a raw single-quoted
    span, from the character after the opening quote. -/
def spec_squote_end (d : List Char) (pos : Nat) : Nat :=
  spec_squote_end_f d (d.length + 1 - pos) pos

/-- Modelled from the spec: position just past a double-quoted span,
    where backslash-quote and backslash-dollar are escapes. -/
def spec_dquote_end_f (d : List Char) : Nat → Nat → Nat
  | 0, pos => pos
  | fuel + 1, pos =>
    if pos < d.length then
      if d.getD pos ' ' = '"' then pos + 1
      else if d.getD pos ' ' = '\\' ∧ pos + 1 < d.length
          ∧ (d.getD (pos + 1) ' ' = '"' ∨ d.getD (pos + 1) ' ' = '$') then
        spec_dquote_end_f d fuel (pos + 2)
      else spec_dquote_end_f d fuel (pos + 1)
    else d.length

/-- Modelled from the spec: wrapper for the double-quote skip. -/
def spec_dquote_end (d : List Char) (pos : Nat) : Nat :=
  spec_dquote_end_f d (d.length + 1 - pos) pos

/-- Modelled from the spec: the position of the parenthesis that
    balances the already-consumed opening one — scan with nested
    parentheses, raw single-quoted spans, double-quoted spans with
    the two escapes, and line and block comments treated as opaque
    regions. -/
def spec_config_end_f (d : List Char) : Nat → Nat → Nat → Nat
  | 0, pos, _ => pos
  | fuel + 1, pos, depth =>
    if pos < d.length then
      let c := d.getD pos ' '
      if c = '(' then spec_config_end_f d fuel (pos + 1) (depth + 1)
      else if c = ')' then
        if depth = 1 then pos else spec_config_end_f d fuel (pos + 1) (depth - 1)
      else if c = '/' ∧ pos + 1 < d.length ∧ d.getD (pos + 1) ' ' = '/' then
        spec_config_end_f d fuel (skip_line d (pos + 2) 0).1 depth
      else if c = '/' ∧ pos + 1 < d.length ∧ d.getD (pos + 1) ' ' = '*' then
        spec_config_end_f d fuel (skip_slash_star d (pos + 2) 0).1 depth
      else if c = Char.ofNat 39 then
        spec_config_end_f d fuel (spec_squote_end d (pos + 1)) depth
      else if c = '"' then
        spec_config_end_f d fuel (spec_dquote_end d (pos + 1)) depth
      else spec_config_end_f d fuel (pos + 1) depth
    else pos

/-- Modelled from the spec: wrapper for the balancing-parenthesis
    position. -/
def spec_config_end (d : List Char) (pos : Nat) : Nat :=
  spec_config_end_f d (d.length + 1 - pos) pos 1


/-- Lexer scanner state: position into the text, current line
    number, current filename (the text itself and the original
    filename are passed separately). -/
structure Scan where
  pos : Nat
  lineno : Nat
  filename : String
deriving DecidableEq, Repr

/-- A lexeme: its kind code and its text. -/
structure Lexeme where
  kind : Nat
  str : List Char
deriving DecidableEq, Repr

/-- Space-or-tab skip loop used throughout process_line_directive. -/
def skip_ws_ht_f (d : List Char) : Nat → Nat → Nat
  | 0, pos => pos
  | fuel + 1, pos =>
    if pos < d.length ∧ (d.getD pos ' ' = ' ' ∨ d.getD pos ' ' = '\t') then
      skip_ws_ht_f d fuel (pos + 1)
    else pos

/-- Space-or-tab skip. -/
def skip_ws_ht (d : List Char) (pos : Nat) : Nat :=
  skip_ws_ht_f d (d.length + 1 - pos) pos

/-- Decimal digit run: accumulates the line number. -/
def parse_digits_f (d : List Char) : Nat → Nat → Nat → Nat × Nat
  | 0, pos, acc => (pos, acc)
  | fuel + 1, pos, acc =>
    if pos < d.length ∧ c_isdigit (d.getD pos ' ') then
      parse_digits_f d fuel (pos + 1) (acc * 10 + ((d.getD pos ' ').toNat - 48))
    else (pos, acc)

/-- Decimal digit run wrapper. -/
def parse_digits (d : List Char) (pos acc : Nat) : Nat × Nat :=
  parse_digits_f d (d.length + 1 - pos) pos acc

/-- The filename scan of process_line_directive: stop at a closing
    double quote or a line end; a backslash not followed by a line
    end protects the next character. -/
def fname_scan_f (d : List Char) : Nat → Nat → Nat
  | 0, pos => pos
  | fuel + 1, pos =>
    if pos < d.length ∧ d.getD pos ' ' ≠ '"' ∧ d.getD pos ' ' ≠ '\n'
        ∧ d.getD pos ' ' ≠ '\r' then
      if d.getD pos ' ' = '\\' ∧ pos + 1 < d.length ∧ d.getD (pos + 1) ' ' ≠ '\n'
          ∧ d.getD (pos + 1) ' ' ≠ '\r' then
        fname_scan_f d fuel (pos + 2)
      else fname_scan_f d fuel (pos + 1)
    else pos

/-- Filename scan wrapper. -/
def fname_scan (d : List Char) (pos : Nat) : Nat :=
  fname_scan_f d (d.length + 1 - pos) pos

/-- Scan to the next line terminator without consuming it. -/
def eol_scan_f (d : List Char) : Nat → Nat → Nat
  | 0, pos => pos
  | fuel + 1, pos =>
    if pos < d.length ∧ d.getD pos ' ' ≠ '\n' ∧ d.getD pos ' ' ≠ '\r' then
      eol_scan_f d fuel (pos + 1)
    else pos

/-- End-of-line scan wrapper. -/
def eol_scan (d : List Char) (pos : Nat) : Nat :=
  eol_scan_f d (d.length + 1 - pos) pos

/-- Lexer::process_line_directive.  cpu stands in for cp_unquote,
    which lives outside this repository; ofn is the original
    filename.  The Bool records whether the unknown-directive error
    was reported (the message itself goes to the error sink).  The
    source guards several lookaheads with unsigned subtractions such
    as pos < len - 4, which underflow on texts shorter than the
    subtrahend; they are modelled as the in-range additions. -/
def pld_tail (d : List Char) (cpu : String → String) (ofn : String)
    (st : Scan) (pos1 : Nat) : Scan × Bool :=
  if pos1 ≥ d.length ∨ ¬ c_isdigit (d.getD pos1 ' ') then
    let r := skip_line d pos1 st.lineno
    ({ pos := r.1, lineno := r.2, filename := st.filename }, true)
  else
    let pr := parse_digits d pos1 0
    let pos2 := skip_ws_ht d pr.1
    let fin :=
      if pos2 < d.length ∧ d.getD pos2 ' ' = '"' then
        let e := fname_scan d (pos2 + 1)
        let fn := cpu (String.mk ((d.drop pos2).take (e - pos2) ++ ['"', ':']))
        (e, if fn = ":" then ofn else fn)
      else (pos2, st.filename)
    let pos4 := eol_scan d fin.1
    let pos5 :=
      if pos4 + 1 < d.length ∧ d.getD pos4 ' ' = '\r' ∧ d.getD (pos4 + 1) ' ' = '\n'
      then pos4 + 1 else pos4
    ({ pos := pos5, lineno := pr.2 - 1, filename := fin.2 }, false)

/-- Wrapper gluing the directive-keyword skipping to the tail. -/
def process_line_directive (d : List Char) (cpu : String → String) (ofn : String)
    (st : Scan) : Scan × Bool :=
  let pos0 := skip_ws_ht d (st.pos + 1)
  let pos1 :=
    if pos0 + 4 < d.length ∧ d.getD pos0 ' ' = 'l' ∧ d.getD (pos0 + 1) ' ' = 'i'
        ∧ d.getD (pos0 + 2) ' ' = 'n' ∧ d.getD (pos0 + 3) ' ' = 'e'
        ∧ (d.getD (pos0 + 4) ' ' = ' ' ∨ d.getD (pos0 + 4) ' ' = '\t') then
      skip_ws_ht d (pos0 + 5)
    else pos0
  pld_tail d cpu ofn st pos1

/-- The whitespace loop at the top of Lexer::next_lexeme, counting
    line terminators. -/
def lex_ws_f (d : List Char) : Nat → Nat → Nat → Nat × Nat
  | 0, pos, lineno => (pos, lineno)
  | fuel + 1, pos, lineno =>
    if pos < d.length ∧ c_isspace (d.getD pos ' ') then
      if d.getD pos ' ' = '\n' then lex_ws_f d fuel (pos + 1) (lineno + 1)
      else if d.getD pos ' ' = '\r' then
        if pos + 1 < d.length ∧ d.getD (pos + 1) ' ' = '\n' then
          lex_ws_f d fuel (pos + 2) (lineno + 1)
        else lex_ws_f d fuel (pos + 1) (lineno + 1)
      else lex_ws_f d fuel (pos + 1) lineno
    else (pos, lineno)

/-- The identifier-extension loop of next_lexeme: alphanumerics,
    underscore, slash and at-sign, but a slash opening a comment
    ends the word. -/
def ident_scan_f (d : List Char) : Nat → Nat → Nat
  | 0, pos => pos
  | fuel + 1, pos =>
    if pos < d.length ∧ (c_isalnum (d.getD pos ' ') ∨ d.getD pos ' ' = '_'
        ∨ d.getD pos ' ' = '/' ∨ d.getD pos ' ' = '@') then
      if d.getD pos ' ' = '/' ∧ pos + 1 < d.length
          ∧ (d.getD (pos + 1) ' ' = '/' ∨ d.getD (pos + 1) ' ' = '*') then
        pos
      else ident_scan_f d fuel (pos + 1)
    else pos

/-- Identifier-extension wrapper. -/
def ident_scan (d : List Char) (pos : Nat) : Nat :=
  ident_scan_f d (d.length + 1 - pos) pos

/-- The variable-extension loop of next_lexeme: alphanumerics and
    underscore after the dollar sign. -/
def var_scan_f (d : List Char) : Nat → Nat → Nat
  | 0, pos => pos
  | fuel + 1, pos =>
    if pos < d.length ∧ (c_isalnum (d.getD pos ' ') ∨ d.getD pos ' ' = '_') then
      var_scan_f d fuel (pos + 1)
    else pos

/-- Variable-extension wrapper. -/
def var_scan (d : List Char) (pos : Nat) : Nat :=
  var_scan_f d (d.length + 1 - pos) pos

/-- The word-forming tail of next_lexeme, entered with the position
    on a non-space character that opens no comment and no line
    directive.  The three-dot lookahead is guarded by the unsigned
    pos < len - 2 in the source, modelled in range. -/
def next_lexeme_word (d : List Char) (st : Scan) : Lexeme × Scan :=
  let pos := st.pos
  let c := d.getD pos ' '
  if c_isalnum c ∨ c = '_' ∨ c = '@' then
    let e := ident_scan d (pos + 1)
    let word := (d.drop pos).take (e - pos)
    let kind :=
      if word = "connectiontunnel".toList then lexTunnel
      else if word = "elementclass".toList then lexElementclass
      else if word = "require".toList then lexRequire
      else lexIdent
    (⟨kind, word⟩, { st with pos := e })
  else if c = '$' ∧ var_scan d (pos + 1) > pos + 1 then
    let e := var_scan d (pos + 1)
    (⟨lexVariable, (d.drop pos).take (e - pos)⟩, { st with pos := e })
  else if pos + 1 < d.length ∧ c = '-' ∧ d.getD (pos + 1) ' ' = '>' then
    (⟨lexArrow, (d.drop pos).take 2⟩, { st with pos := pos + 2 })
  else if pos + 1 < d.length ∧ c = ':' ∧ d.getD (pos + 1) ' ' = ':' then
    (⟨lex2Colon, (d.drop pos).take 2⟩, { st with pos := pos + 2 })
  else if pos + 1 < d.length ∧ c = '|' ∧ d.getD (pos + 1) ' ' = '|' then
    (⟨lex2Bar, (d.drop pos).take 2⟩, { st with pos := pos + 2 })
  else if pos + 2 < d.length ∧ c = '.' ∧ d.getD (pos + 1) ' ' = '.'
      ∧ d.getD (pos + 2) ' ' = '.' then
    (⟨lex3Dot, (d.drop pos).take 3⟩, { st with pos := pos + 3 })
  else
    (⟨c.toNat, (d.drop pos).take 1⟩, { st with pos := pos + 1 })

/-- The skipping loop of Lexer::next_lexeme (fuelled; the wrapper
    supplies enough fuel since every iteration advances the
    position).  The zero-fuel arm coincides with the end-of-text
    exit.  A hash mark starts a line directive only when it sits at
    position zero or directly after a line terminator. -/
def next_lexeme_loop (d : List Char) (cpu : String → String) (ofn : String) :
    Nat → Scan → Lexeme × Scan
  | 0, st => (⟨lexEOF, []⟩, { st with pos := d.length })
  | fuel + 1, st =>
    let w := lex_ws_f d (d.length + 1 - st.pos) st.pos st.lineno
    let st1 : Scan := { st with pos := w.1, lineno := w.2 }
    if w.1 ≥ d.length then (⟨lexEOF, []⟩, { st1 with pos := d.length })
    else if d.getD w.1 ' ' = '/' ∧ w.1 + 1 < d.length ∧ d.getD (w.1 + 1) ' ' = '/' then
      let r := skip_line d (w.1 + 2) st1.lineno
      next_lexeme_loop d cpu ofn fuel { st1 with pos := r.1, lineno := r.2 }
    else if d.getD w.1 ' ' = '/' ∧ w.1 + 1 < d.length ∧ d.getD (w.1 + 1) ' ' = '*' then
      let r := skip_slash_star d (w.1 + 2) st1.lineno
      next_lexeme_loop d cpu ofn fuel { st1 with pos := r.1, lineno := r.2 }
    else if d.getD w.1 ' ' = '#'
        ∧ (w.1 = 0 ∨ d.getD (w.1 - 1) ' ' = '\n' ∨ d.getD (w.1 - 1) ' ' = '\r') then
      next_lexeme_loop d cpu ofn fuel (process_line_directive d cpu ofn st1).1
    else
      next_lexeme_word d st1

/-- Lexer::next_lexeme. -/
def next_lexeme (d : List Char) (cpu : String → String) (ofn : String) (st : Scan) :
    Lexeme × Scan :=
  next_lexeme_loop d cpu ofn (d.length + 1) st


/-- Concrete text for exercising lex_config: a(b)x with a
    parenthesis hidden in a single-quoted span. -/
def C7d : List Char := ['a', Char.ofNat 39, '(', Char.ofNat 39, 'b', ')', 'x']


/-- Text whose second line-1 character is a hash preceded by a space:
    the lexer must not treat it as a line directive. -/
def C8d : List Char := (" #line 5\nx").toList

/-- Text with a hash directly after a newline: a genuine #line 7
    directive followed by the identifier y. -/
def C8e : List Char := ("x\n#line 7\ny").toList


/-! ## Statement parsing (Lexer::yelement, ydeclaration, yconnection,
    ystatement) over the scanner above.  Punctuation lexeme kinds are
    character codes: 40 41 are the parentheses, 44 the comma, 59 the
    semicolon, 91 93 the square brackets, 123 125 the curly brackets.
    Compound classes (ycompound, reached on a curly bracket) and the
    yelementclass / ytunnel / yrequire statements are outside the
    modelled fragment: the parser returns none on them, and every
    theorem below is about runs that stay inside the fragment. -/

/-- Error reports of the parser, as tags (the messages themselves go
    to the error sink). -/
inductive ParseErr where
  | decl (e : DeclErr)
  | unknownElementClass (name : String)
  | undeclaredElement (name : String)
  | expectedElementName
  | expectedSep
  | missingElementType
  | syntaxErrorBefore (s : List Char)
  | syntaxErrorNear (s : List Char)
  | inputPortUseless
  | outputPortUseless
  | portShouldBeInteger
  | expectedPortNumber
  | expectedKind (kind : Nat)
  | expectedRBrace
deriving DecidableEq, Repr

/-- The parser-level state of the lexer: the raw scanner, the pushback
    buffer (the tcircle between the read and write positions, as a
    queue), the element-type registry, the element arrays, the hookup
    lists (element index and clamped port), the anonymous-name offset
    and the reported errors. -/
structure PState where
  scan : Scan
  pending : List Lexeme
  reg : Reg
  elems : ElemState
  hookup_from : List (Int × Int)
  hookup_to : List (Int × Int)
  anonymous_offset : Nat
  errors : List ParseErr

/-- Lexer::lex with pushback: take the front of the pending queue,
    else scan the next lexeme. -/
def PState.plex (d : List Char) (cpu : String → String) (ofn : String) (st : PState) :
    Lexeme × PState :=
  match st.pending with
  | t :: ts => (t, { st with pending := ts })
  | [] =>
    let r := next_lexeme d cpu ofn st.scan
    (r.1, { st with scan := r.2 })

/-- Lexer::unlex: append at the write position of the tcircle. -/
def PState.unlexT (st : PState) (t : Lexeme) : PState :=
  { st with pending := st.pending ++ [t] }

/-- Lexer::landmark: the filename followed by the line number. -/
def PState.landmark (st : PState) : String :=
  st.scan.filename ++ toString st.scan.lineno

/-- Lexer::expect with error reporting: consume the lexeme when it has
    the expected kind, else report and push it back. -/
def PState.expect (d : List Char) (cpu : String → String) (ofn : String) (k : Nat)
    (st : PState) : PState :=
  let pr := PState.plex d cpu ofn st
  if pr.1.kind = k then pr.2
  else { PState.unlexT pr.2 pr.1 with errors := pr.2.errors ++ [ParseErr.expectedKind k] }

/-- Lexer::connect: ports below zero are clamped to zero. -/
def PState.connect (st : PState) (e1 p1 e2 p2 : Int) : PState :=
  { st with
    hookup_from := st.hookup_from ++ [(e1, if p1 < 0 then 0 else p1)]
    hookup_to := st.hookup_to ++ [(e2, if p2 < 0 then 0 else p2)] }

/-- The payload standing for a freshly allocated ErrorElement. -/
def errorElementPayload : Nat := 1

/-- Lexer::force_element_type: an unknown class name reports an error
    and registers an ErrorElement under that name. -/
def PState.force_element_type (st : PState) (name : String) : Int × PState :=
  let ftid := st.reg.element_type_map name
  if 0 ≤ ftid then (ftid, st)
  else
    let r := add_element_type st.reg name errorElementPayload
    ((r.1 : Int),
      { st with reg := r.2, errors := st.errors ++ [ParseErr.unknownElementClass name] })

/-- The probe loop of Lexer::anon_element_name: bump the anonymizer
    until the candidate name is unmapped.  The fuel covers states
    where at most as many names are mapped as elements exist, which
    the lexer maintains. -/
def anon_name_loop (emap : String → Int) (prefixStr : String) : Nat → Nat → String
  | 0, k => prefixStr ++ toString k
  | fuel + 1, k =>
    let nm := prefixStr ++ toString k
    if 0 ≤ emap nm then anon_name_loop emap prefixStr fuel (k + 1) else nm

/-- Lexer::anon_element_name. -/
def PState.anon_element_name (st : PState) (class_name : String) : String :=
  anon_name_loop st.elems.element_map (class_name ++ "@") (st.elems.elements.length + 1)
    (st.elems.elements.length - st.anonymous_offset + 1)

/-- Lexer::yport.  cpint stands for cp_integer, which lives outside
    this repository.  The returned Option Int is the by-reference
    port: none leaves the caller's value untouched. -/
def yport (d : List Char) (cpu : String → String) (ofn : String)
    (cpint : String → Option Int) (st : PState) : Option Int × PState :=
  let pr := PState.plex d cpu ofn st
  if pr.1.kind = 91 then
    let pw := PState.plex d cpu ofn pr.2
    if pw.1.kind = lexIdent then
      match cpint (String.mk pw.1.str) with
      | some p => (some p, PState.expect d cpu ofn 93 pw.2)
      | none =>
        (some 0, PState.expect d cpu ofn 93
          { pw.2 with errors := pw.2.errors ++ [ParseErr.portShouldBeInteger] })
    else if pw.1.kind = 93 then
      (some 0, { pw.2 with errors := pw.2.errors ++ [ParseErr.expectedPortNumber] })
    else
      (none, { PState.unlexT pw.2 pw.1 with
        errors := pw.2.errors ++ [ParseErr.expectedPortNumber] })
  else (none, PState.unlexT pr.2 pr.1)

/-- The declaration-list gathering loop of Lexer::ydeclaration.
    atMid is true when entering at the midpoint label (after a name).
    Returns the gathered names on a double colon, or none on the
    syntax-error early return. -/
def ydecl_gather (d : List Char) (cpu : String → String) (ofn : String) :
    Nat → PState → List String → Bool → Option (List String) × PState
  | 0, st, _, _ => (none, st)
  | fuel + 1, st, decls, atMid =>
    if atMid then
      let pr := PState.plex d cpu ofn st
      if pr.1.kind = 44 then ydecl_gather d cpu ofn fuel pr.2 decls false
      else if pr.1.kind = lex2Colon then (some decls, pr.2)
      else
        (none, { PState.unlexT pr.2 pr.1 with errors := pr.2.errors ++ [ParseErr.expectedSep] })
    else
      let pr := PState.plex d cpu ofn st
      if pr.1.kind = lexIdent then
        ydecl_gather d cpu ofn fuel pr.2 (decls ++ [String.mk pr.1.str]) true
      else
        ydecl_gather d cpu ofn fuel
          { pr.2 with errors := pr.2.errors ++ [ParseErr.expectedElementName] } decls true

/-- Lexer::ydeclaration: gather the declared names, parse the element
    type (none on a compound class) and the optional configuration,
    then commit each name through the final loop, reusing
    Lexer.ydeclaration_commit.  A non-empty first_element enters the
    gathering loop at its midpoint, as in the source. -/
def ydeclaration (d : List Char) (cpu : String → String) (ofn : String)
    (st : PState) (first_element : String) : Option PState :=
  let fuel := st.pending.length + (d.length + 1 - st.scan.pos) + 1
  let g :=
    if first_element ≠ "" then ydecl_gather d cpu ofn fuel st [first_element] true
    else ydecl_gather d cpu ofn fuel st [] false
  match g with
  | (none, st1) => some st1
  | (some decls, st1) =>
    let lm := PState.landmark st1
    let pt := PState.plex d cpu ofn st1
    if pt.1.kind = lexIdent then
      let fr := PState.force_element_type pt.2 (String.mk pt.1.str)
      let pc := PState.plex d cpu ofn fr.2
      let cfg :=
        if pc.1.kind = 40 then
          let r := lex_config d pc.2.scan.pos pc.2.scan.lineno
          let st3 := { pc.2 with scan := { pc.2.scan with pos := r.2.1, lineno := r.2.2 } }
          (String.mk r.1, PState.expect d cpu ofn 41 st3)
        else ("", PState.unlexT pc.2 pc.1)
      let cm := Lexer.ydeclaration_commit cfg.2.reg.element_type_map (PState.landmark cfg.2)
        cfg.2.elems decls fr.1.toNat cfg.1 lm
      some { cfg.2 with elems := cm.1, errors := cfg.2.errors ++ cm.2.map ParseErr.decl }
    else if pt.1.kind = 123 then none
    else some { pt.2 with errors := pt.2.errors ++ [ParseErr.missingElementType] }

/-- The tail of Lexer::yelement once the name and its optional
    configuration are read: a known class makes an anonymous element;
    otherwise the name must already be an element, or a following
    double colon (or comma when allowed) makes this a declaration, or
    the undeclared-element error creates an ERROR_TYPE element. -/
def yelement_make (d : List Char) (cpu : String → String) (ofn : String)
    (st : PState) (comma_ok : Bool) (name : String) (etype : Int) (config lm : String) :
    Option (Bool × Int × PState) :=
  if 0 ≤ etype then
    let r := Lexer.get_element st.elems (PState.landmark st) (PState.anon_element_name st name)
      etype.toNat config lm
    some (true, (r.1 : Int), { st with elems := r.2 })
  else
    let e := st.elems.element_map name
    if e < 0 then
      let pk := PState.plex d cpu ofn st
      let st2 := PState.unlexT pk.2 pk.1
      if pk.1.kind = lex2Colon ∨ (pk.1.kind = 44 ∧ comma_ok) then
        match ydeclaration d cpu ofn st2 name with
        | none => none
        | some st3 => some (true, st3.elems.element_map name, st3)
      else
        let st3 := { st2 with errors := st2.errors ++ [ParseErr.undeclaredElement name] }
        let r := Lexer.get_element st3.elems (PState.landmark st3) name ERROR_TYPE "" ""
        let st4 := { st3 with elems := r.2 }
        some (true, st4.elems.element_map name, st4)
    else some (true, e, st)

/-- Lexer::yelement.  Returns none on a compound class; otherwise the
    Bool says whether an element was read, and the Int is the
    by-reference element index (meaningful when the Bool holds). -/
def yelement (d : List Char) (cpu : String → String) (ofn : String)
    (st : PState) (comma_ok : Bool) : Option (Bool × Int × PState) :=
  let pt := PState.plex d cpu ofn st
  if pt.1.kind = lexIdent then
    let name := String.mk pt.1.str
    let etype0 := pt.2.reg.element_type_map name
    let pp := PState.plex d cpu ofn pt.2
    if pp.1.kind = 40 then
      let lm := PState.landmark pp.2
      let fr := if etype0 < 0 then PState.force_element_type pp.2 name else (etype0, pp.2)
      let r := lex_config d fr.2.scan.pos fr.2.scan.lineno
      let st3 := { fr.2 with scan := { fr.2.scan with pos := r.2.1, lineno := r.2.2 } }
      let st4 := PState.expect d cpu ofn 41 st3
      yelement_make d cpu ofn st4 comma_ok name fr.1 (String.mk r.1) lm
    else
      yelement_make d cpu ofn (PState.unlexT pp.2 pp.1) comma_ok name etype0 "" ""
  else if pt.1.kind = 123 then none
  else some (false, -1, PState.unlexT pt.2 pt.1)

mutual

/-- The element-reading phase of Lexer::yconnection: read an optional
    input port and an element; stop when no element follows, else
    connect and move to the relex phase. -/
def yconn_loop (d : List Char) (cpu : String → String) (ofn : String)
    (cpint : String → Option Int) :
    Nat → PState → Int → Int → Option (Bool × PState)
  | 0, _, _, _ => none
  | fuel + 1, st, element1, port1 =>
    let pp := yport d cpu ofn cpint st
    let port2 := pp.1.getD (-1)
    match yelement d cpu ofn pp.2 (decide (element1 < 0)) with
    | none => none
    | some (false, _, st2) =>
      let st3 := if 0 ≤ port1 then { st2 with errors := st2.errors ++ [ParseErr.outputPortUseless] }
        else st2
      some (decide (0 ≤ element1), st3)
    | some (true, element2, st2) =>
      let st3 :=
        if 0 ≤ element1 then PState.connect st2 element1 port1 element2 port2
        else if 0 ≤ port2 then { st2 with errors := st2.errors ++ [ParseErr.inputPortUseless] }
        else st2
      yconn_relex d cpu ofn cpint fuel st3 element2 (-1)

/-- The relex phase of Lexer::yconnection: the switch on the lexeme
    after an element. -/
def yconn_relex (d : List Char) (cpu : String → String) (ofn : String)
    (cpint : String → Option Int) :
    Nat → PState → Int → Int → Option (Bool × PState)
  | 0, _, _, _ => none
  | fuel + 1, st, element2, port1 =>
    let pr := PState.plex d cpu ofn st
    let t := pr.1
    let st1 := pr.2
    if t.kind = 44 ∨ t.kind = lex2Colon then
      yconn_relex d cpu ofn cpint fuel
        { st1 with errors := st1.errors ++ [ParseErr.syntaxErrorBefore t.str] } element2 port1
    else if t.kind = lexArrow then
      yconn_loop d cpu ofn cpint fuel st1 element2 port1
    else if t.kind = 91 then
      let pp := yport d cpu ofn cpint (PState.unlexT st1 t)
      yconn_relex d cpu ofn cpint fuel pp.2 element2 (pp.1.getD port1)
    else if t.kind = lexIdent ∨ t.kind = 123 ∨ t.kind = 125 ∨ t.kind = lex2Bar
        ∨ t.kind = lexTunnel ∨ t.kind = lexElementclass ∨ t.kind = lexRequire then
      let st2 := PState.unlexT st1 t
      some (true,
        if 0 ≤ port1 then { st2 with errors := st2.errors ++ [ParseErr.outputPortUseless] }
        else st2)
    else if t.kind = 59 ∨ t.kind = lexEOF then
      some (true,
        if 0 ≤ port1 then { st1 with errors := st1.errors ++ [ParseErr.outputPortUseless] }
        else st1)
    else
      let st2 := { st1 with errors := st1.errors ++ [ParseErr.syntaxErrorNear t.str] }
      some (true, if lexIdent ≤ t.kind then PState.unlexT st2 t else st2)

end

/-- Lexer::yconnection: the source reads port1 uninitialised on the
    degenerate first-element failure path; it is modelled as -1. -/
def yconnection (d : List Char) (cpu : String → String) (ofn : String)
    (cpint : String → Option Int) (st : PState) : Option (Bool × PState) :=
  yconn_loop d cpu ofn cpint (st.pending.length + (d.length + 1 - st.scan.pos) + 1)
    st (-1) (-1)

/-- Lexer::ystatement.  The element-class, tunnel and require
    statements are outside the modelled fragment. -/
def ystatement (d : List Char) (cpu : String → String) (ofn : String)
    (cpint : String → Option Int) (st : PState) (nested : Bool) : Option (Bool × PState) :=
  let pr := PState.plex d cpu ofn st
  let t := pr.1
  let st1 := pr.2
  if t.kind = lexIdent ∨ t.kind = 91 ∨ t.kind = 123 then
    match yconnection d cpu ofn cpint (PState.unlexT st1 t) with
    | none => none
    | some r => some (true, r.2)
  else if t.kind = lexElementclass ∨ t.kind = lexTunnel ∨ t.kind = lexRequire then none
  else if t.kind = 59 then some (true, st1)
  else if t.kind = 125 ∨ t.kind = lex2Bar then
    if nested then some (false, PState.unlexT st1 t)
    else some (true, { st1 with errors := st1.errors ++ [ParseErr.syntaxErrorNear t.str] })
  else if t.kind = lexEOF then
    if nested then some (false, { st1 with errors := st1.errors ++ [ParseErr.expectedRBrace] })
    else some (false, st1)
  else some (true, { st1 with errors := st1.errors ++ [ParseErr.syntaxErrorNear t.str] })

/-- The statement loop: the lexer's driver (outside this file) calls
    ystatement(false) until it returns false. -/
def ystatements (d : List Char) (cpu : String → String) (ofn : String)
    (cpint : String → Option Int) : Nat → PState → Option PState
  | 0, _ => none
  | fuel + 1, st =>
    match ystatement d cpu ofn cpint st false with
    | none => none
    | some (true, st1) => ystatements d cpu ofn cpint fuel st1
    | some (false, st1) => some st1

/-- Statement-loop wrapper with fuel covering the text. -/
def run_statements (d : List Char) (cpu : String → String) (ofn : String)
    (cpint : String → Option Int) (st : PState) : Option PState :=
  ystatements d cpu ofn cpint (d.length + 2) st

/-- cp_integer stand-in for runs that parse no ports. -/
def noCpInt : String → Option Int := fun _ => none

/-- The empty element-type registry. -/
def emptyReg : Reg :=
  { element_types := []
    element_type_names := []
    element_type_next := []
    element_type_map := fun _ => -1
    last_element_type := -1
    free_element_type := -1 }

/-- The registry as the lexer constructor builds it (tunnel slot 0,
    error slot 1) with one user class Id at slot 2. -/
def egParseReg : Reg :=
  (add_element_type
    (add_element_type (add_element_type emptyReg "<tunnel>" 1).2 "Error" 1).2 "Id" 2).2

/-- Fresh parser state over the Id registry. -/
def egPState : PState :=
  { scan := { pos := 0, lineno := 1, filename := "conf:" }
    pending := []
    reg := egParseReg
    elems := emptyElemState
    hookup_from := []
    hookup_to := []
    anonymous_offset := 0
    errors := [] }

/-- The exemplar text of the redeclaration claim. -/
def C6text : List Char := ("a :: Id; a :: Id;").toList

/-- A declaration list naming a twice: the input that does reach the
    redeclaration error. -/
def C6text2 : List Char := ("a, a :: Id;").toList


/-- Parser state after the first statement a :: Id; of the exemplar:
    one element a of class Id. -/
def C6st1 : PState :=
  { scan := { pos := 8, lineno := 1, filename := "conf:" }
    pending := []
    reg := egParseReg
    elems :=
      { element_map := fun n => if n = "a" then 0 else -1
        elements := [2]
        element_names := ["a"]
        element_configurations := [""]
        element_landmarks := ["conf:1"] }
    hookup_from := []
    hookup_to := []
    anonymous_offset := 0
    errors := [] }

/-- Parser state after the second statement consumed a and the double
    colon: the syntax error is recorded, the Id lexeme pushed back,
    and the elements untouched. -/
def C6st2 : PState :=
  { scan := { pos := 16, lineno := 1, filename := "conf:" }
    pending := [⟨lexIdent, ['I', 'd']⟩]
    reg := egParseReg
    elems :=
      { element_map := fun n => if n = "a" then 0 else -1
        elements := [2]
        element_names := ["a"]
        element_configurations := [""]
        element_landmarks := ["conf:1"] }
    hookup_from := []
    hookup_to := []
    anonymous_offset := 0
    errors := [ParseErr.syntaxErrorBefore [':', ':']] }

/-- Parser state after the pushed-back Id formed the anonymous
    element Id@2: the element list has grown to two. -/
def C6st3 : PState :=
  { scan := { pos := 17, lineno := 1, filename := "conf:" }
    pending := []
    reg := egParseReg
    elems :=
      { element_map := fun n => if n = "Id@2" then 1 else if n = "a" then 0 else -1
        elements := [2, 2]
        element_names := ["a", "Id@2"]
        element_configurations := ["", ""]
        element_landmarks := ["conf:1", "conf:1"] }
    hookup_from := []
    hookup_to := []
    anonymous_offset := 0
    errors := [ParseErr.syntaxErrorBefore [':', ':']] }

/-- Parser state after the single statement a, a :: Id;: one element
    a plus the redeclaration report and its hint. -/
def C6d1 : PState :=
  { scan := { pos := 11, lineno := 1, filename := "conf:" }
    pending := []
    reg := egParseReg
    elems :=
      { element_map := fun n => if n = "a" then 0 else -1
        elements := [2]
        element_names := ["a"]
        element_configurations := [""]
        element_landmarks := ["conf:1"] }
    hookup_from := []
    hookup_to := []
    anonymous_offset := 0
    errors := [ParseErr.decl (DeclErr.redeclaration "a"),
      ParseErr.decl (DeclErr.previouslyDeclaredHere "a")] }

/-! # Theorems -/

/-! ## C1 -/

/-- Helper: find_relevant_class on a cons unfolds to a match test plus
    a shifted recursive result. -/
theorem find_relevant_class_cons (c : CompoundSig) (rest : List CompoundSig)
    (hasFallback : Bool) (ni no na : Nat) :
    find_relevant_class (c :: rest) hasFallback ni no na =
      if sigMatches c ni no na then .matched 0
      else bumpFind (find_relevant_class rest hasFallback ni no na) := rfl

/-- C1: find_relevant_class walks the overload chain newest first and
    returns the first record whose (ninputs, noutputs, nformals)
    equals the call site arities; with no match it returns the
    non-compound fallback when the chain ends in one, and no match
    otherwise. -/
theorem C1_find_relevant_class (chain : List CompoundSig) (hasFallback : Bool)
    (ni no na : Nat) :
    find_relevant_class chain hasFallback ni no na =
      match chain.findIdx? (fun c => sigMatches c ni no na) with
      | some i => FindResult.matched i
      | none => if hasFallback then FindResult.fallback else FindResult.noMatch := by
  induction chain with
  | nil => rfl
  | cons c rest ih =>
    rw [find_relevant_class_cons, ih]
    by_cases h : sigMatches c ni no na
    · simp [h, List.findIdx?_cons]
    · cases hfi : rest.findIdx? (fun c => sigMatches c ni no na) with
      | none =>
        cases hasFallback <;> simp [h, List.findIdx?_cons, hfi, bumpFind]
      | some i =>
        simp [h, List.findIdx?_cons, hfi, bumpFind]

/-! ## C2 -/

/-- Helper: marking a port makes the flag vector exactly long enough
    to hold it. -/
theorem markPort_length (v : List Bool) (p : Nat) :
    (markPort v p).length = max v.length (p + 1) := by
  unfold markPort
  by_cases h : v.length ≤ p <;>
    simp [h, List.length_set, List.length_append, List.length_replicate] <;> omega

/-- Helper: the finish step updates from_in only for sources on
    pseudoelement 0. -/
theorem finishStep_from_in (acc : FinishAcc) (h : Hookup × Hookup) :
    (finishStep acc h).from_in =
      if h.1.idx = 0 then markPort acc.from_in h.1.port else acc.from_in := by
  unfold finishStep
  by_cases h1 : h.1.idx = 0 <;> by_cases h1b : h.1.idx = 1 <;>
    by_cases h2 : h.2.idx = 1 <;> by_cases h2b : h.2.idx = 0 <;>
      simp_all

/-- Helper: the finish step updates to_out only for sinks on
    pseudoelement 1. -/
theorem finishStep_to_out (acc : FinishAcc) (h : Hookup × Hookup) :
    (finishStep acc h).to_out =
      if h.2.idx = 1 then markPort acc.to_out h.2.port else acc.to_out := by
  unfold finishStep
  by_cases h1 : h.1.idx = 0 <;> by_cases h1b : h.1.idx = 1 <;>
    by_cases h2 : h.2.idx = 1 <;> by_cases h2b : h.2.idx = 0 <;>
      simp_all

/-- Helper: the finish step raises to_in exactly on sinks at
    pseudoelement 0. -/
theorem finishStep_to_in (acc : FinishAcc) (h : Hookup × Hookup) :
    (finishStep acc h).to_in = (acc.to_in || h.2.idx == 0) := by
  unfold finishStep
  by_cases h1 : h.1.idx = 0 <;> by_cases h1b : h.1.idx = 1 <;>
    by_cases h2 : h.2.idx = 1 <;> by_cases h2b : h.2.idx = 0 <;>
      simp_all

/-- Helper: the finish step raises from_out exactly on sources at
    pseudoelement 1. -/
theorem finishStep_from_out (acc : FinishAcc) (h : Hookup × Hookup) :
    (finishStep acc h).from_out = (acc.from_out || h.1.idx == 1) := by
  unfold finishStep
  by_cases h1 : h.1.idx = 0 <;> by_cases h1b : h.1.idx = 1 <;>
    by_cases h2 : h.2.idx = 1 <;> by_cases h2b : h.2.idx = 0 <;>
      simp_all

/-- Helper: length of the from_in vector after the finish loop. -/
theorem finishScan_from_in_length (l : List (Hookup × Hookup)) (acc : FinishAcc) :
    (l.foldl finishStep acc).from_in.length =
      max acc.from_in.length
        (listMax (l.filterMap fun h => if h.1.idx = 0 then some (h.1.port + 1) else none)) := by
  induction l generalizing acc with
  | nil => simp [listMax]
  | cons h t ih =>
    rw [List.foldl_cons, ih]
    by_cases h1 : h.1.idx = 0 <;>
      simp [finishStep_from_in, h1, markPort_length, listMax, List.filterMap_cons] <;>
        omega

/-- Helper: length of the to_out vector after the finish loop. -/
theorem finishScan_to_out_length (l : List (Hookup × Hookup)) (acc : FinishAcc) :
    (l.foldl finishStep acc).to_out.length =
      max acc.to_out.length
        (listMax (l.filterMap fun h => if h.2.idx = 1 then some (h.2.port + 1) else none)) := by
  induction l generalizing acc with
  | nil => simp [listMax]
  | cons h t ih =>
    rw [List.foldl_cons, ih]
    by_cases h1 : h.2.idx = 1 <;>
      simp [finishStep_to_out, h1, markPort_length, listMax, List.filterMap_cons] <;>
        omega

/-- Helper: to_in after the finish loop. -/
theorem finishScan_to_in (l : List (Hookup × Hookup)) (acc : FinishAcc) :
    (l.foldl finishStep acc).to_in = (acc.to_in || l.any fun h => h.2.idx == 0) := by
  induction l generalizing acc with
  | nil => simp
  | cons h t ih =>
    rw [List.foldl_cons, ih, finishStep_to_in]
    simp [Bool.or_assoc]

/-- Helper: from_out after the finish loop. -/
theorem finishScan_from_out (l : List (Hookup × Hookup)) (acc : FinishAcc) :
    (l.foldl finishStep acc).from_out = (acc.from_out || l.any fun h => h.1.idx == 1) := by
  induction l generalizing acc with
  | nil => simp
  | cons h t ih =>
    rw [List.foldl_cons, ih, finishStep_from_out]
    simp [Bool.or_assoc]

/-- C2: Compound::finish sets ninputs to one past the highest port of
    pseudoelement input (index 0) used as a connection source, and
    noutputs to one past the highest port of pseudoelement output
    (index 1) used as a connection sink; a connection using input as a
    sink, or output as a source, produces the corresponding error
    report. -/
theorem C2_compound_finish (hookups : List (Hookup × Hookup)) :
    (Compound.finish hookups).1 =
      listMax (hookups.filterMap fun h => if h.1.idx = 0 then some (h.1.port + 1) else none)
    ∧ (Compound.finish hookups).2.1 =
      listMax (hookups.filterMap fun h => if h.2.idx = 1 then some (h.2.port + 1) else none)
    ∧ (CompoundErr.inputMayOnlyBeOutput ∈ (Compound.finish hookups).2.2 ↔
        ∃ h ∈ hookups, h.2.idx = 0)
    ∧ (CompoundErr.outputMayOnlyBeInput ∈ (Compound.finish hookups).2.2 ↔
        ∃ h ∈ hookups, h.1.idx = 1) := by
  simp only [Compound.finish, finishScan]
  refine ⟨?_, ?_, ?_, ?_⟩
  · rw [finishScan_from_in_length]; simp
  · rw [finishScan_to_out_length]; simp
  · simp [List.mem_append, List.mem_filterMap, finishScan_to_in, List.any_eq_true]
  · simp [List.mem_append, List.mem_filterMap, finishScan_from_out, List.any_eq_true]

/-! ## C9 -/

/-- C9 (code bug): lexeme_string prints the identifier kind as
    identifier, but its variable branch repeats the identifier test,
    so the variable kind falls through to the numeric escape fallback
    instead of yielding a string describing a variable. -/
theorem C9_lexeme_string_variable_bug :
    lexeme_string lexIdent = "identifier"
    ∧ lexeme_string lexVariable ≠ "variable"
    ∧ lexeme_string lexVariable = bq ("\\" ++ decimal3 lexVariable) := by
  refine ⟨rfl, ?_, ?_⟩
  · decide
  · decide

/-! ## C10 -/

/-- C10: get_element on a name already present returns the mapped
    index and leaves the whole element state unchanged, discarding the
    type, configuration and landmark arguments. -/
theorem C10_get_element_existing (st : ElemState) (curLandmark name : String)
    (etype : Nat) (conf lm : String) (h : 0 ≤ st.element_map name) :
    Lexer.get_element st curLandmark name etype conf lm =
      ((st.element_map name).toNat, st) := by
  simp [Lexer.get_element, h]

/-- Witness for C10 at a concrete one-element state. -/
theorem C10_witness :
    Lexer.get_element egElemState "file:9" "a" 7 "other" "file:9" = (0, egElemState) := by
  have h : 0 ≤ egElemState.element_map "a" := by decide
  have := C10_get_element_existing egElemState "file:9" "a" 7 "other" "file:9" h
  simpa [egElemState] using this

/-! ## C6 -/

/-- Unrolling the statement loop over a statement that succeeds. -/
theorem ystatements_step (d : List Char) (cpu : String → String) (ofn : String)
    (cpint : String → Option Int) (f : Nat) (st st1 : PState)
    (h : ystatement d cpu ofn cpint st false = some (true, st1)) :
    ystatements d cpu ofn cpint (f + 1) st = ystatements d cpu ofn cpint f st1 := by
  simp only [ystatements, h]

/-- Unrolling the statement loop at its last statement. -/
theorem ystatements_done (d : List Char) (cpu : String → String) (ofn : String)
    (cpint : String → Option Int) (f : Nat) (st st1 : PState)
    (h : ystatement d cpu ofn cpint st false = some (false, st1)) :
    ystatements d cpu ofn cpint (f + 1) st = some st1 := by
  simp only [ystatements, h]

theorem C6_step1 :
    ystatement C6text id "conf:" noCpInt egPState false = some (true, C6st1) := rfl

theorem C6_step2 :
    ystatement C6text id "conf:" noCpInt C6st1 false = some (true, C6st2) := rfl

theorem C6_step3 :
    ystatement C6text id "conf:" noCpInt C6st2 false = some (true, C6st3) := rfl

theorem C6_step4 :
    ystatement C6text id "conf:" noCpInt C6st3 false = some (false, C6st3) := rfl

/-- The whole exemplar run. -/
theorem C6_run : run_statements C6text id "conf:" noCpInt egPState = some C6st3 := by
  show ystatements C6text id "conf:" noCpInt (C6text.length + 2) egPState = some C6st3
  rw [show C6text.length + 2 = 15 + 1 + 1 + 1 + 1 from by decide,
    ystatements_step C6text id "conf:" noCpInt _ _ _ C6_step1,
    ystatements_step C6text id "conf:" noCpInt _ _ _ C6_step2,
    ystatements_step C6text id "conf:" noCpInt _ _ _ C6_step3,
    ystatements_done C6text id "conf:" noCpInt _ _ _ C6_step4]

theorem C6_declListStep1 :
    ystatement C6text2 id "conf:" noCpInt egPState false = some (true, C6d1) := rfl

theorem C6_declListStep2 :
    ystatement C6text2 id "conf:" noCpInt C6d1 false = some (false, C6d1) := rfl

/-- The whole declaration-list run. -/
theorem C6_run2 : run_statements C6text2 id "conf:" noCpInt egPState = some C6d1 := by
  show ystatements C6text2 id "conf:" noCpInt (C6text2.length + 2) egPState = some C6d1
  rw [show C6text2.length + 2 = 11 + 1 + 1 from by decide,
    ystatements_step C6text2 id "conf:" noCpInt _ _ _ C6_declListStep1,
    ystatements_done C6text2 id "conf:" noCpInt _ _ _ C6_declListStep2]

/-- C6 (amended): the redeclaration error lives in ydeclaration's
    final commit loop — committing a name that is already in the
    element map reports it and leaves the element state unchanged —
    and that loop is reached when one declaration statement lists an
    already-declared name, as in a, a :: Id; which ends with exactly
    one element a of class Id and the redeclaration report. -/
theorem C6_redeclaration_in_declaration_list (type_map : String → Int)
    (curLandmark : String) (st : ElemState) (name : String) (etype : Nat) (conf lm : String)
    (h : 0 ≤ st.element_map name) :
    ((Lexer.ydeclaration_commit type_map curLandmark st [name] etype conf lm).1 = st
      ∧ DeclErr.redeclaration name ∈
          (Lexer.ydeclaration_commit type_map curLandmark st [name] etype conf lm).2)
    ∧ (run_statements C6text2 id "conf:" noCpInt egPState).map
        (fun s => (s.elems.elements, s.elems.element_names, s.elems.element_map "a", s.errors))
      = some ([2], ["a"], 0,
          [ParseErr.decl (DeclErr.redeclaration "a"),
           ParseErr.decl (DeclErr.previouslyDeclaredHere "a")]) := by
  constructor
  · constructor
    · unfold Lexer.ydeclaration_commit
      simp [h]
    · unfold Lexer.ydeclaration_commit
      simp [h]
  · rw [C6_run2]
    decide

/-- C6 counterexample: on the exemplar a :: Id; a :: Id; the second
    statement never reaches ydeclaration — yelement resolves the
    second a to the existing element, yconnection reports a syntax
    error before the double colon, and the following Id creates a
    fresh anonymous element Id@2 — so no redeclaration error is
    reported and the element list grows to two. -/
theorem C6_redeclaration_counterexample :
    (run_statements C6text id "conf:" noCpInt egPState).map
        (fun s => (s.elems.elements, s.elems.element_names,
          s.elems.element_configurations, s.elems.element_map "a", s.errors))
      = some ([2, 2], ["a", "Id@2"], ["", ""], 0,
          [ParseErr.syntaxErrorBefore [':', ':']]) := by
  rw [C6_run]
  decide

/-- Witness for C6: the commit-loop conjunct applied at the one-a
    state of the first declaration, with the concrete consequences
    spelled out. -/
theorem C6_witness :
    (Lexer.ydeclaration_commit egTypeMap "file:2" egDeclState ["a"] 2 "cfg2" "file:2").1
        = egDeclState
    ∧ DeclErr.redeclaration "a" ∈
        (Lexer.ydeclaration_commit egTypeMap "file:2" egDeclState ["a"] 2 "cfg2" "file:2").2
    ∧ egDeclState.element_names = ["a"]
    ∧ egDeclState.elements = [2]
    ∧ egDeclState.element_configurations = ["cfg1"] := by
  have h : 0 ≤ egDeclState.element_map "a" := by decide
  have main := (C6_redeclaration_in_declaration_list egTypeMap "file:2" egDeclState "a" 2
    "cfg2" "file:2" h).1
  exact ⟨main.1, main.2, by decide, by decide, by decide⟩

/-! ## C5 -/

/-- Helper: getD after setting a different index. -/
theorem getD_set_ne {α : Type} (l : List α) (i j : Nat) (a d : α) (h : i ≠ j) :
    (l.set i a).getD j d = l.getD j d := by
  induction l generalizing i j with
  | nil => simp
  | cons x xs ih =>
    cases i with
    | zero => cases j with
      | zero => omega
      | succ j => simp [List.set, List.getD]
    | succ i => cases j with
      | zero => simp [List.set, List.getD]
      | succ j =>
        simp only [List.set, List.getD_cons_succ]
        exact ih i j (by omega)

/-- Helper: a scope chain survives setting a slot outside it. -/
theorem regChain_set_not_mem {next : List Int} {head : Int} {l : List Nat}
    (hc : RegChain next head l) (j : Nat) (v : Int) (hj : ∀ x ∈ l, x ≠ j) :
    RegChain (next.set j v) head l := by
  induction hc with
  | nil => exact RegChain.nil
  | cons t rest hlt htail ih =>
    have ht : t ≠ j := hj t (by simp)
    have htail2 : RegChain (next.set j v) ((next.set j v).getD t (-1)) rest := by
      rw [getD_set_ne next j t v (-1) (by omega)]
      exact ih (fun x hx => hj x (by simp [hx]))
    exact RegChain.cons t rest (by simpa using hlt) htail2

/-- Helper: the reachability walk finds any chain member, given fuel
    beyond the chain length. -/
theorem regReaches_mem (s : Reg) {head : Int} {l : List Nat}
    (hc : RegChain s.element_type_next head l) (c : Nat) (hcl : c ∈ l) :
    ∀ fuel, l.length < fuel → regReaches s (c : Int) fuel head = true := by
  induction hc with
  | nil => cases hcl
  | cons t rest hlt htail ih =>
    intro fuel hfuel
    cases fuel with
    | zero => omega
    | succ f =>
      by_cases hct : (t : Int) = (c : Int)
      · simp [regReaches, hct]
      · have hcr : c ∈ rest := by
          rcases List.mem_cons.mp hcl with h | h
          · exact absurd (by simp [h]) hct
          · exact h
        have := ih hcr f (by simp at hfuel ⊢; omega)
        rw [List.getD_eq_getElem?_getD] at this
        simp [regReaches, hct, Int.toNat_natCast]
        exact this

/-- Helper: the repair walk computes the newest same-named slot of the
    chain it starts on. -/
theorem nameWalk_eq_firstWithName (s : Reg) (name : String) {head : Int} {l : List Nat}
    (hc : RegChain s.element_type_next head l) :
    ∀ fuel, l.length < fuel →
      nameWalk s name fuel head = firstWithName s.element_type_names l name := by
  induction hc with
  | nil =>
    intro fuel hfuel
    cases fuel with
    | zero => omega
    | succ f => simp [nameWalk, firstWithName]
  | cons t rest hlt htail ih =>
    intro fuel hfuel
    cases fuel with
    | zero => omega
    | succ f =>
      by_cases hn : s.element_type_names.getD t "" = name
      · rw [List.getD_eq_getElem?_getD] at hn
        simp [nameWalk, firstWithName, Int.toNat_natCast, hn]
      · have := ih f (by simp at hfuel ⊢; omega)
        rw [List.getD_eq_getElem?_getD] at hn
        rw [List.getD_eq_getElem?_getD] at this
        simp [nameWalk, firstWithName, Int.toNat_natCast, hn]
        exact this

/-- Helper: firstWithName only looks at the names of the listed
    slots. -/
theorem firstWithName_congr (names2 names1 : List String) (l : List Nat) (n : String)
    (h : ∀ x ∈ l, names2.getD x "" = names1.getD x "") :
    firstWithName names2 l n = firstWithName names1 l n := by
  induction l with
  | nil => rfl
  | cons t rest ih =>
    have ht := h t (by simp)
    rw [List.getD_eq_getElem?_getD, List.getD_eq_getElem?_getD] at ht
    by_cases hn : names1.getD t "" = n
    · rw [List.getD_eq_getElem?_getD] at hn
      simp [firstWithName, ht, hn]
    · rw [List.getD_eq_getElem?_getD] at hn
      simp only [firstWithName, List.getD_eq_getElem?_getD, ht, hn, if_false]
      exact ih (fun x hx => h x (by simp [hx]))

/-- Helper: removing the chain head pops it, repairs the name map to
    the newest older same-named slot, and leaves the surviving slots
    untouched. -/
theorem remove_element_type_head (fuel : Nat) (s : Reg) (p : Nat) (t : List Nat)
    (hlast : s.last_element_type = (p : Int))
    (hchain : RegChain s.element_type_next s.last_element_type (p :: t))
    (hnodup : (p :: t).Nodup)
    (hmap : ∀ n, s.element_type_map n = firstWithName s.element_type_names (p :: t) n)
    (hfuel : t.length + 1 ≤ fuel) :
    RegChain (remove_element_type fuel s (p : Int)).element_type_next
        (remove_element_type fuel s (p : Int)).last_element_type t
    ∧ (∀ n, (remove_element_type fuel s (p : Int)).element_type_map n =
        firstWithName (remove_element_type fuel s (p : Int)).element_type_names t n)
    ∧ (∀ x ∈ t, (remove_element_type fuel s (p : Int)).element_type_names.getD x "" =
        s.element_type_names.getD x "")
    ∧ (∀ x ∈ t, (remove_element_type fuel s (p : Int)).element_types.getD x 0 =
        s.element_types.getD x 0) := by
  obtain ⟨f, rfl⟩ : ∃ f, fuel = f + 1 := ⟨fuel - 1, by omega⟩
  rw [hlast] at hchain
  have hpt : p ∉ t := (List.nodup_cons.mp hnodup).1
  cases hchain with
  | cons _ _ hlt htail =>
  have hcw : chainWalkPrev s (p : Int) (f + 1) (-1) s.last_element_type = (-1, (p : Int)) := by
    simp [chainWalkPrev, hlast]
  have hcond : s.element_type_map (s.element_type_names.getD p "") = (p : Int) := by
    rw [hmap]
    simp [firstWithName]
  have hnw : nameWalk { s with last_element_type := s.element_type_next.getD p (-1) }
        (s.element_type_names.getD p "") (f + 1) (s.element_type_next.getD p (-1)) =
      firstWithName s.element_type_names t (s.element_type_names.getD p "") :=
    nameWalk_eq_firstWithName { s with last_element_type := s.element_type_next.getD p (-1) }
      (s.element_type_names.getD p "") htail (f + 1) (by omega)
  have hres : remove_element_type (f + 1) s (p : Int) =
      { element_types := s.element_types.set p 0
        element_type_names := s.element_type_names.set p ""
        element_type_next := s.element_type_next.set p s.free_element_type
        element_type_map := fun n => if n = s.element_type_names.getD p ""
          then firstWithName s.element_type_names t (s.element_type_names.getD p "")
          else s.element_type_map n
        last_element_type := s.element_type_next.getD p (-1)
        free_element_type := (p : Int) } := by
    have hp0 : ¬((p : Int) < 0) := by omega
    have hcond2 := hcond
    rw [List.getD_eq_getElem?_getD] at hcond2
    have hnw2 := hnw
    simp only [List.getD_eq_getElem?_getD] at hnw2
    simp only [remove_element_type, hcw]
    norm_num [hp0, hcond2, hnw2, Int.toNat_natCast]
  rw [hres]
  refine ⟨?_, ?_, ?_, ?_⟩
  · exact regChain_set_not_mem htail p s.free_element_type
      (fun x hx => fun he => hpt (he ▸ hx))
  · intro n
    have hcg : firstWithName (s.element_type_names.set p "") t n =
        firstWithName s.element_type_names t n :=
      firstWithName_congr _ _ t n
        (fun x hx => getD_set_ne _ p x "" "" (fun he => hpt (he ▸ hx)))
    by_cases hn : n = s.element_type_names.getD p ""
    · subst hn
      simp only [List.getD_eq_getElem?_getD] at hcg ⊢
      simp [hcg]
    · have hne : ¬ s.element_type_names.getD p "" = n := fun he => hn he.symm
      simp only [List.getD_eq_getElem?_getD] at hne
      simp [hn, hmap n, hcg, firstWithName, hne]
      intro he
      exact absurd he.symm hne
  · intro x hx
    exact getD_set_ne _ p x "" "" (fun he => hpt (he ▸ hx))
  · intro x hx
    exact getD_set_ne _ p x 0 0 (fun he => hpt (he ▸ hx))

/-- Helper: a chain determines its head. -/
theorem regChain_head {next : List Int} {h : Int} {l : List Nat}
    (hc : RegChain next h l) : h = chainHead l := by
  cases hc with
  | nil => rfl
  | cons t rest hlt htail => rfl

/-- Helper: the removal loop of lexical_scoping_out pops exactly the
    chain prefix above the cookie, newest first, repairing the name
    map and preserving the surviving slots. -/
theorem scopingLoop_removes (suf : List Nat) (pre : List Nat) :
    ∀ (fuel : Nat) (s : Reg),
    RegChain s.element_type_next s.last_element_type (pre ++ suf) →
    (pre ++ suf).Nodup →
    (∀ n, s.element_type_map n = firstWithName s.element_type_names (pre ++ suf) n) →
    pre.length + (pre.length + suf.length) + 1 ≤ fuel →
    (scopingLoop (chainHead suf) fuel s).2 = pre.map (fun x => (x : Int))
    ∧ RegChain (scopingLoop (chainHead suf) fuel s).1.element_type_next
        (scopingLoop (chainHead suf) fuel s).1.last_element_type suf
    ∧ (∀ n, (scopingLoop (chainHead suf) fuel s).1.element_type_map n =
        firstWithName (scopingLoop (chainHead suf) fuel s).1.element_type_names suf n)
    ∧ (∀ x ∈ suf, (scopingLoop (chainHead suf) fuel s).1.element_type_names.getD x "" =
        s.element_type_names.getD x "")
    ∧ (∀ x ∈ suf, (scopingLoop (chainHead suf) fuel s).1.element_types.getD x 0 =
        s.element_types.getD x 0) := by
  induction pre with
  | nil =>
    intro fuel s hchain hnodup hmap hfuel
    obtain ⟨f, rfl⟩ : ∃ f, fuel = f + 1 := ⟨fuel - 1, by omega⟩
    have hstop : s.last_element_type = chainHead suf := by
      have := regChain_head hchain
      simpa using this
    simp only [scopingLoop, hstop, if_pos rfl]
    refine ⟨rfl, by simpa using hchain, by simpa using hmap, fun x hx => rfl, fun x hx => rfl⟩
  | cons p rest ih =>
    intro fuel s hchain hnodup hmap hfuel
    obtain ⟨f, rfl⟩ : ∃ f, fuel = f + 1 := ⟨fuel - 1, by omega⟩
    have hchain2 : RegChain s.element_type_next s.last_element_type (p :: (rest ++ suf)) := by
      simpa using hchain
    have hnodup2 : (p :: (rest ++ suf)).Nodup := by simpa using hnodup
    have hmap2 : ∀ n, s.element_type_map n =
        firstWithName s.element_type_names (p :: (rest ++ suf)) n := by
      simpa using hmap
    have hlast : s.last_element_type = (p : Int) := regChain_head hchain2
    have hne : ¬ s.last_element_type = chainHead suf := by
      rw [hlast]
      cases suf with
      | nil =>
        intro hcon
        rw [show chainHead [] = (-1 : Int) from rfl] at hcon
        omega
      | cons c cs =>
        have hpc : p ≠ c := by
          have hnm : p ∉ rest ++ c :: cs := (List.nodup_cons.mp hnodup2).1
          intro he
          exact hnm (by simp [he])
        intro hcon
        simp [chainHead] at hcon
        exact hpc (by exact_mod_cast hcon)
    obtain ⟨h1, h2, h3, h4⟩ :=
      remove_element_type_head f s p (rest ++ suf) hlast hchain2 hnodup2 hmap2
        (by simp at hfuel ⊢; omega)
    obtain ⟨ih1, ih2, ih3, ih4, ih5⟩ :=
      ih f (remove_element_type f s (p : Int)) h1 (List.Nodup.of_cons hnodup2) h2
        (by simp at hfuel ⊢; omega)
    have hstep : scopingLoop (chainHead suf) (f + 1) s =
        ((scopingLoop (chainHead suf) f (remove_element_type f s (p : Int))).1,
          (p : Int) ::
            (scopingLoop (chainHead suf) f (remove_element_type f s (p : Int))).2) := by
      simp only [scopingLoop]
      rw [if_neg hne, hlast]
    rw [hstep]
    refine ⟨by simp [ih1], ih2, ih3, ?_, ?_⟩
    · intro x hx
      rw [ih4 x hx, h3 x (List.mem_append_right rest hx)]
    · intro x hx
      rw [ih5 x hx, h4 x (List.mem_append_right rest hx)]

/-- C5: for a consistent registry whose scope chain splits as
    pre ++ suf, restoring to the checkpoint cookie that heads suf
    removes exactly the pre records, newest first; afterwards the
    chain is suf, every name maps to its newest surviving same-named
    record (or none), and the surviving slots keep their names and
    payloads. -/
theorem C5_lexical_scoping_out (s : Reg) (pre suf : List Nat) (fuel : Nat)
    (hchain : RegChain s.element_type_next s.last_element_type (pre ++ suf))
    (hnodup : (pre ++ suf).Nodup)
    (hmap : ∀ n, s.element_type_map n = firstWithName s.element_type_names (pre ++ suf) n)
    (hfuel : pre.length + (pre.length + suf.length) + 2 ≤ fuel) :
    (lexical_scoping_out fuel (chainHead suf) s).2 = pre.map (fun x => (x : Int))
    ∧ RegChain (lexical_scoping_out fuel (chainHead suf) s).1.element_type_next
        (lexical_scoping_out fuel (chainHead suf) s).1.last_element_type suf
    ∧ (∀ n, (lexical_scoping_out fuel (chainHead suf) s).1.element_type_map n =
        firstWithName (lexical_scoping_out fuel (chainHead suf) s).1.element_type_names suf n)
    ∧ (∀ x ∈ suf, (lexical_scoping_out fuel (chainHead suf) s).1.element_type_names.getD x ""
        = s.element_type_names.getD x "")
    ∧ (∀ x ∈ suf, (lexical_scoping_out fuel (chainHead suf) s).1.element_types.getD x 0
        = s.element_types.getD x 0) := by
  have hloop := scopingLoop_removes suf pre fuel s hchain hnodup hmap (by omega)
  have hlso : lexical_scoping_out fuel (chainHead suf) s =
      scopingLoop (chainHead suf) fuel s := by
    cases suf with
    | nil => simp [lexical_scoping_out, chainHead]
    | cons c cs =>
      have hcne : ¬ ((c : Int) = -1) := by omega
      have hreach : regReaches s (c : Int) fuel s.last_element_type = true :=
        regReaches_mem s hchain c
          (List.mem_append_right pre (by simp)) fuel
          (by simp only [List.length_append, List.length_cons] at hfuel ⊢; omega)
      simp [lexical_scoping_out, chainHead, hcne, hreach]
  rw [hlso]
  exact hloop

/-- Witness for C5 on the concrete registry: popping to the
    checkpoint before slots 1 and 2 were added removes exactly those,
    newest first, and the name map again sees only slot 0. -/
theorem C5_witness :
    (lexical_scoping_out 10 (chainHead [0]) egReg).2 = ([2, 1] : List Nat).map (fun x => (x : Int))
    ∧ (∀ n, (lexical_scoping_out 10 (chainHead [0]) egReg).1.element_type_map n =
        firstWithName (lexical_scoping_out 10 (chainHead [0]) egReg).1.element_type_names [0] n)
    ∧ (∀ x ∈ ([0] : List Nat),
        (lexical_scoping_out 10 (chainHead [0]) egReg).1.element_type_names.getD x "" =
          egReg.element_type_names.getD x "") := by
  have hchain : RegChain egReg.element_type_next egReg.last_element_type ([2, 1] ++ [0]) := by
    refine RegChain.cons 2 [1, 0] (by decide) ?_
    show RegChain egReg.element_type_next ((1 : Nat) : Int) [1, 0]
    refine RegChain.cons 1 [0] (by decide) ?_
    show RegChain egReg.element_type_next ((0 : Nat) : Int) [0]
    refine RegChain.cons 0 [] (by decide) ?_
    show RegChain egReg.element_type_next (-1) []
    exact RegChain.nil
  have hmap : ∀ n, egReg.element_type_map n =
      firstWithName egReg.element_type_names ([2, 1] ++ [0]) n := by
    intro n
    by_cases hA : n = "A"
    · subst hA; simp [egReg, firstWithName]
    · by_cases hB : n = "B"
      · subst hB; simp [egReg, firstWithName]
      · have hA2 : ¬ ("A" = n) := fun he => hA he.symm
        have hB2 : ¬ ("B" = n) := fun he => hB he.symm
        simp [egReg, firstWithName, hA, hB, hA2, hB2]
  have h := C5_lexical_scoping_out egReg [2, 1] [0] 10 hchain (by decide) hmap (by decide)
  exact ⟨h.1, h.2.2.1, h.2.2.2.1⟩

/-! ## C3 -/

/-- Helper: the router-id map has one entry per element. -/
theorem build_router_id_length (el : List Nat) (k : Nat) :
    (build_router_id el k).length = el.length := by
  induction el generalizing k with
  | nil => rfl
  | cons t rest ih =>
    by_cases h : t = TUNNEL_TYPE <;> simp [build_router_id, h, ih]

/-- Helper: the router-id map sends tunnels to -1 and everything else
    to an index at least the running counter. -/
theorem build_router_id_spec (el : List Nat) : ∀ (k j : Nat), j < el.length →
    (el.getD j 0 = TUNNEL_TYPE ∧ (build_router_id el k).getD j (-1) = -1)
    ∨ (el.getD j 0 ≠ TUNNEL_TYPE ∧ (k : Int) ≤ (build_router_id el k).getD j (-1)) := by
  induction el with
  | nil => intro k j hj; simp at hj
  | cons t rest ih =>
    intro k j hj
    by_cases ht : t = TUNNEL_TYPE
    · cases j with
      | zero => left; simp [build_router_id, ht]
      | succ j =>
        have := ih k j (by simp at hj; omega)
        rcases this with ⟨h1, h2⟩ | ⟨h1, h2⟩
        · left; refine ⟨by simpa using h1, ?_⟩
          simp [build_router_id, ht]
          rw [List.getD_eq_getElem?_getD] at h2
          exact h2
        · right; refine ⟨by simpa using h1, ?_⟩
          simp [build_router_id, ht]
          rw [List.getD_eq_getElem?_getD] at h2
          exact h2
    · cases j with
      | zero => right; simp [build_router_id, ht]
      | succ j =>
        have := ih (k + 1) j (by simp at hj; omega)
        rcases this with ⟨h1, h2⟩ | ⟨h1, h2⟩
        · left; refine ⟨by simpa using h1, ?_⟩
          simp [build_router_id, ht]
          rw [List.getD_eq_getElem?_getD] at h2
          exact h2
        · right; refine ⟨by simpa using h1, ?_⟩
          simp [build_router_id, ht]
          rw [List.getD_eq_getElem?_getD] at h2
          omega
  
/-- Helper: a non-negative default read of an Int list is in range. -/
theorem getD_int_nonneg_lt (l : List Int) (j : Nat) (h : 0 ≤ l.getD j (-1)) :
    j < l.length := by
  by_contra hc
  rw [List.getD_eq_default l (-1) (by omega)] at h
  omega

/-- Helper: every connection emitted by the guarded cross product has
    two endpoints with non-negative router ids read off the map. -/
theorem mem_crossEmit (rid : List Int) (tl : List Hookup) (ec : EmittedConn) :
    ∀ (fl : List Hookup), ec ∈ crossEmit rid fl tl →
    ∃ hf, hf ∈ fl ∧ ∃ ht, ht ∈ tl ∧
      0 ≤ rid.getD hf.idx (-1) ∧ 0 ≤ rid.getD ht.idx (-1) ∧
      ec = ⟨rid.getD hf.idx (-1), hf.port, rid.getD ht.idx (-1), ht.port⟩ := by
  intro fl
  induction fl with
  | nil => intro h; simp [crossEmit] at h
  | cons hf rest ih =>
    intro h
    simp only [crossEmit, List.foldr_cons] at h
    rcases List.mem_append.mp h with h1 | h2
    · by_cases hg : 0 ≤ rid.getD hf.idx (-1)
      · rw [if_pos hg] at h1
        obtain ⟨ht, hmem, hsome⟩ := List.mem_filterMap.mp h1
        by_cases hg2 : 0 ≤ rid.getD ht.idx (-1)
        · rw [if_pos hg2] at hsome
          exact ⟨hf, by simp, ht, hmem, hg, hg2, (Option.some.inj hsome).symm⟩
        · rw [if_neg hg2] at hsome; cases hsome
      · rw [if_neg hg] at h1; simp at h1
    · obtain ⟨hf2, hm, rest2⟩ := ih h2
      exact ⟨hf2, by simp [hm], rest2⟩

/-- Helper: every connection emitted by add_router_connections has
    non-negative router ids present in the map. -/
theorem add_router_connections_sound (g : LexGraph) (fuel c : Nat) (rid : List Int)
    (s : TState) (st : TState) (conns : List EmittedConn)
    (h : add_router_connections g fuel c rid s = some (st, conns)) :
    ∀ ec ∈ conns, 0 ≤ ec.fromIdx ∧ 0 ≤ ec.toIdx
      ∧ (∃ j, j < rid.length ∧ rid.getD j (-1) = ec.fromIdx)
      ∧ (∃ j, j < rid.length ∧ rid.getD j (-1) = ec.toIdx) := by
  unfold add_router_connections at h
  cases h1 : expand_connection g fuel (g.hfrom.getD c ⟨0, 0⟩) true s with
  | none => rw [h1] at h; cases h
  | some pr1 =>
    obtain ⟨s1, fl⟩ := pr1
    rw [h1] at h
    simp only at h
    cases h2 : expand_connection g fuel (g.hto.getD c ⟨0, 0⟩) false s1 with
    | none => rw [h2] at h; cases h
    | some pr2 =>
      obtain ⟨s2, tl⟩ := pr2
      rw [h2] at h
      simp only at h
      have hpair := Option.some.inj h
      injection hpair with hst hconns
      intro ec hec
      rw [← hconns] at hec
      obtain ⟨hf, hmf, ht, hmt, hg1, hg2, hecv⟩ := mem_crossEmit rid tl ec fl hec
      subst hecv
      refine ⟨hg1, hg2, ⟨hf.idx, getD_int_nonneg_lt rid hf.idx hg1, rfl⟩,
        ⟨ht.idx, getD_int_nonneg_lt rid ht.idx hg2, rfl⟩⟩

/-- Helper: the emission fold only accumulates connections with
    non-negative router ids present in the map. -/
theorem crcStep_foldl_sound (g : LexGraph) (fuel : Nat) (rid : List Int) :
    ∀ (idxs : List Nat) (init : Option (TState × List EmittedConn)),
    (∀ st conns, init = some (st, conns) → ∀ ec ∈ conns,
      0 ≤ ec.fromIdx ∧ 0 ≤ ec.toIdx
      ∧ (∃ j, j < rid.length ∧ rid.getD j (-1) = ec.fromIdx)
      ∧ (∃ j, j < rid.length ∧ rid.getD j (-1) = ec.toIdx)) →
    ∀ st2 conns2, idxs.foldl (crcStep g fuel rid) init = some (st2, conns2) →
    ∀ ec ∈ conns2, 0 ≤ ec.fromIdx ∧ 0 ≤ ec.toIdx
      ∧ (∃ j, j < rid.length ∧ rid.getD j (-1) = ec.fromIdx)
      ∧ (∃ j, j < rid.length ∧ rid.getD j (-1) = ec.toIdx) := by
  intro idxs
  induction idxs with
  | nil =>
    intro init hinit st2 conns2 hrun
    exact hinit st2 conns2 hrun
  | cons i rest ih =>
    intro init hinit st2 conns2 hrun
    rw [List.foldl_cons] at hrun
    refine ih (crcStep g fuel rid init i) ?_ st2 conns2 hrun
    intro st conns hstep ec hec
    cases init with
    | none => simp [crcStep] at hstep
    | some pr =>
      obtain ⟨st0, conns0⟩ := pr
      simp only [crcStep] at hstep
      by_cases hguard : 0 ≤ rid.getD (g.hfrom.getD i ⟨0, 0⟩).idx (-1)
          ∧ 0 ≤ rid.getD (g.hto.getD i ⟨0, 0⟩).idx (-1)
      · rw [if_pos hguard] at hstep
        have hpair := Option.some.inj hstep
        injection hpair with hst hcs
        rw [← hcs] at hec
        rcases List.mem_append.mp hec with hold | hnew
        · exact hinit st0 conns0 rfl ec hold
        · have hev : ec = ⟨rid.getD (g.hfrom.getD i ⟨0, 0⟩).idx (-1), (g.hfrom.getD i ⟨0, 0⟩).port,
              rid.getD (g.hto.getD i ⟨0, 0⟩).idx (-1), (g.hto.getD i ⟨0, 0⟩).port⟩ := by
            simpa using hnew
          subst hev
          exact ⟨hguard.1, hguard.2,
            ⟨(g.hfrom.getD i ⟨0, 0⟩).idx, getD_int_nonneg_lt rid _ hguard.1, rfl⟩,
            ⟨(g.hto.getD i ⟨0, 0⟩).idx, getD_int_nonneg_lt rid _ hguard.2, rfl⟩⟩
      · rw [if_neg hguard] at hstep
        cases harc : add_router_connections g fuel i rid st0 with
        | none => rw [harc] at hstep; cases hstep
        | some pr2 =>
          rw [harc] at hstep
          obtain ⟨st3, newConns⟩ := pr2
          simp only at hstep
          have hpair := Option.some.inj hstep
          injection hpair with hst hcs
          rw [← hcs] at hec
          rcases List.mem_append.mp hec with hold | hnew
          · exact hinit st0 conns0 rfl ec hold
          · exact add_router_connections_sound g fuel i rid st0 st3 newConns harc ec hnew


/-- C3: in the emitted graph, tunnel-typed elements receive router
    index -1, and every connection create_router emits — directly or
    through tunnel expansion — has both endpoints mapped to
    non-tunnel elements. -/
theorem C3_router_connections_no_tunnels (g : LexGraph) (fuel : Nat) (s : TState)
    (st : TState) (conns : List EmittedConn)
    (hrun : create_router_connections g fuel s = some (st, conns)) :
    (∀ j, j < g.elements.length → g.elements.getD j 0 = TUNNEL_TYPE →
      (build_router_id g.elements 0).getD j (-1) = -1)
    ∧ ∀ ec ∈ conns,
        0 ≤ ec.fromIdx ∧ 0 ≤ ec.toIdx
        ∧ (∃ j, j < g.elements.length
            ∧ (build_router_id g.elements 0).getD j (-1) = ec.fromIdx
            ∧ g.elements.getD j 0 ≠ TUNNEL_TYPE)
        ∧ (∃ j, j < g.elements.length
            ∧ (build_router_id g.elements 0).getD j (-1) = ec.toIdx
            ∧ g.elements.getD j 0 ≠ TUNNEL_TYPE) := by
  constructor
  · intro j hj htun
    rcases build_router_id_spec g.elements 0 j hj with ⟨h1, h2⟩ | ⟨h1, h2⟩
    · exact h2
    · exact absurd htun h1
  · intro ec hec
    have hsound := crcStep_foldl_sound g fuel (build_router_id g.elements 0)
      (List.range g.hfrom.length) (some (s, []))
      (by intro st0 conns0 h0 ec0 hec0
          cases h0
          simp at hec0)
      st conns hrun ec hec
    obtain ⟨hg1, hg2, ⟨jf, hjf, hjfv⟩, ⟨jt, hjt, hjtv⟩⟩ := hsound
    have hlen := build_router_id_length g.elements 0
    refine ⟨hg1, hg2, ⟨jf, by omega, hjfv, ?_⟩, ⟨jt, by omega, hjtv, ?_⟩⟩
    · rcases build_router_id_spec g.elements 0 jf (by omega) with ⟨h1, h2⟩ | ⟨h1, h2⟩
      · rw [hjfv] at h2; omega
      · exact h1
    · rcases build_router_id_spec g.elements 0 jt (by omega) with ⟨h1, h2⟩ | ⟨h1, h2⟩
      · rw [hjtv] at h2; omega
      · exact h1


/-- Witness for C3 on the concrete graph: the run succeeds and every
    emitted connection has non-negative endpoints. -/
theorem C3_witness :
    create_router_connections egGraph 10 egTState =
      some (egTStateDone, [⟨0, 0, 1, 0⟩, ⟨0, 0, 1, 0⟩])
    ∧ ∀ ec ∈ [(⟨0, 0, 1, 0⟩ : EmittedConn), ⟨0, 0, 1, 0⟩], 0 ≤ ec.fromIdx ∧ 0 ≤ ec.toIdx := by
  have hrun : create_router_connections egGraph 10 egTState =
      some (egTStateDone, [⟨0, 0, 1, 0⟩, ⟨0, 0, 1, 0⟩]) := by decide
  have h := C3_router_connections_no_tunnels egGraph 10 egTState egTStateDone
    [⟨0, 0, 1, 0⟩, ⟨0, 0, 1, 0⟩] hrun
  exact ⟨hrun, fun ec hec => ⟨(h.2 ec hec).1, (h.2 ec hec).2.1⟩⟩

/-! ## C4 -/

/-- Helper: getD after set, all cases. -/
theorem getD_set_full {α : Type} (l : List α) (i j : Nat) (a d : α) :
    (l.set i a).getD j d = if i = j ∧ i < l.length then a else l.getD j d := by
  induction l generalizing i j with
  | nil => simp
  | cons x xs ih =>
    cases i with
    | zero =>
      cases j with
      | zero => simp
      | succ j => simp
    | succ i =>
      cases j with
      | zero => simp
      | succ j =>
        simp only [List.set_cons_succ, List.getD_cons_succ, ih, List.length_cons]
        by_cases h : i = j ∧ i < xs.length
        · rw [if_pos h, if_pos (by omega)]
        · rw [if_neg h, if_neg (by omega)]

/-- Helper: countP after an entry is replaced by one failing the
    predicate, when the old entry passed it. -/
theorem countP_set_decr {α : Type} (l : List α) (i : Nat) (a d : α) (p : α → Bool)
    (hi : i < l.length) (hold : p (l.getD i d) = true) (hnew : p a = false) :
    (l.set i a).countP p + 1 = l.countP p := by
  induction l generalizing i with
  | nil => simp at hi
  | cons x xs ih =>
    cases i with
    | zero =>
      simp only [List.getD_cons_zero] at hold
      simp [List.countP_cons, hold, hnew]
    | succ i =>
      simp only [List.getD_cons_succ] at hold
      simp only [List.set_cons_succ, List.countP_cons]
      have := ih i (by simpa using hi) hold
      omega

/-- Helper: countP never grows when an entry is replaced by one
    failing the predicate. -/
theorem countP_set_le {α : Type} (l : List α) (i : Nat) (a : α) (p : α → Bool)
    (hnew : p a = false) : (l.set i a).countP p ≤ l.countP p := by
  induction l generalizing i with
  | nil => simp
  | cons x xs ih =>
    cases i with
    | zero => simp [List.countP_cons, hnew]
    | succ i =>
      simp only [List.set_cons_succ, List.countP_cons]
      have := ih i
      omega

/-- Helper: countP is unchanged when an entry is replaced by one with
    the same predicate value. -/
theorem countP_set_eq {α : Type} (l : List α) (i : Nat) (a d : α) (p : α → Bool)
    (heq : p a = p (l.getD i d)) : (l.set i a).countP p = l.countP p := by
  induction l generalizing i with
  | nil => simp
  | cons x xs ih =>
    cases i with
    | zero =>
      simp only [List.getD_cons_zero] at heq
      simp [List.countP_cons, heq]
    | succ i =>
      simp only [List.getD_cons_succ] at heq
      simp only [List.set_cons_succ, List.countP_cons, ih i heq]

/-- Helper: a pointwise-stronger filter is no longer. -/
theorem filter_length_mono {α : Type} (l : List α) (p q : α → Bool)
    (h : ∀ x ∈ l, q x = true → p x = true) :
    (l.filter q).length ≤ (l.filter p).length := by
  induction l with
  | nil => simp
  | cons x xs ih =>
    have ih2 := ih (fun y hy => h y (by simp [hy]))
    by_cases hq : q x = true
    · have hp := h x (by simp) hq
      simp [List.filter_cons, hq, hp]
      omega
    · simp only [List.filter_cons, Bool.not_eq_true] at hq ⊢
      rw [hq]
      by_cases hp : p x = true <;> simp [hp] <;> omega

/-- Helper: a pointwise-stronger filter that loses a present witness
    is strictly shorter. -/
theorem filter_length_lt {α : Type} (l : List α) (p q : α → Bool)
    (h : ∀ x ∈ l, q x = true → p x = true)
    (w : α) (hw : w ∈ l) (hwp : p w = true) (hwq : q w = false) :
    (l.filter q).length < (l.filter p).length := by
  induction l with
  | nil => simp at hw
  | cons x xs ih =>
    rcases List.mem_cons.mp hw with hwx | hwxs
    · subst hwx
      have hmono := filter_length_mono xs p q (fun y hy => h y (by simp [hy]))
      simp [List.filter_cons, hwq, hwp]
      omega
    · have ih2 := ih (fun y hy => h y (by simp [hy])) hwxs
      by_cases hq : q x = true
      · have hp := h x (by simp) hq
        simp [List.filter_cons, hq, hp]
        omega
      · simp only [List.filter_cons, Bool.not_eq_true] at hq ⊢
        rw [hq]
        by_cases hp : p x = true <;> simp [hp] <;> omega

/-- Helper: membership survives a positional insert. -/
theorem mem_insertIdx_of_mem {α : Type} (l : List α) (n : Nat) (a b : α) (h : a ∈ l) :
    a ∈ List.insertIdx n b l := by
  by_cases hn : n ≤ l.length
  · exact (List.mem_insertIdx hn).mpr (Or.inr h)
  · rw [List.insertIdx_of_length_lt l b n (by omega)]
    exact h

/-- Helper: a positional insert adds nothing but the new entry. -/
theorem mem_insertIdx_cases {α : Type} (l : List α) (n : Nat) (a b : α)
    (h : a ∈ List.insertIdx n b l) : a = b ∨ a ∈ l := by
  by_cases hn : n ≤ l.length
  · exact (List.mem_insertIdx hn).mp h
  · rw [List.insertIdx_of_length_lt l b n (by omega)] at h
    exact Or.inr h

/-- Helper: the inserted entry is present when the position is in
    range. -/
theorem self_mem_insertIdx {α : Type} (l : List α) (n : Nat) (b : α) (hn : n ≤ l.length) :
    b ∈ List.insertIdx n b l :=
  (List.mem_insertIdx hn).mpr (Or.inl rfl)

/-- Helper: Bool any respects pointwise-equal predicates. -/
theorem any_congr_list {α : Type} (l : List α) (p q : α → Bool)
    (h : ∀ x ∈ l, p x = q x) : l.any p = l.any q := by
  induction l with
  | nil => rfl
  | cons x xs ih =>
    simp only [List.any_cons, h x (by simp), ih (fun y hy => h y (by simp [hy]))]

/-- Helper: reading a node after a port-preserving pool write. -/
theorem getEnd_pool_set_port (s : TState) (i : Nat) (e2 : TEnd)
    (hport : e2.port = (s.getEnd i).port) (j : Nat) :
    (TState.getEnd { s with pool := s.pool.set i e2 } j).port = (s.getEnd j).port := by
  show ((s.pool.set i e2).getD j defaultTEnd).port = _
  rw [getD_set_full]
  by_cases h : i = j ∧ i < s.pool.length
  · rw [if_pos h, hport]
    show (s.pool.getD i defaultTEnd).port = (s.pool.getD j defaultTEnd).port
    rw [h.1]
  · rw [if_neg h]
    rfl

/-- Helper: chain membership tests are unchanged by a port-preserving
    pool write. -/
theorem inChain_pool_set (s : TState) (i : Nat) (e2 : TEnd)
    (hport : e2.port = (s.getEnd i).port) (b : Bool) (h : Hookup) :
    inChain { s with pool := s.pool.set i e2 } b h = inChain s b h := by
  unfold inChain
  have hch : TState.chain { s with pool := s.pool.set i e2 } b = s.chain b := by
    cases b <;> rfl
  rw [hch]
  exact any_congr_list _ _ _
    (fun id _ => by rw [getEnd_pool_set_port s i e2 hport id])

/-- Helper: the per-side allocation budget is unchanged by a
    port-preserving pool write. -/
theorem sideMiss_pool_set (g : LexGraph) (s : TState) (i : Nat) (e2 : TEnd)
    (hport : e2.port = (s.getEnd i).port) (b : Bool) :
    sideMiss g { s with pool := s.pool.set i e2 } b = sideMiss g s b := by
  unfold sideMiss
  congr 1
  apply List.filter_congr
  intro x _
  rw [inChain_pool_set s i e2 hport b x]

/-- Helper: the allocation budget is unchanged by a port-preserving
    pool write. -/
theorem allocBudget_pool_set (g : LexGraph) (s : TState) (i : Nat) (e2 : TEnd)
    (hport : e2.port = (s.getEnd i).port) :
    allocBudget g { s with pool := s.pool.set i e2 } = allocBudget g s := by
  unfold allocBudget
  rw [sideMiss_pool_set g s i e2 hport false, sideMiss_pool_set g s i e2 hport true]

/-- Helper: marking a fresh node expanding lowers the potential by
    exactly one. -/
theorem potential_setExpanded_one (g : LexGraph) (s : TState) (i : Nat)
    (hi : i < s.pool.length) (hfr : (s.getEnd i).expanded = 0) :
    tunnelPotential g (s.setExpanded i 1) + 1 = tunnelPotential g s := by
  unfold tunnelPotential
  have hbudget : allocBudget g (s.setExpanded i 1) = allocBudget g s :=
    allocBudget_pool_set g s i { s.getEnd i with expanded := 1 } rfl
  have hfresh : freshCount (s.setExpanded i 1) + 1 = freshCount s := by
    unfold freshCount
    exact countP_set_decr s.pool i _ defaultTEnd _ hi
      (by show ((s.getEnd i).expanded == 0) = true; simp [hfr]) (by simp)
  rw [hbudget]
  omega

/-- Helper: caching the resolved list keeps the potential. -/
theorem potential_setCorrespond (g : LexGraph) (s : TState) (i : Nat) (v : List Hookup) :
    tunnelPotential g (s.setCorrespond i v) = tunnelPotential g s := by
  unfold tunnelPotential
  have hbudget : allocBudget g (s.setCorrespond i v) = allocBudget g s :=
    allocBudget_pool_set g s i { s.getEnd i with correspond := v } rfl
  have hfresh : freshCount (s.setCorrespond i v) = freshCount s := by
    unfold freshCount
    exact countP_set_eq s.pool i _ defaultTEnd _ (by simp [TState.getEnd])
  rw [hbudget, hfresh]

/-- Helper: marking a node done never raises the potential. -/
theorem potential_setExpanded_two (g : LexGraph) (s : TState) (i : Nat) :
    tunnelPotential g (s.setExpanded i 2) ≤ tunnelPotential g s := by
  unfold tunnelPotential
  have hbudget : allocBudget g (s.setExpanded i 2) = allocBudget g s :=
    allocBudget_pool_set g s i { s.getEnd i with expanded := 2 } rfl
  have hfresh : freshCount (s.setExpanded i 2) ≤ freshCount s := by
    unfold freshCount
    exact countP_set_le s.pool i _ _ (by simp)
  rw [hbudget]
  omega

/-- Helper: pool writes keep well-formed chains well formed. -/
theorem chainsWF_pool_set (s : TState) (i : Nat) (e2 : TEnd) (hwf : ChainsWF s) :
    ChainsWF { s with pool := s.pool.set i e2 } := by
  constructor
  · intro id hid
    have := hwf.1 id hid
    simpa [List.length_set] using this
  · intro id hid
    have := hwf.2 id hid
    simpa [List.length_set] using this

/-- Helper: when the find walk reports a parent, no chain node
    matched the port exactly. -/
theorem findLoop_parent_no_match (s : TState) (h : Hookup) :
    ∀ (l : List Nat) (n : Nat) (acc : FindOutcome) (pos id : Nat),
    findLoop s h l n acc = FindOutcome.parent pos id →
    ∀ x ∈ l, ¬ ((s.getEnd x).port = h) := by
  intro l
  induction l with
  | nil => intro n acc pos id heq x hx; simp at hx
  | cons y rest ih =>
    intro n acc pos id heq x hx
    simp only [findLoop] at heq
    by_cases hy : (s.getEnd y).port = h
    · rw [if_pos hy] at heq; cases heq
    · rw [if_neg hy] at heq
      rcases List.mem_cons.mp hx with hxy | hxr
      · subst hxy; exact hy
      · by_cases hidx : (s.getEnd y).port.idx = h.idx
        · rw [if_pos hidx] at heq
          exact ih (n + 1) _ pos id heq x hxr
        · rw [if_neg hidx] at heq
          exact ih (n + 1) _ pos id heq x hxr

/-- Helper: a parent reported by the find walk sits at a chain
    position (unless it came in as the accumulator). -/
theorem findLoop_parent_bounds (s : TState) (h : Hookup) :
    ∀ (l : List Nat) (n : Nat) (acc : FindOutcome) (pos id : Nat),
    findLoop s h l n acc = FindOutcome.parent pos id →
    FindOutcome.parent pos id = acc ∨ (n ≤ pos ∧ pos < n + l.length) := by
  intro l
  induction l with
  | nil => intro n acc pos id heq; left; exact heq.symm
  | cons y rest ih =>
    intro n acc pos id heq
    simp only [findLoop] at heq
    by_cases hy : (s.getEnd y).port = h
    · rw [if_pos hy] at heq; cases heq
    · rw [if_neg hy] at heq
      by_cases hidx : (s.getEnd y).port.idx = h.idx
      · rw [if_pos hidx] at heq
        rcases ih (n + 1) _ pos id heq with hacc | hb
        · right
          injection hacc with h1 h2
          subst h1
          simp
        · right
          simp only [List.length_cons]
          omega
      · rw [if_neg hidx] at heq
        rcases ih (n + 1) _ pos id heq with hacc | hb
        · left; exact hacc
        · right
          simp only [List.length_cons]
          omega

/-- Helper: chain nodes of a well-formed state are live. -/
theorem chain_mem_lt (s : TState) (hwf : ChainsWF s) (c : Bool) (id : Nat)
    (hmem : id ∈ s.chain c) : id < s.pool.length := by
  cases c
  · exact hwf.1 id hmem
  · exact hwf.2 id hmem

/-- Helper: extending the pool and the chains preserves chain
    membership tests positively. -/
theorem inChain_extend (s : TState) (ext : List TEnd) (ich och : List Nat) (c : Bool)
    (x : Hookup) (hwf : ChainsWF s)
    (hsub : ∀ id ∈ s.chain c, id ∈ TState.chain ⟨s.pool ++ ext, ich, och⟩ c)
    (hx : inChain s c x = true) :
    inChain ⟨s.pool ++ ext, ich, och⟩ c x = true := by
  unfold inChain at hx ⊢
  obtain ⟨id, hmem, hport⟩ := List.any_eq_true.mp hx
  refine List.any_eq_true.mpr ⟨id, hsub id hmem, ?_⟩
  have hlt : id < s.pool.length := chain_mem_lt s hwf c id hmem
  show (((s.pool ++ ext).getD id defaultTEnd).port == x) = true
  rw [List.getD_append _ _ _ _ hlt]
  exact hport

/-- Helper: find never touches the nodes that already existed. -/
theorem tfind_preserves (s : TState) (h : Hookup) (b : Bool) (i : Nat) (s2 : TState)
    (hf : tfind s h b = some (i, s2)) :
    s.pool.length ≤ s2.pool.length
    ∧ (∀ j, j < s.pool.length → s2.getEnd j = s.getEnd j) := by
  unfold tfind at hf
  cases hfl : findLoop s h (s.chain b) 0 FindOutcome.missing with
  | found id =>
    rw [hfl] at hf
    dsimp only at hf
    have hpair := Option.some.inj hf
    injection hpair with h1 h2
    subst h2
    exact ⟨le_refl _, fun j hj => rfl⟩
  | missing => rw [hfl] at hf; cases hf
  | parent pos id =>
    rw [hfl] at hf
    dsimp only at hf
    have hpair := Option.some.inj hf
    injection hpair with h1 h2
    subst h2
    constructor
    · show s.pool.length ≤ (s.pool ++ [meEnd s h b, othEnd s h b id]).length
      simp
    · intro j hj
      show ((s.pool ++ [meEnd s h b, othEnd s h b id]).getD j defaultTEnd)
        = s.pool.getD j defaultTEnd
      rw [List.getD_append _ _ _ _ hj]

/-- Helper: the two sides decompose the allocation budget in either
    order. -/
theorem allocBudget_sides (g : LexGraph) (s : TState) (b : Bool) :
    allocBudget g s = sideMiss g s b + sideMiss g s (!b) := by
  cases b
  · rfl
  · simp only [Bool.not_true]
    unfold allocBudget
    omega

/-- Helper: the chain on the allocation side after a lazy
    allocation. -/
theorem tallocate_chain_same (s : TState) (h : Hookup) (b : Bool) (pos id : Nat) :
    (tallocate s h b pos id).chain b =
      List.insertIdx (pos + 1) s.pool.length (s.chain b) := by
  cases b <;> rfl

/-- Helper: the chain on the opposite side after a lazy allocation. -/
theorem tallocate_chain_other (s : TState) (h : Hookup) (b : Bool) (pos id : Nat) :
    (tallocate s h b pos id).chain (!b) =
      List.insertIdx (((s.chain (!b)).indexOf (s.getEnd id).other) + 1)
        (s.pool.length + 1) (s.chain (!b)) := by
  cases b <;> rfl

/-- Helper: a lazy allocation adds exactly two fresh nodes. -/
theorem tallocate_freshCount (s : TState) (h : Hookup) (b : Bool) (pos id : Nat) :
    freshCount (tallocate s h b pos id) = freshCount s + 2 := by
  unfold freshCount tallocate
  rw [List.countP_append]
  simp [meEnd, othEnd]

/-- Helper: a lazy allocation keeps chains well formed. -/
theorem tallocate_wf (s : TState) (h : Hookup) (b : Bool) (pos id : Nat)
    (hwf : ChainsWF s) : ChainsWF (tallocate s h b pos id) := by
  have hi : ∀ c : Bool, ∀ x ∈ (tallocate s h b pos id).chain c,
      x < (tallocate s h b pos id).pool.length := by
    intro c x hx
    have hlen : (tallocate s h b pos id).pool.length = s.pool.length + 2 := by
      show (s.pool ++ [meEnd s h b, othEnd s h b id]).length = _
      simp
    rw [hlen]
    by_cases hc : c = b
    · subst hc
      rw [tallocate_chain_same] at hx
      rcases mem_insertIdx_cases _ _ _ _ hx with hnew | hold
      · omega
      · have := chain_mem_lt s hwf c x hold
        omega
    · have hcb : c = !b := by cases c <;> cases b <;> simp_all
      subst hcb
      rw [tallocate_chain_other] at hx
      rcases mem_insertIdx_cases _ _ _ _ hx with hnew | hold
      · omega
      · have := chain_mem_lt s hwf (!b) x hold
        omega
  exact ⟨hi false, hi true⟩

/-- Helper: after a lazy allocation the queried port is on its
    chain. -/
theorem tallocate_inChain_new (s : TState) (h : Hookup) (b : Bool) (pos id : Nat)
    (hpos : pos < (s.chain b).length) :
    inChain (tallocate s h b pos id) b h = true := by
  unfold inChain
  refine List.any_eq_true.mpr ⟨s.pool.length, ?_, ?_⟩
  · rw [tallocate_chain_same]
    exact self_mem_insertIdx _ _ _ (by omega)
  · show (((s.pool ++ [meEnd s h b, othEnd s h b id]).getD s.pool.length defaultTEnd).port
      == h) = true
    rw [List.getD_append_right _ _ _ _ (le_refl _)]
    simp [meEnd]

/-- Helper: chain membership only grows across a lazy allocation. -/
theorem tallocate_inChain_mono (s : TState) (h : Hookup) (b : Bool) (pos id : Nat)
    (hwf : ChainsWF s) (c : Bool) (x : Hookup) (hx : inChain s c x = true) :
    inChain (tallocate s h b pos id) c x = true := by
  have hsub : ∀ i2 ∈ s.chain c, i2 ∈ (tallocate s h b pos id).chain c := by
    intro i2 hi2
    by_cases hc : c = b
    · subst hc
      rw [tallocate_chain_same]
      exact mem_insertIdx_of_mem _ _ _ _ hi2
    · have hcb : c = !b := by cases c <;> cases b <;> simp_all
      subst hcb
      rw [tallocate_chain_other]
      exact mem_insertIdx_of_mem _ _ _ _ hi2
  exact inChain_extend s [meEnd s h b, othEnd s h b id]
    (tallocate s h b pos id).ichain (tallocate s h b pos id).ochain c x hwf hsub hx

/-- Helper: a lazy allocation pays for its two fresh nodes by
    shrinking the allocation budget, so the potential never rises. -/
theorem tallocate_potential (g : LexGraph) (s : TState) (h : Hookup) (b : Bool)
    (pos id : Nat) (hwf : ChainsWF s) (hcl : h ∈ g.hfrom ++ g.hto)
    (hnomatch : inChain s b h = false) (hpos : pos < (s.chain b).length) :
    tunnelPotential g (tallocate s h b pos id) ≤ tunnelPotential g s := by
  have hstrict : sideMiss g (tallocate s h b pos id) b < sideMiss g s b := by
    unfold sideMiss
    refine filter_length_lt _ _ _ ?_ h hcl ?_ ?_
    · intro x hx hq
      by_cases hp : inChain s b x = true
      · have := tallocate_inChain_mono s h b pos id hwf b x hp
        rw [this] at hq
        cases hq
      · simp [Bool.not_eq_true] at hp
        simp [hp]
    · simp [hnomatch]
    · simp [tallocate_inChain_new s h b pos id hpos]
  have hmono : sideMiss g (tallocate s h b pos id) (!b) ≤ sideMiss g s (!b) := by
    unfold sideMiss
    refine filter_length_mono _ _ _ ?_
    intro x hx hq
    by_cases hp : inChain s (!b) x = true
    · have := tallocate_inChain_mono s h b pos id hwf (!b) x hp
      rw [this] at hq
      cases hq
    · simp [Bool.not_eq_true] at hp
      simp [hp]
  have hfresh := tallocate_freshCount s h b pos id
  have hs1 := allocBudget_sides g s b
  have hs2 := allocBudget_sides g (tallocate s h b pos id) b
  unfold tunnelPotential
  omega

/-- Helper: find leaves the potential and chain well-formedness
    intact (a successful lookup changes nothing, a lazy allocation
    pays for itself). -/
theorem tfind_props (g : LexGraph) (s : TState) (h : Hookup) (b : Bool) (i : Nat)
    (s2 : TState) (hwf : ChainsWF s) (hcl : h ∈ g.hfrom ++ g.hto)
    (hf : tfind s h b = some (i, s2)) :
    tunnelPotential g s2 ≤ tunnelPotential g s ∧ ChainsWF s2 := by
  unfold tfind at hf
  cases hfl : findLoop s h (s.chain b) 0 FindOutcome.missing with
  | found id =>
    rw [hfl] at hf
    dsimp only at hf
    have hpair := Option.some.inj hf
    injection hpair with h1 h2
    subst h2
    exact ⟨le_refl _, hwf⟩
  | missing => rw [hfl] at hf; cases hf
  | parent pos id =>
    rw [hfl] at hf
    dsimp only at hf
    have hpair := Option.some.inj hf
    injection hpair with h1 h2
    subst h2
    have hnomatch : inChain s b h = false := by
      have := findLoop_parent_no_match s h (s.chain b) 0 FindOutcome.missing pos id hfl
      unfold inChain
      rw [List.any_eq_false]
      intro x hx
      simp [this x hx]
    have hpos : pos < (s.chain b).length := by
      rcases findLoop_parent_bounds s h (s.chain b) 0 FindOutcome.missing pos id hfl with
        hacc | hb2
      · cases hacc
      · omega
    exact ⟨tallocate_potential g s h b pos id hwf hcl hnomatch hpos,
      tallocate_wf s h b pos id hwf⟩

/-- Helper: connections found for an endpoint are hookup entries. -/
theorem find_connections_subset (g : LexGraph) (p : Hookup) (b : Bool) :
    ∀ c ∈ find_connections g p b, c ∈ g.hfrom ++ g.hto := by
  intro c hc
  simp only [find_connections] at hc
  obtain ⟨⟨a, d⟩, hmem, hsome⟩ := List.mem_filterMap.mp hc
  dsimp only at hsome
  by_cases hp : a = p
  · rw [if_pos hp] at hsome
    injection hsome with hdc
    subst hdc
    cases b
    · simp only [Bool.false_eq_true, if_false] at hmem
      exact List.mem_append_left _ (List.of_mem_zip hmem).2
    · simp only [if_true] at hmem
      exact List.mem_append_right _ (List.of_mem_zip hmem).2
  · rw [if_neg hp] at hsome; cases hsome

/-- Helper: no more connections are found than hookups exist. -/
theorem find_connections_length_le (g : LexGraph) (p : Hookup) (b : Bool) :
    (find_connections g p b).length ≤ (g.hfrom ++ g.hto).length := by
  simp only [find_connections]
  cases b
  · simp only [Bool.false_eq_true, if_false]
    refine le_trans (List.length_filterMap_le _ _) ?_
    rw [List.length_zip, List.length_append]
    omega
  · simp only [if_true]
    refine le_trans (List.length_filterMap_le _ _) ?_
    rw [List.length_zip, List.length_append]
    omega

/-- Helper: with fuel beyond the potential-derived bound, expansion
    always returns, and the potential never increases along the way
    (the joint induction behind the termination claim). -/
theorem tunnel_expand_total (g : LexGraph) : ∀ fuel : Nat,
    (∀ i s, ChainsWF s →
      1 + ((g.hfrom ++ g.hto).length + 3) * tunnelPotential g s ≤ fuel →
      ∃ pr, expandEnd g fuel i s = some pr
        ∧ tunnelPotential g pr.1 ≤ tunnelPotential g s ∧ ChainsWF pr.1)
    ∧ (∀ h b s, ChainsWF s → h ∈ g.hfrom ++ g.hto →
      2 + ((g.hfrom ++ g.hto).length + 3) * tunnelPotential g s ≤ fuel →
      ∃ pr, expand_connection g fuel h b s = some pr
        ∧ tunnelPotential g pr.1 ≤ tunnelPotential g s ∧ ChainsWF pr.1)
    ∧ (∀ conns b s, ChainsWF s → (∀ c ∈ conns, c ∈ g.hfrom ++ g.hto) →
      conns.length ≤ (g.hfrom ++ g.hto).length →
      3 + conns.length + ((g.hfrom ++ g.hto).length + 3) * tunnelPotential g s ≤ fuel →
      ∃ pr, expandConns g fuel conns b s = some pr
        ∧ tunnelPotential g pr.1 ≤ tunnelPotential g s ∧ ChainsWF pr.1) := by
  intro fuel
  induction fuel with
  | zero =>
    refine ⟨?_, ?_, ?_⟩
    · intro i s hwf hfu
      exact absurd hfu (by omega)
    · intro h b s hwf hcl hfu
      exact absurd hfu (by omega)
    · intro conns b s hwf hsub hlen hfu
      exact absurd hfu (by omega)
  | succ fuel ih =>
    obtain ⟨ihE, ihX, ihC⟩ := ih
    refine ⟨?_, ?_, ?_⟩
    · -- expandEnd
      intro i s hwf hfu
      by_cases h1 : (s.getEnd i).expanded = 1
      · exact ⟨(s, []), by simp [expandEnd, h1], le_refl _, hwf⟩
      · by_cases h0 : (s.getEnd i).expanded = 0
        · have hi : i < s.pool.length := by
            by_contra hc
            have hdef : s.getEnd i = defaultTEnd := by
              unfold TState.getEnd
              exact List.getD_eq_default _ _ (by omega)
            rw [hdef] at h0
            simp [defaultTEnd] at h0
          have hpot1 := potential_setExpanded_one g s i hi h0
          have hwf1 : ChainsWF (s.setExpanded i 1) := chainsWF_pool_set s i _ hwf
          have hmulE : ((g.hfrom ++ g.hto).length + 3) * tunnelPotential g s
              = ((g.hfrom ++ g.hto).length + 3)
                  * tunnelPotential g (s.setExpanded i 1)
                + ((g.hfrom ++ g.hto).length + 3) := by
            rw [← hpot1]
            ring
          obtain ⟨⟨s2, corr⟩, hrun, hpot2, hwf2⟩ :=
            ihC (find_connections g
                  ((TState.setExpanded s i 1).getEnd (s.getEnd i).other).port
                  (!(s.getEnd i).output))
              (s.getEnd i).output (s.setExpanded i 1) hwf1
              (find_connections_subset g _ _)
              (find_connections_length_le g _ _)
              (by
                have hlen := find_connections_length_le g
                  ((TState.setExpanded s i 1).getEnd (s.getEnd i).other).port
                  (!(s.getEnd i).output)
                omega)
          dsimp only at hrun hpot2 hwf2
          refine ⟨((s2.setCorrespond i corr).setExpanded i 2, corr), ?_, ?_, ?_⟩
          · simp only [expandEnd]
            rw [if_neg h1, if_pos h0, hrun]
          · show tunnelPotential g ((s2.setCorrespond i corr).setExpanded i 2)
              ≤ tunnelPotential g s
            have ha := potential_setExpanded_two g (s2.setCorrespond i corr) i
            have hb := potential_setCorrespond g s2 i corr
            omega
          · exact chainsWF_pool_set _ i _ (chainsWF_pool_set _ i _ hwf2)
        · refine ⟨(s, (s.getEnd i).correspond), ?_, le_refl _, hwf⟩
          simp only [expandEnd]
          rw [if_neg h1, if_neg h0]
    · -- expand_connection
      intro h b s hwf hcl hfu
      by_cases htun : g.elements.getD h.idx TUNNEL_TYPE ≠ TUNNEL_TYPE
      · exact ⟨(s, [h]), by simp only [expand_connection]; rw [if_pos htun], le_refl _, hwf⟩
      · cases hf1 : tfind s h b with
        | some pr =>
          obtain ⟨i, s1⟩ := pr
          obtain ⟨hpot1, hwf1⟩ := tfind_props g s h b i s1 hwf hcl hf1
          have hmul := Nat.mul_le_mul_left ((g.hfrom ++ g.hto).length + 3) hpot1
          obtain ⟨pr2, hrun, hpot2, hwf2⟩ := ihE i s1 hwf1 (by omega)
          refine ⟨pr2, ?_, by omega, hwf2⟩
          simp only [expand_connection]
          rw [if_neg htun, hf1]
          exact hrun
        | none =>
          cases hf2 : tfind s h (!b) with
          | some pr =>
            obtain ⟨i2, s2⟩ := pr
            obtain ⟨hpot2, hwf2⟩ := tfind_props g s h (!b) i2 s2 hwf hcl hf2
            refine ⟨(s2, []), ?_, hpot2, hwf2⟩
            simp only [expand_connection]
            rw [if_neg htun, hf1, hf2]
          | none =>
            refine ⟨(s, []), ?_, le_refl _, hwf⟩
            simp only [expand_connection]
            rw [if_neg htun, hf1, hf2]
    · -- expandConns
      intro conns b s hwf hsub hlen hfu
      cases conns with
      | nil => exact ⟨(s, []), by simp [expandConns], le_refl _, hwf⟩
      | cons c rest =>
        obtain ⟨⟨s1, out1⟩, hrun1, hpot1, hwf1⟩ :=
          ihX c b s hwf (hsub c (by simp)) (by simp only [List.length_cons] at hfu; omega)
        dsimp only at hrun1 hpot1 hwf1
        have hmul := Nat.mul_le_mul_left ((g.hfrom ++ g.hto).length + 3) hpot1
        obtain ⟨⟨s2, out2⟩, hrun2, hpot2, hwf2⟩ :=
          ihC rest b s1 hwf1 (fun x hx => hsub x (by simp [hx]))
            (by simp only [List.length_cons] at hlen; omega)
            (by simp only [List.length_cons] at hfu; omega)
        dsimp only at hrun2 hpot2 hwf2
        refine ⟨(s2, out1 ++ out2), ?_, ?_, hwf2⟩
        · simp only [expandConns]
          rw [hrun1]
          dsimp only
          rw [hrun2]
        · show tunnelPotential g s2 ≤ tunnelPotential g s
          omega

/-- Helper: reading a node after writing the expanded field. -/
theorem getEnd_setExpanded (s : TState) (i v j : Nat) :
    (s.setExpanded i v).getEnd j =
      if i = j ∧ i < s.pool.length then { s.getEnd i with expanded := v }
      else s.getEnd j := by
  show (s.pool.set i _).getD j defaultTEnd = _
  rw [getD_set_full]
  rfl

/-- Helper: reading a node after writing the correspond field. -/
theorem getEnd_setCorrespond (s : TState) (i : Nat) (v : List Hookup) (j : Nat) :
    (s.setCorrespond i v).getEnd j =
      if i = j ∧ i < s.pool.length then { s.getEnd i with correspond := v }
      else s.getEnd j := by
  show (s.pool.set i _).getD j defaultTEnd = _
  rw [getD_set_full]
  rfl

/-- Helper: the pool does not change size under field writes. -/
theorem length_setExpanded (s : TState) (i v : Nat) :
    (s.setExpanded i v).pool.length = s.pool.length := by
  show (s.pool.set i _).length = _
  exact List.length_set ..

/-- Helper: the pool does not change size under field writes. -/
theorem length_setCorrespond (s : TState) (i : Nat) (v : List Hookup) :
    (s.setCorrespond i v).pool.length = s.pool.length := by
  show (s.pool.set i _).length = _
  exact List.length_set ..

/-- Helper: across any successful engine step the pool only grows and
    every pre-existing end only moves forward through the expansion
    states (the joint induction behind the once-through claim). -/
theorem tunnel_expand_mono (g : LexGraph) : ∀ fuel : Nat,
    (∀ i s pr, expandEnd g fuel i s = some pr →
      s.pool.length ≤ pr.1.pool.length
      ∧ ∀ j, j < s.pool.length → (s.getEnd j).expanded ≤ (pr.1.getEnd j).expanded)
    ∧ (∀ h b s pr, expand_connection g fuel h b s = some pr →
      s.pool.length ≤ pr.1.pool.length
      ∧ ∀ j, j < s.pool.length → (s.getEnd j).expanded ≤ (pr.1.getEnd j).expanded)
    ∧ (∀ conns b s pr, expandConns g fuel conns b s = some pr →
      s.pool.length ≤ pr.1.pool.length
      ∧ ∀ j, j < s.pool.length → (s.getEnd j).expanded ≤ (pr.1.getEnd j).expanded) := by
  intro fuel
  induction fuel with
  | zero =>
    refine ⟨?_, ?_, ?_⟩
    · intro i s pr h; simp [expandEnd] at h
    · intro h2 b s pr h; simp [expand_connection] at h
    · intro conns b s pr h; simp [expandConns] at h
  | succ fuel ih =>
    obtain ⟨ihE, ihX, ihC⟩ := ih
    refine ⟨?_, ?_, ?_⟩
    · intro i s pr h
      simp only [expandEnd] at h
      by_cases h1 : (s.getEnd i).expanded = 1
      · rw [if_pos h1] at h
        cases h
        exact ⟨le_refl _, fun j hj => le_refl _⟩
      · rw [if_neg h1] at h
        by_cases h0 : (s.getEnd i).expanded = 0
        · rw [if_pos h0] at h
          cases hrun : expandConns g fuel
              (find_connections g ((s.setExpanded i 1).getEnd (s.getEnd i).other).port
                (!(s.getEnd i).output))
              (s.getEnd i).output (s.setExpanded i 1) with
          | none => rw [hrun] at h; cases h
          | some pr2 =>
            rw [hrun] at h
            obtain ⟨s2, corr⟩ := pr2
            dsimp only at h
            cases h
            obtain ⟨hlen2, hexp2⟩ := ihC _ _ _ _ hrun
            dsimp only at hlen2 hexp2
            have hlen1 := length_setExpanded s i 1
            have hlenc := length_setCorrespond s2 i corr
            constructor
            · dsimp only
              rw [length_setExpanded, length_setCorrespond]
              omega
            · intro j hj
              dsimp only
              rw [getEnd_setExpanded]
              by_cases hij : i = j
              · subst hij
                rw [if_pos ⟨rfl, by omega⟩]
                simp [h0]
              · rw [if_neg (by simp [hij])]
                rw [getEnd_setCorrespond]
                rw [if_neg (by simp [hij])]
                have hs1j : (TState.getEnd (s.setExpanded i 1) j).expanded
                    = (s.getEnd j).expanded := by
                  rw [getEnd_setExpanded, if_neg (by simp [hij])]
                have := hexp2 j (by omega)
                omega
        · rw [if_neg h0] at h
          cases h
          exact ⟨le_refl _, fun j hj => le_refl _⟩
    · intro h2 b s pr h
      simp only [expand_connection] at h
      by_cases htun : g.elements.getD h2.idx TUNNEL_TYPE ≠ TUNNEL_TYPE
      · rw [if_pos htun] at h
        cases h
        exact ⟨le_refl _, fun j hj => le_refl _⟩
      · rw [if_neg htun] at h
        cases hf1 : tfind s h2 b with
        | some fr =>
          obtain ⟨i, s1⟩ := fr
          rw [hf1] at h
          dsimp only at h
          obtain ⟨hlen1, hget1⟩ := tfind_preserves s h2 b i s1 hf1
          obtain ⟨hlen2, hexp2⟩ := ihE _ _ _ h
          refine ⟨by omega, ?_⟩
          intro j hj
          have := hexp2 j (by omega)
          rw [hget1 j hj] at this
          exact this
        | none =>
          rw [hf1] at h
          dsimp only at h
          cases hf2 : tfind s h2 (!b) with
          | some fr =>
            obtain ⟨i2, s2⟩ := fr
            rw [hf2] at h
            dsimp only at h
            cases h
            obtain ⟨hlen2, hget2⟩ := tfind_preserves s h2 (!b) i2 s2 hf2
            exact ⟨hlen2, fun j hj => by rw [hget2 j hj]⟩
          | none =>
            rw [hf2] at h
            dsimp only at h
            cases h
            exact ⟨le_refl _, fun j hj => le_refl _⟩
    · intro conns b s pr h
      cases conns with
      | nil =>
        simp only [expandConns] at h
        cases h
        exact ⟨le_refl _, fun j hj => le_refl _⟩
      | cons c rest =>
        simp only [expandConns] at h
        cases hrun1 : expand_connection g fuel c b s with
        | none => rw [hrun1] at h; cases h
        | some pr1 =>
          rw [hrun1] at h
          obtain ⟨s1, out1⟩ := pr1
          dsimp only at h
          cases hrun2 : expandConns g fuel rest b s1 with
          | none => rw [hrun2] at h; cases h
          | some pr2 =>
            rw [hrun2] at h
            obtain ⟨s2, out2⟩ := pr2
            dsimp only at h
            cases h
            dsimp only
            obtain ⟨hlen1, hexp1⟩ := ihX _ _ _ _ hrun1
            obtain ⟨hlen2, hexp2⟩ := ihC _ _ _ _ hrun2
            dsimp only at hlen1 hexp1 hlen2 hexp2
            refine ⟨by omega, ?_⟩
            intro j hj
            have ha := hexp1 j hj
            have hb := hexp2 j (by omega)
            omega


/-- C4: TunnelEnd::expand terminates on every well-formed
    configuration of tunnel ends, cyclic pairings included: with fuel
    beyond the potential-derived bound the expansion returns; a call
    re-entering an end in the expanding state returns at once,
    appending no ports; a call on a done end appends exactly the
    cached resolved list; and across any successful call every
    pre-existing end only moves forward through fresh, expanding,
    done, passing each state at most once. -/
theorem C4_tunnel_expand_terminates (g : LexGraph) (s : TState) (i : Nat) :
    (ChainsWF s → ∀ fuel, tunnelFuel g s ≤ fuel →
      ∃ pr, expandEnd g fuel i s = some pr)
    ∧ ((s.getEnd i).expanded = 1 → ∀ fuel, expandEnd g (fuel + 1) i s = some (s, []))
    ∧ ((s.getEnd i).expanded = 2 → ∀ fuel,
        expandEnd g (fuel + 1) i s = some (s, (s.getEnd i).correspond))
    ∧ (∀ fuel pr, expandEnd g fuel i s = some pr →
        s.pool.length ≤ pr.1.pool.length
        ∧ ∀ j, j < s.pool.length → (s.getEnd j).expanded ≤ (pr.1.getEnd j).expanded) := by
  refine ⟨?_, ?_, ?_, ?_⟩
  · intro hwf fuel hfu
    unfold tunnelFuel at hfu
    obtain ⟨pr, hrun, hpot, hwf2⟩ := (tunnel_expand_total g fuel).1 i s hwf hfu
    exact ⟨pr, hrun⟩
  · intro h1 fuel
    simp only [expandEnd]
    rw [if_pos h1]
  · intro h2 fuel
    simp only [expandEnd]
    rw [if_neg (by omega : ¬ (s.getEnd i).expanded = 1),
      if_neg (by omega : ¬ (s.getEnd i).expanded = 0)]
  · intro fuel pr h
    exact (tunnel_expand_mono g fuel).1 i s pr h

/-- Witness for C4 on the concrete tunnel pair: enough fuel makes the
    expansion of the fresh input end return; an expanding end returns
    unchanged with no ports; the done end returns its cache; and the
    successful run only moved states forward. -/
theorem C4_witness :
    (∃ pr, expandEnd egGraph 99 0 egTState = some pr)
    ∧ expandEnd egGraph 5 0 egTStateMid = some (egTStateMid, [])
    ∧ expandEnd egGraph 5 0 egTStateDone = some (egTStateDone, [⟨3, 0⟩])
    ∧ (egTState.pool.length ≤ egTStateHalf.pool.length
        ∧ ∀ j, j < egTState.pool.length →
          (egTState.getEnd j).expanded ≤ (egTStateHalf.getEnd j).expanded) := by
  refine ⟨?_, ?_, ?_, ?_⟩
  · exact (C4_tunnel_expand_terminates egGraph egTState 0).1 ⟨by decide, by decide⟩ 99
      (by decide)
  · exact (C4_tunnel_expand_terminates egGraph egTStateMid 0).2.1 (by decide) 4
  · exact (C4_tunnel_expand_terminates egGraph egTStateDone 0).2.2.1 (by decide) 4
  · exact (C4_tunnel_expand_terminates egGraph egTState 0).2.2.2 9
      (egTStateHalf, [⟨3, 0⟩]) (by decide)

/-! ## Scanner loop bounds -/

theorem skip_line_f_pos_indep (d : List Char) :
    ∀ fuel pos l1 l2, (skip_line_f d fuel pos l1).1 = (skip_line_f d fuel pos l2).1 := by
  intro fuel
  induction fuel with
  | zero => intro pos l1 l2; rfl
  | succ f ih =>
    intro pos l1 l2
    simp only [skip_line_f]
    split_ifs <;> first | rfl | exact ih (pos + 1) l1 l2

theorem skip_line_f_lb (d : List Char) :
    ∀ fuel pos l, min (pos + 1) d.length ≤ (skip_line_f d fuel pos l).1 := by
  intro fuel
  induction fuel with
  | zero => intro pos l; simp only [skip_line_f]; omega
  | succ f ih =>
    intro pos l
    simp only [skip_line_f]
    split_ifs <;>
      first
      | (dsimp only; omega)
      | (have hh := ih (pos + 1) l; omega)

theorem skip_line_f_ub (d : List Char) :
    ∀ fuel pos l, pos ≤ d.length → (skip_line_f d fuel pos l).1 ≤ d.length := by
  intro fuel
  induction fuel with
  | zero => intro pos l _; simp only [skip_line_f]; omega
  | succ f ih =>
    intro pos l hle
    simp only [skip_line_f]
    split_ifs <;>
      first
      | (dsimp only; omega)
      | (have hh := ih (pos + 1) l (by omega); omega)

theorem skip_line_pos_indep (d : List Char) (pos l1 l2 : Nat) :
    (skip_line d pos l1).1 = (skip_line d pos l2).1 :=
  skip_line_f_pos_indep d _ pos (l1 + 1) (l2 + 1)

theorem skip_line_lb (d : List Char) (pos l : Nat) :
    min (pos + 1) d.length ≤ (skip_line d pos l).1 :=
  skip_line_f_lb d _ pos (l + 1)

theorem skip_line_ub (d : List Char) (pos l : Nat) (h : pos ≤ d.length) :
    (skip_line d pos l).1 ≤ d.length :=
  skip_line_f_ub d _ pos (l + 1) h

theorem skip_slash_star_f_pos_indep (d : List Char) :
    ∀ fuel pos l1 l2, (skip_slash_star_f d fuel pos l1).1 = (skip_slash_star_f d fuel pos l2).1 := by
  intro fuel
  induction fuel with
  | zero => intro pos l1 l2; rfl
  | succ f ih =>
    intro pos l1 l2
    simp only [skip_slash_star_f]
    split_ifs <;>
      first
      | rfl
      | exact ih (pos + 2) (l1 + 1) (l2 + 1)
      | exact ih (pos + 1) (l1 + 1) (l2 + 1)
      | exact ih (pos + 1) l1 l2

theorem skip_slash_star_f_lb (d : List Char) :
    ∀ fuel pos l, min (pos + 1) d.length ≤ (skip_slash_star_f d fuel pos l).1 := by
  intro fuel
  induction fuel with
  | zero => intro pos l; simp only [skip_slash_star_f]; omega
  | succ f ih =>
    intro pos l
    simp only [skip_slash_star_f]
    split_ifs <;>
      first
      | (dsimp only; omega)
      | (have hh := ih (pos + 2) (l + 1); omega)
      | (have hh := ih (pos + 1) (l + 1); omega)
      | (have hh := ih (pos + 1) l; omega)

theorem skip_slash_star_f_ub (d : List Char) :
    ∀ fuel pos l, pos ≤ d.length → (skip_slash_star_f d fuel pos l).1 ≤ d.length := by
  intro fuel
  induction fuel with
  | zero => intro pos l _; simp only [skip_slash_star_f]; omega
  | succ f ih =>
    intro pos l hle
    simp only [skip_slash_star_f]
    split_ifs <;>
      first
      | (dsimp only; omega)
      | (have hh := ih (pos + 2) (l + 1) (by omega); omega)
      | (have hh := ih (pos + 1) (l + 1) (by omega); omega)
      | (have hh := ih (pos + 1) l (by omega); omega)

theorem skip_slash_star_pos_indep (d : List Char) (pos l1 l2 : Nat) :
    (skip_slash_star d pos l1).1 = (skip_slash_star d pos l2).1 :=
  skip_slash_star_f_pos_indep d _ pos l1 l2

theorem skip_slash_star_lb (d : List Char) (pos l : Nat) :
    min (pos + 1) d.length ≤ (skip_slash_star d pos l).1 :=
  skip_slash_star_f_lb d _ pos l

theorem skip_slash_star_ub (d : List Char) (pos l : Nat) (h : pos ≤ d.length) :
    (skip_slash_star d pos l).1 ≤ d.length :=
  skip_slash_star_f_ub d _ pos l h

theorem spec_squote_end_f_bounds (d : List Char) :
    ∀ fuel pos, pos ≤ d.length →
      pos ≤ spec_squote_end_f d fuel pos ∧ spec_squote_end_f d fuel pos ≤ d.length := by
  intro fuel
  induction fuel with
  | zero => intro pos h; exact ⟨le_refl _, h⟩
  | succ f ih =>
    intro pos h
    simp only [spec_squote_end_f]
    split_ifs <;>
      first
      | omega
      | (have hh := ih (pos + 1) (by omega); omega)

theorem spec_dquote_end_f_bounds (d : List Char) :
    ∀ fuel pos, pos ≤ d.length →
      pos ≤ spec_dquote_end_f d fuel pos ∧ spec_dquote_end_f d fuel pos ≤ d.length := by
  intro fuel
  induction fuel with
  | zero => intro pos h; exact ⟨le_refl _, h⟩
  | succ f ih =>
    intro pos h
    simp only [spec_dquote_end_f]
    split_ifs with h1 h2 h3 <;>
      first
      | omega
      | (have hh := ih (pos + 2) (by omega); omega)
      | (have hh := ih (pos + 1) (by omega); omega)

theorem spec_dquote_end_f_fi (d : List Char) :
    ∀ f1 f2 pos, pos ≤ d.length → d.length - pos < f1 → d.length - pos < f2 →
      spec_dquote_end_f d f1 pos = spec_dquote_end_f d f2 pos := by
  intro f1
  induction f1 with
  | zero => intro f2 pos _ hf1 _; omega
  | succ f ih =>
    intro f2 pos h hf1 hf2
    match f2 with
    | 0 => omega
    | g + 1 =>
      simp only [spec_dquote_end_f]
      split_ifs with h1 h2 h3
      · rfl
      · exact ih g (pos + 2) (by omega) (by omega) (by omega)
      · exact ih g (pos + 1) (by omega) (by omega) (by omega)
      · rfl

theorem spec_squote_end_bounds (d : List Char) (pos : Nat) (h : pos ≤ d.length) :
    pos ≤ spec_squote_end d pos ∧ spec_squote_end d pos ≤ d.length :=
  spec_squote_end_f_bounds d _ pos h

theorem spec_dquote_end_bounds (d : List Char) (pos : Nat) (h : pos ≤ d.length) :
    pos ≤ spec_dquote_end d pos ∧ spec_dquote_end d pos ≤ d.length :=
  spec_dquote_end_f_bounds d _ pos h

theorem spec_squote_end_close (d : List Char) (pos : Nat) (h : pos < d.length)
    (hc : d.getD pos ' ' = Char.ofNat 39) :
    spec_squote_end d pos = pos + 1 := by
  have h1 : d.length + 1 - pos = (d.length - pos) + 1 := by omega
  rw [spec_squote_end, h1]
  simp only [spec_squote_end_f]
  rw [if_pos h, if_pos hc]

theorem spec_squote_end_step (d : List Char) (pos : Nat) (h : pos < d.length)
    (hc : ¬ d.getD pos ' ' = Char.ofNat 39) :
    spec_squote_end d pos = spec_squote_end d (pos + 1) := by
  have h1 : d.length + 1 - pos = (d.length + 1 - (pos + 1)) + 1 := by omega
  rw [spec_squote_end, h1]
  simp only [spec_squote_end_f]
  rw [if_pos h, if_neg hc]
  rfl

theorem spec_squote_end_at_end (d : List Char) : spec_squote_end d d.length = d.length := by
  have h1 : d.length + 1 - d.length = 0 + 1 := by omega
  rw [spec_squote_end, h1]
  simp only [spec_squote_end_f]
  rw [if_neg (lt_irrefl _)]

theorem spec_dquote_end_close (d : List Char) (pos : Nat) (h : pos < d.length)
    (hc : d.getD pos ' ' = '"') :
    spec_dquote_end d pos = pos + 1 := by
  have h1 : d.length + 1 - pos = (d.length - pos) + 1 := by omega
  rw [spec_dquote_end, h1]
  simp only [spec_dquote_end_f]
  rw [if_pos h, if_pos hc]

theorem spec_dquote_end_esc (d : List Char) (pos : Nat) (h : pos < d.length)
    (hc : ¬ d.getD pos ' ' = '"')
    (he : d.getD pos ' ' = '\\' ∧ pos + 1 < d.length
      ∧ (d.getD (pos + 1) ' ' = '"' ∨ d.getD (pos + 1) ' ' = '$')) :
    spec_dquote_end d pos = spec_dquote_end d (pos + 2) := by
  have h1 : d.length + 1 - pos = (d.length - pos) + 1 := by omega
  rw [spec_dquote_end, h1]
  simp only [spec_dquote_end_f]
  rw [if_pos h, if_neg hc, if_pos he]
  exact spec_dquote_end_f_fi d _ _ (pos + 2) (by omega) (by omega) (by omega)

theorem spec_dquote_end_step (d : List Char) (pos : Nat) (h : pos < d.length)
    (hc : ¬ d.getD pos ' ' = '"')
    (he : ¬ (d.getD pos ' ' = '\\' ∧ pos + 1 < d.length
      ∧ (d.getD (pos + 1) ' ' = '"' ∨ d.getD (pos + 1) ' ' = '$'))) :
    spec_dquote_end d pos = spec_dquote_end d (pos + 1) := by
  have h1 : d.length + 1 - pos = (d.length + 1 - (pos + 1)) + 1 := by omega
  rw [spec_dquote_end, h1]
  simp only [spec_dquote_end_f]
  rw [if_pos h, if_neg hc, if_neg he]
  rfl

theorem spec_dquote_end_at_end (d : List Char) : spec_dquote_end d d.length = d.length := by
  have h1 : d.length + 1 - d.length = 0 + 1 := by omega
  rw [spec_dquote_end, h1]
  simp only [spec_dquote_end_f]
  rw [if_neg (lt_irrefl _)]

theorem lex_config_f_at_end (d : List Char) :
    ∀ fuel pos l depth q, d.length ≤ pos → (lex_config_f d fuel pos l depth q).1 = pos := by
  intro fuel
  induction fuel with
  | zero => intro pos l depth q _; rfl
  | succ f _ =>
    intro pos l depth q h
    simp only [lex_config_f]
    rw [if_neg (by omega)]

theorem spec_config_end_f_at_end (d : List Char) :
    ∀ fuel pos depth, d.length ≤ pos → spec_config_end_f d fuel pos depth = pos := by
  intro fuel
  induction fuel with
  | zero => intro pos depth _; rfl
  | succ f _ =>
    intro pos depth h
    simp only [spec_config_end_f]
    rw [if_neg (by omega)]

/-! ## lex_config loop: one lemma per branch of the scan step -/

theorem lexcf_end {d : List Char} {pos l depth q f : Nat} (hp : ¬ pos < d.length) :
    lex_config_f d (f + 1) pos l depth q = (pos, l) := by
  simp only [lex_config_f]
  rw [if_neg hp]

theorem lexcf_open {d : List Char} {pos l depth q f : Nat} (hp : pos < d.length)
    (hA : d.getD pos ' ' = '(' ∧ q = 0) :
    lex_config_f d (f + 1) pos l depth q = lex_config_f d f (pos + 1) l (depth + 1) q := by
  simp only [lex_config_f]
  rw [if_pos hp, if_pos hA]

theorem lexcf_close_done {d : List Char} {pos l depth q f : Nat} (hp : pos < d.length)
    (hA : ¬ (d.getD pos ' ' = '(' ∧ q = 0)) (hB : d.getD pos ' ' = ')' ∧ q = 0)
    (hB1 : depth = 1) :
    lex_config_f d (f + 1) pos l depth q = (pos, l) := by
  simp only [lex_config_f]
  rw [if_pos hp, if_neg hA, if_pos hB, if_pos hB1]

theorem lexcf_close_step {d : List Char} {pos l depth q f : Nat} (hp : pos < d.length)
    (hA : ¬ (d.getD pos ' ' = '(' ∧ q = 0)) (hB : d.getD pos ' ' = ')' ∧ q = 0)
    (hB1 : ¬ depth = 1) :
    lex_config_f d (f + 1) pos l depth q = lex_config_f d f (pos + 1) l (depth - 1) q := by
  simp only [lex_config_f]
  rw [if_pos hp, if_neg hA, if_pos hB, if_neg hB1]

theorem lexcf_nl {d : List Char} {pos l depth q f : Nat} (hp : pos < d.length)
    (hA : ¬ (d.getD pos ' ' = '(' ∧ q = 0)) (hB : ¬ (d.getD pos ' ' = ')' ∧ q = 0))
    (hC : d.getD pos ' ' = '\n') :
    lex_config_f d (f + 1) pos l depth q = lex_config_f d f (pos + 1) (l + 1) depth q := by
  simp only [lex_config_f]
  rw [if_pos hp, if_neg hA, if_neg hB, if_pos hC]

theorem lexcf_crlf {d : List Char} {pos l depth q f : Nat} (hp : pos < d.length)
    (hA : ¬ (d.getD pos ' ' = '(' ∧ q = 0)) (hB : ¬ (d.getD pos ' ' = ')' ∧ q = 0))
    (hC : ¬ d.getD pos ' ' = '\n') (hD : d.getD pos ' ' = '\r')
    (hD1 : pos + 1 < d.length ∧ d.getD (pos + 1) ' ' = '\n') :
    lex_config_f d (f + 1) pos l depth q = lex_config_f d f (pos + 2) (l + 1) depth q := by
  simp only [lex_config_f]
  rw [if_pos hp, if_neg hA, if_neg hB, if_neg hC, if_pos hD, if_pos hD1]

theorem lexcf_cr {d : List Char} {pos l depth q f : Nat} (hp : pos < d.length)
    (hA : ¬ (d.getD pos ' ' = '(' ∧ q = 0)) (hB : ¬ (d.getD pos ' ' = ')' ∧ q = 0))
    (hC : ¬ d.getD pos ' ' = '\n') (hD : d.getD pos ' ' = '\r')
    (hD1 : ¬ (pos + 1 < d.length ∧ d.getD (pos + 1) ' ' = '\n')) :
    lex_config_f d (f + 1) pos l depth q = lex_config_f d f (pos + 1) (l + 1) depth q := by
  simp only [lex_config_f]
  rw [if_pos hp, if_neg hA, if_neg hB, if_neg hC, if_pos hD, if_neg hD1]

theorem lexcf_lcom {d : List Char} {pos l depth q f : Nat} (hp : pos < d.length)
    (hA : ¬ (d.getD pos ' ' = '(' ∧ q = 0)) (hB : ¬ (d.getD pos ' ' = ')' ∧ q = 0))
    (hC : ¬ d.getD pos ' ' = '\n') (hD : ¬ d.getD pos ' ' = '\r')
    (hE : d.getD pos ' ' = '/' ∧ pos + 1 < d.length ∧ q = 0)
    (hE1 : d.getD (pos + 1) ' ' = '/') :
    lex_config_f d (f + 1) pos l depth q =
      lex_config_f d f (skip_line d (pos + 2) l).1 (skip_line d (pos + 2) l).2 depth q := by
  simp only [lex_config_f]
  rw [if_pos hp, if_neg hA, if_neg hB, if_neg hC, if_neg hD, if_pos hE, if_pos hE1]

theorem lexcf_bcom {d : List Char} {pos l depth q f : Nat} (hp : pos < d.length)
    (hA : ¬ (d.getD pos ' ' = '(' ∧ q = 0)) (hB : ¬ (d.getD pos ' ' = ')' ∧ q = 0))
    (hC : ¬ d.getD pos ' ' = '\n') (hD : ¬ d.getD pos ' ' = '\r')
    (hE : d.getD pos ' ' = '/' ∧ pos + 1 < d.length ∧ q = 0)
    (hE1 : ¬ d.getD (pos + 1) ' ' = '/') (hE2 : d.getD (pos + 1) ' ' = '*') :
    lex_config_f d (f + 1) pos l depth q =
      lex_config_f d f (skip_slash_star d (pos + 2) l).1 (skip_slash_star d (pos + 2) l).2
        depth q := by
  simp only [lex_config_f]
  rw [if_pos hp, if_neg hA, if_neg hB, if_neg hC, if_neg hD, if_pos hE, if_neg hE1, if_pos hE2]

theorem lexcf_slash_other {d : List Char} {pos l depth q f : Nat} (hp : pos < d.length)
    (hA : ¬ (d.getD pos ' ' = '(' ∧ q = 0)) (hB : ¬ (d.getD pos ' ' = ')' ∧ q = 0))
    (hC : ¬ d.getD pos ' ' = '\n') (hD : ¬ d.getD pos ' ' = '\r')
    (hE : d.getD pos ' ' = '/' ∧ pos + 1 < d.length ∧ q = 0)
    (hE1 : ¬ d.getD (pos + 1) ' ' = '/') (hE2 : ¬ d.getD (pos + 1) ' ' = '*') :
    lex_config_f d (f + 1) pos l depth q = lex_config_f d f (pos + 1) l depth q := by
  simp only [lex_config_f]
  rw [if_pos hp, if_neg hA, if_neg hB, if_neg hC, if_neg hD, if_pos hE, if_neg hE1, if_neg hE2]

theorem lexcf_qopen {d : List Char} {pos l depth q f : Nat} (hp : pos < d.length)
    (hA : ¬ (d.getD pos ' ' = '(' ∧ q = 0)) (hB : ¬ (d.getD pos ' ' = ')' ∧ q = 0))
    (hC : ¬ d.getD pos ' ' = '\n') (hD : ¬ d.getD pos ' ' = '\r')
    (hE : ¬ (d.getD pos ' ' = '/' ∧ pos + 1 < d.length ∧ q = 0))
    (hF : (d.getD pos ' ' = Char.ofNat 39 ∨ d.getD pos ' ' = '"') ∧ q = 0) :
    lex_config_f d (f + 1) pos l depth q =
      lex_config_f d f (pos + 1) l depth (d.getD pos ' ').toNat := by
  simp only [lex_config_f]
  rw [if_pos hp, if_neg hA, if_neg hB, if_neg hC, if_neg hD, if_neg hE, if_pos hF]

theorem lexcf_qclose {d : List Char} {pos l depth q f : Nat} (hp : pos < d.length)
    (hA : ¬ (d.getD pos ' ' = '(' ∧ q = 0)) (hB : ¬ (d.getD pos ' ' = ')' ∧ q = 0))
    (hC : ¬ d.getD pos ' ' = '\n') (hD : ¬ d.getD pos ' ' = '\r')
    (hE : ¬ (d.getD pos ' ' = '/' ∧ pos + 1 < d.length ∧ q = 0))
    (hF : ¬ ((d.getD pos ' ' = Char.ofNat 39 ∨ d.getD pos ' ' = '"') ∧ q = 0))
    (hG : q ≠ 0 ∧ (d.getD pos ' ').toNat = q) :
    lex_config_f d (f + 1) pos l depth q = lex_config_f d f (pos + 1) l depth 0 := by
  simp only [lex_config_f]
  rw [if_pos hp, if_neg hA, if_neg hB, if_neg hC, if_neg hD, if_neg hE, if_neg hF, if_pos hG]

theorem lexcf_esc {d : List Char} {pos l depth q f : Nat} (hp : pos < d.length)
    (hA : ¬ (d.getD pos ' ' = '(' ∧ q = 0)) (hB : ¬ (d.getD pos ' ' = ')' ∧ q = 0))
    (hC : ¬ d.getD pos ' ' = '\n') (hD : ¬ d.getD pos ' ' = '\r')
    (hE : ¬ (d.getD pos ' ' = '/' ∧ pos + 1 < d.length ∧ q = 0))
    (hF : ¬ ((d.getD pos ' ' = Char.ofNat 39 ∨ d.getD pos ' ' = '"') ∧ q = 0))
    (hG : ¬ (q ≠ 0 ∧ (d.getD pos ' ').toNat = q))
    (hH : d.getD pos ' ' = '\\' ∧ pos + 1 < d.length ∧ q = ('"').toNat)
    (hH1 : d.getD (pos + 1) ' ' = '"' ∨ d.getD (pos + 1) ' ' = '$') :
    lex_config_f d (f + 1) pos l depth q = lex_config_f d f (pos + 2) l depth q := by
  simp only [lex_config_f]
  rw [if_pos hp, if_neg hA, if_neg hB, if_neg hC, if_neg hD, if_neg hE, if_neg hF, if_neg hG,
    if_pos hH, if_pos hH1]

theorem lexcf_esc_other {d : List Char} {pos l depth q f : Nat} (hp : pos < d.length)
    (hA : ¬ (d.getD pos ' ' = '(' ∧ q = 0)) (hB : ¬ (d.getD pos ' ' = ')' ∧ q = 0))
    (hC : ¬ d.getD pos ' ' = '\n') (hD : ¬ d.getD pos ' ' = '\r')
    (hE : ¬ (d.getD pos ' ' = '/' ∧ pos + 1 < d.length ∧ q = 0))
    (hF : ¬ ((d.getD pos ' ' = Char.ofNat 39 ∨ d.getD pos ' ' = '"') ∧ q = 0))
    (hG : ¬ (q ≠ 0 ∧ (d.getD pos ' ').toNat = q))
    (hH : d.getD pos ' ' = '\\' ∧ pos + 1 < d.length ∧ q = ('"').toNat)
    (hH1 : ¬ (d.getD (pos + 1) ' ' = '"' ∨ d.getD (pos + 1) ' ' = '$')) :
    lex_config_f d (f + 1) pos l depth q = lex_config_f d f (pos + 1) l depth q := by
  simp only [lex_config_f]
  rw [if_pos hp, if_neg hA, if_neg hB, if_neg hC, if_neg hD, if_neg hE, if_neg hF, if_neg hG,
    if_pos hH, if_neg hH1]

theorem lexcf_other {d : List Char} {pos l depth q f : Nat} (hp : pos < d.length)
    (hA : ¬ (d.getD pos ' ' = '(' ∧ q = 0)) (hB : ¬ (d.getD pos ' ' = ')' ∧ q = 0))
    (hC : ¬ d.getD pos ' ' = '\n') (hD : ¬ d.getD pos ' ' = '\r')
    (hE : ¬ (d.getD pos ' ' = '/' ∧ pos + 1 < d.length ∧ q = 0))
    (hF : ¬ ((d.getD pos ' ' = Char.ofNat 39 ∨ d.getD pos ' ' = '"') ∧ q = 0))
    (hG : ¬ (q ≠ 0 ∧ (d.getD pos ' ').toNat = q))
    (hH : ¬ (d.getD pos ' ' = '\\' ∧ pos + 1 < d.length ∧ q = ('"').toNat)) :
    lex_config_f d (f + 1) pos l depth q = lex_config_f d f (pos + 1) l depth q := by
  simp only [lex_config_f]
  rw [if_pos hp, if_neg hA, if_neg hB, if_neg hC, if_neg hD, if_neg hE, if_neg hF, if_neg hG,
    if_neg hH]

theorem lex_config_f_l_indep (d : List Char) :
    ∀ fuel pos l1 l2 depth q,
      (lex_config_f d fuel pos l1 depth q).1 = (lex_config_f d fuel pos l2 depth q).1 := by
  intro fuel
  induction fuel with
  | zero => intro pos l1 l2 depth q; rfl
  | succ f ih =>
    intro pos l1 l2 depth q
    by_cases hp : pos < d.length
    case neg => rw [lexcf_end hp, lexcf_end hp]
    by_cases hA : d.getD pos ' ' = '(' ∧ q = 0
    case pos => rw [lexcf_open hp hA, lexcf_open hp hA]; exact ih _ _ _ _ _
    by_cases hB : d.getD pos ' ' = ')' ∧ q = 0
    case pos =>
      by_cases hB1 : depth = 1
      case pos => rw [lexcf_close_done hp hA hB hB1, lexcf_close_done hp hA hB hB1]
      case neg => rw [lexcf_close_step hp hA hB hB1, lexcf_close_step hp hA hB hB1]
                  exact ih _ _ _ _ _
    by_cases hC : d.getD pos ' ' = '\n'
    case pos => rw [lexcf_nl hp hA hB hC, lexcf_nl hp hA hB hC]; exact ih _ _ _ _ _
    by_cases hD : d.getD pos ' ' = '\r'
    case pos =>
      by_cases hD1 : pos + 1 < d.length ∧ d.getD (pos + 1) ' ' = '\n'
      case pos => rw [lexcf_crlf hp hA hB hC hD hD1, lexcf_crlf hp hA hB hC hD hD1]
                  exact ih _ _ _ _ _
      case neg => rw [lexcf_cr hp hA hB hC hD hD1, lexcf_cr hp hA hB hC hD hD1]
                  exact ih _ _ _ _ _
    by_cases hE : d.getD pos ' ' = '/' ∧ pos + 1 < d.length ∧ q = 0
    case pos =>
      by_cases hE1 : d.getD (pos + 1) ' ' = '/'
      case pos =>
        rw [lexcf_lcom hp hA hB hC hD hE hE1, lexcf_lcom hp hA hB hC hD hE hE1,
          skip_line_pos_indep d (pos + 2) l2 l1]
        exact ih _ _ _ _ _
      by_cases hE2 : d.getD (pos + 1) ' ' = '*'
      case pos =>
        rw [lexcf_bcom hp hA hB hC hD hE hE1 hE2, lexcf_bcom hp hA hB hC hD hE hE1 hE2,
          skip_slash_star_pos_indep d (pos + 2) l2 l1]
        exact ih _ _ _ _ _
      rw [lexcf_slash_other hp hA hB hC hD hE hE1 hE2,
        lexcf_slash_other hp hA hB hC hD hE hE1 hE2]
      exact ih _ _ _ _ _
    by_cases hF : (d.getD pos ' ' = Char.ofNat 39 ∨ d.getD pos ' ' = '"') ∧ q = 0
    case pos => rw [lexcf_qopen hp hA hB hC hD hE hF, lexcf_qopen hp hA hB hC hD hE hF]
                exact ih _ _ _ _ _
    by_cases hG : q ≠ 0 ∧ (d.getD pos ' ').toNat = q
    case pos => rw [lexcf_qclose hp hA hB hC hD hE hF hG, lexcf_qclose hp hA hB hC hD hE hF hG]
                exact ih _ _ _ _ _
    by_cases hH : d.getD pos ' ' = '\\' ∧ pos + 1 < d.length ∧ q = ('"').toNat
    case pos =>
      by_cases hH1 : d.getD (pos + 1) ' ' = '"' ∨ d.getD (pos + 1) ' ' = '$'
      case pos => rw [lexcf_esc hp hA hB hC hD hE hF hG hH hH1,
                    lexcf_esc hp hA hB hC hD hE hF hG hH hH1]
                  exact ih _ _ _ _ _
      case neg => rw [lexcf_esc_other hp hA hB hC hD hE hF hG hH hH1,
                    lexcf_esc_other hp hA hB hC hD hE hF hG hH hH1]
                  exact ih _ _ _ _ _
    rw [lexcf_other hp hA hB hC hD hE hF hG hH, lexcf_other hp hA hB hC hD hE hF hG hH]
    exact ih _ _ _ _ _

theorem lex_config_f_fi (d : List Char) :
    ∀ f1 f2 pos l depth q, pos ≤ d.length → d.length - pos < f1 → d.length - pos < f2 →
      (lex_config_f d f1 pos l depth q).1 = (lex_config_f d f2 pos l depth q).1 := by
  intro f1
  induction f1 with
  | zero => intro f2 pos l depth q h hf1 hf2; omega
  | succ f ih =>
    intro f2 pos l depth q h hf1 hf2
    by_cases hp : pos < d.length
    case neg =>
      rw [lex_config_f_at_end d _ pos l depth q (by omega),
        lex_config_f_at_end d f2 pos l depth q (by omega)]
    match f2 with
    | 0 => omega
    | g + 1 =>
    by_cases hA : d.getD pos ' ' = '(' ∧ q = 0
    case pos => rw [lexcf_open hp hA, lexcf_open hp hA]
                exact ih g _ _ _ _ (by omega) (by omega) (by omega)
    by_cases hB : d.getD pos ' ' = ')' ∧ q = 0
    case pos =>
      by_cases hB1 : depth = 1
      case pos => rw [lexcf_close_done hp hA hB hB1, lexcf_close_done hp hA hB hB1]
      case neg => rw [lexcf_close_step hp hA hB hB1, lexcf_close_step hp hA hB hB1]
                  exact ih g _ _ _ _ (by omega) (by omega) (by omega)
    by_cases hC : d.getD pos ' ' = '\n'
    case pos => rw [lexcf_nl hp hA hB hC, lexcf_nl hp hA hB hC]
                exact ih g _ _ _ _ (by omega) (by omega) (by omega)
    by_cases hD : d.getD pos ' ' = '\r'
    case pos =>
      by_cases hD1 : pos + 1 < d.length ∧ d.getD (pos + 1) ' ' = '\n'
      case pos => obtain ⟨h2, _⟩ := hD1
                  rw [lexcf_crlf hp hA hB hC hD ⟨h2, by assumption⟩,
                    lexcf_crlf hp hA hB hC hD ⟨h2, by assumption⟩]
                  exact ih g _ _ _ _ (by omega) (by omega) (by omega)
      case neg => rw [lexcf_cr hp hA hB hC hD hD1, lexcf_cr hp hA hB hC hD hD1]
                  exact ih g _ _ _ _ (by omega) (by omega) (by omega)
    by_cases hE : d.getD pos ' ' = '/' ∧ pos + 1 < d.length ∧ q = 0
    case pos =>
      obtain ⟨he1, he2, he3⟩ := hE
      by_cases hE1 : d.getD (pos + 1) ' ' = '/'
      case pos =>
        rw [lexcf_lcom hp hA hB hC hD ⟨he1, he2, he3⟩ hE1,
          lexcf_lcom hp hA hB hC hD ⟨he1, he2, he3⟩ hE1]
        have hlb := skip_line_lb d (pos + 2) l
        have hub := skip_line_ub d (pos + 2) l (by omega)
        exact ih g _ _ _ _ (by omega) (by omega) (by omega)
      by_cases hE2 : d.getD (pos + 1) ' ' = '*'
      case pos =>
        rw [lexcf_bcom hp hA hB hC hD ⟨he1, he2, he3⟩ hE1 hE2,
          lexcf_bcom hp hA hB hC hD ⟨he1, he2, he3⟩ hE1 hE2]
        have hlb := skip_slash_star_lb d (pos + 2) l
        have hub := skip_slash_star_ub d (pos + 2) l (by omega)
        exact ih g _ _ _ _ (by omega) (by omega) (by omega)
      rw [lexcf_slash_other hp hA hB hC hD ⟨he1, he2, he3⟩ hE1 hE2,
        lexcf_slash_other hp hA hB hC hD ⟨he1, he2, he3⟩ hE1 hE2]
      exact ih g _ _ _ _ (by omega) (by omega) (by omega)
    by_cases hF : (d.getD pos ' ' = Char.ofNat 39 ∨ d.getD pos ' ' = '"') ∧ q = 0
    case pos => rw [lexcf_qopen hp hA hB hC hD hE hF, lexcf_qopen hp hA hB hC hD hE hF]
                exact ih g _ _ _ _ (by omega) (by omega) (by omega)
    by_cases hG : q ≠ 0 ∧ (d.getD pos ' ').toNat = q
    case pos => rw [lexcf_qclose hp hA hB hC hD hE hF hG, lexcf_qclose hp hA hB hC hD hE hF hG]
                exact ih g _ _ _ _ (by omega) (by omega) (by omega)
    by_cases hH : d.getD pos ' ' = '\\' ∧ pos + 1 < d.length ∧ q = ('"').toNat
    case pos =>
      obtain ⟨hh1, hh2, hh3⟩ := hH
      by_cases hH1 : d.getD (pos + 1) ' ' = '"' ∨ d.getD (pos + 1) ' ' = '$'
      case pos => rw [lexcf_esc hp hA hB hC hD hE hF hG ⟨hh1, hh2, hh3⟩ hH1,
                    lexcf_esc hp hA hB hC hD hE hF hG ⟨hh1, hh2, hh3⟩ hH1]
                  exact ih g _ _ _ _ (by omega) (by omega) (by omega)
      case neg => rw [lexcf_esc_other hp hA hB hC hD hE hF hG ⟨hh1, hh2, hh3⟩ hH1,
                    lexcf_esc_other hp hA hB hC hD hE hF hG ⟨hh1, hh2, hh3⟩ hH1]
                  exact ih g _ _ _ _ (by omega) (by omega) (by omega)
    rw [lexcf_other hp hA hB hC hD hE hF hG hH, lexcf_other hp hA hB hC hD hE hF hG hH]
    exact ih g _ _ _ _ (by omega) (by omega) (by omega)

theorem lex_config_f_canon (d : List Char) (f1 f2 pos l1 l2 depth q : Nat)
    (h : pos ≤ d.length) (hf1 : d.length - pos < f1) (hf2 : d.length - pos < f2) :
    (lex_config_f d f1 pos l1 depth q).1 = (lex_config_f d f2 pos l2 depth q).1 := by
  rw [lex_config_f_l_indep d f1 pos l1 l2 depth q]
  exact lex_config_f_fi d f1 f2 pos l2 depth q h hf1 hf2

/-! ## spec_config_end: one lemma per branch -/

theorem specce_open {d : List Char} {pos depth f : Nat} (hp : pos < d.length)
    (hA : d.getD pos ' ' = '(') :
    spec_config_end_f d (f + 1) pos depth = spec_config_end_f d f (pos + 1) (depth + 1) := by
  simp only [spec_config_end_f]
  rw [if_pos hp, if_pos hA]

theorem specce_close_done {d : List Char} {pos depth f : Nat} (hp : pos < d.length)
    (hA : ¬ d.getD pos ' ' = '(') (hB : d.getD pos ' ' = ')') (hB1 : depth = 1) :
    spec_config_end_f d (f + 1) pos depth = pos := by
  simp only [spec_config_end_f]
  rw [if_pos hp, if_neg hA, if_pos hB, if_pos hB1]

theorem specce_close_step {d : List Char} {pos depth f : Nat} (hp : pos < d.length)
    (hA : ¬ d.getD pos ' ' = '(') (hB : d.getD pos ' ' = ')') (hB1 : ¬ depth = 1) :
    spec_config_end_f d (f + 1) pos depth = spec_config_end_f d f (pos + 1) (depth - 1) := by
  simp only [spec_config_end_f]
  rw [if_pos hp, if_neg hA, if_pos hB, if_neg hB1]

theorem specce_lcom {d : List Char} {pos depth f : Nat} (hp : pos < d.length)
    (hA : ¬ d.getD pos ' ' = '(') (hB : ¬ d.getD pos ' ' = ')')
    (hE : d.getD pos ' ' = '/' ∧ pos + 1 < d.length ∧ d.getD (pos + 1) ' ' = '/') :
    spec_config_end_f d (f + 1) pos depth =
      spec_config_end_f d f (skip_line d (pos + 2) 0).1 depth := by
  simp only [spec_config_end_f]
  rw [if_pos hp, if_neg hA, if_neg hB, if_pos hE]

theorem specce_bcom {d : List Char} {pos depth f : Nat} (hp : pos < d.length)
    (hA : ¬ d.getD pos ' ' = '(') (hB : ¬ d.getD pos ' ' = ')')
    (hE1 : ¬ (d.getD pos ' ' = '/' ∧ pos + 1 < d.length ∧ d.getD (pos + 1) ' ' = '/'))
    (hE2 : d.getD pos ' ' = '/' ∧ pos + 1 < d.length ∧ d.getD (pos + 1) ' ' = '*') :
    spec_config_end_f d (f + 1) pos depth =
      spec_config_end_f d f (skip_slash_star d (pos + 2) 0).1 depth := by
  simp only [spec_config_end_f]
  rw [if_pos hp, if_neg hA, if_neg hB, if_neg hE1, if_pos hE2]

theorem specce_sq {d : List Char} {pos depth f : Nat} (hp : pos < d.length)
    (hA : ¬ d.getD pos ' ' = '(') (hB : ¬ d.getD pos ' ' = ')')
    (hE1 : ¬ (d.getD pos ' ' = '/' ∧ pos + 1 < d.length ∧ d.getD (pos + 1) ' ' = '/'))
    (hE2 : ¬ (d.getD pos ' ' = '/' ∧ pos + 1 < d.length ∧ d.getD (pos + 1) ' ' = '*'))
    (hQ : d.getD pos ' ' = Char.ofNat 39) :
    spec_config_end_f d (f + 1) pos depth =
      spec_config_end_f d f (spec_squote_end d (pos + 1)) depth := by
  simp only [spec_config_end_f]
  rw [if_pos hp, if_neg hA, if_neg hB, if_neg hE1, if_neg hE2, if_pos hQ]

theorem specce_dq {d : List Char} {pos depth f : Nat} (hp : pos < d.length)
    (hA : ¬ d.getD pos ' ' = '(') (hB : ¬ d.getD pos ' ' = ')')
    (hE1 : ¬ (d.getD pos ' ' = '/' ∧ pos + 1 < d.length ∧ d.getD (pos + 1) ' ' = '/'))
    (hE2 : ¬ (d.getD pos ' ' = '/' ∧ pos + 1 < d.length ∧ d.getD (pos + 1) ' ' = '*'))
    (hQ : ¬ d.getD pos ' ' = Char.ofNat 39) (hQ2 : d.getD pos ' ' = '"') :
    spec_config_end_f d (f + 1) pos depth =
      spec_config_end_f d f (spec_dquote_end d (pos + 1)) depth := by
  simp only [spec_config_end_f]
  rw [if_pos hp, if_neg hA, if_neg hB, if_neg hE1, if_neg hE2, if_neg hQ, if_pos hQ2]

theorem specce_other {d : List Char} {pos depth f : Nat} (hp : pos < d.length)
    (hA : ¬ d.getD pos ' ' = '(') (hB : ¬ d.getD pos ' ' = ')')
    (hE1 : ¬ (d.getD pos ' ' = '/' ∧ pos + 1 < d.length ∧ d.getD (pos + 1) ' ' = '/'))
    (hE2 : ¬ (d.getD pos ' ' = '/' ∧ pos + 1 < d.length ∧ d.getD (pos + 1) ' ' = '*'))
    (hQ : ¬ d.getD pos ' ' = Char.ofNat 39) (hQ2 : ¬ d.getD pos ' ' = '"') :
    spec_config_end_f d (f + 1) pos depth = spec_config_end_f d f (pos + 1) depth := by
  simp only [spec_config_end_f]
  rw [if_pos hp, if_neg hA, if_neg hB, if_neg hE1, if_neg hE2, if_neg hQ, if_neg hQ2]

theorem lex_config_f_squote (d : List Char) :
    ∀ f1 f2 pos l depth, pos ≤ d.length → d.length - pos < f1 → d.length - pos < f2 →
      (lex_config_f d f1 pos l depth 39).1 =
        (lex_config_f d f2 (spec_squote_end d pos) 0 depth 0).1 := by
  intro f1
  induction f1 with
  | zero => intro f2 pos l depth h hf1 hf2; omega
  | succ f ih =>
    intro f2 pos l depth h hf1 hf2
    by_cases hp : pos < d.length
    case neg =>
      have hpe : pos = d.length := by omega
      subst hpe
      rw [spec_squote_end_at_end d,
        lex_config_f_at_end d (f + 1) d.length l depth 39 (le_refl _),
        lex_config_f_at_end d f2 d.length 0 depth 0 (le_refl _)]
    have hA : ¬ (d.getD pos ' ' = '(' ∧ (39 : Nat) = 0) := fun hx => absurd hx.2 (by omega)
    have hB : ¬ (d.getD pos ' ' = ')' ∧ (39 : Nat) = 0) := fun hx => absurd hx.2 (by omega)
    have hE : ¬ (d.getD pos ' ' = '/' ∧ pos + 1 < d.length ∧ (39 : Nat) = 0) :=
      fun hx => absurd hx.2.2 (by omega)
    have hF : ¬ ((d.getD pos ' ' = Char.ofNat 39 ∨ d.getD pos ' ' = '"') ∧ (39 : Nat) = 0) :=
      fun hx => absurd hx.2 (by omega)
    have hH : ¬ (d.getD pos ' ' = '\\' ∧ pos + 1 < d.length ∧ (39 : Nat) = ('"').toNat) :=
      fun hx => absurd hx.2.2 (by decide)
    by_cases hC : d.getD pos ' ' = '\n'
    case pos =>
      rw [lexcf_nl hp hA hB hC, spec_squote_end_step d pos hp (by rw [hC]; decide)]
      exact ih f2 (pos + 1) (l + 1) depth (by omega) (by omega) (by omega)
    by_cases hD : d.getD pos ' ' = '\r'
    case pos =>
      by_cases hD1 : pos + 1 < d.length ∧ d.getD (pos + 1) ' ' = '\n'
      case pos =>
        obtain ⟨hd1, hd2⟩ := hD1
        rw [lexcf_crlf hp hA hB hC hD ⟨hd1, hd2⟩,
          spec_squote_end_step d pos hp (by rw [hD]; decide),
          spec_squote_end_step d (pos + 1) hd1 (by rw [hd2]; decide)]
        exact ih f2 (pos + 2) (l + 1) depth (by omega) (by omega) (by omega)
      case neg =>
        rw [lexcf_cr hp hA hB hC hD hD1, spec_squote_end_step d pos hp (by rw [hD]; decide)]
        exact ih f2 (pos + 1) (l + 1) depth (by omega) (by omega) (by omega)
    by_cases hG : (39 : Nat) ≠ 0 ∧ (d.getD pos ' ').toNat = 39
    case pos =>
      have hc : d.getD pos ' ' = Char.ofNat 39 := by
        rw [← Char.ofNat_toNat (d.getD pos ' '), hG.2]
      rw [lexcf_qclose hp hA hB hC hD hE hF hG, spec_squote_end_close d pos hp hc]
      exact lex_config_f_canon d f f2 (pos + 1) l 0 depth 0 (by omega) (by omega) (by omega)
    have hcn : ¬ d.getD pos ' ' = Char.ofNat 39 := fun hx => hG ⟨by omega, by rw [hx]; decide⟩
    rw [lexcf_other hp hA hB hC hD hE hF hG hH, spec_squote_end_step d pos hp hcn]
    exact ih f2 (pos + 1) l depth (by omega) (by omega) (by omega)

theorem lex_config_f_dquote (d : List Char) :
    ∀ f1 f2 pos l depth, pos ≤ d.length → d.length - pos < f1 → d.length - pos < f2 →
      (lex_config_f d f1 pos l depth 34).1 =
        (lex_config_f d f2 (spec_dquote_end d pos) 0 depth 0).1 := by
  intro f1
  induction f1 with
  | zero => intro f2 pos l depth h hf1 hf2; omega
  | succ f ih =>
    intro f2 pos l depth h hf1 hf2
    by_cases hp : pos < d.length
    case neg =>
      have hpe : pos = d.length := by omega
      subst hpe
      rw [spec_dquote_end_at_end d,
        lex_config_f_at_end d (f + 1) d.length l depth 34 (le_refl _),
        lex_config_f_at_end d f2 d.length 0 depth 0 (le_refl _)]
    have hA : ¬ (d.getD pos ' ' = '(' ∧ (34 : Nat) = 0) := fun hx => absurd hx.2 (by omega)
    have hB : ¬ (d.getD pos ' ' = ')' ∧ (34 : Nat) = 0) := fun hx => absurd hx.2 (by omega)
    have hE : ¬ (d.getD pos ' ' = '/' ∧ pos + 1 < d.length ∧ (34 : Nat) = 0) :=
      fun hx => absurd hx.2.2 (by omega)
    have hF : ¬ ((d.getD pos ' ' = Char.ofNat 39 ∨ d.getD pos ' ' = '"') ∧ (34 : Nat) = 0) :=
      fun hx => absurd hx.2 (by omega)
    by_cases hC : d.getD pos ' ' = '\n'
    case pos =>
      have hcq : ¬ d.getD pos ' ' = '"' := by rw [hC]; decide
      have he : ¬ (d.getD pos ' ' = '\\' ∧ pos + 1 < d.length
          ∧ (d.getD (pos + 1) ' ' = '"' ∨ d.getD (pos + 1) ' ' = '$')) := by
        intro hx
        rw [hC] at hx
        exact absurd hx.1 (by decide)
      rw [lexcf_nl hp hA hB hC, spec_dquote_end_step d pos hp hcq he]
      exact ih f2 (pos + 1) (l + 1) depth (by omega) (by omega) (by omega)
    by_cases hD : d.getD pos ' ' = '\r'
    case pos =>
      have hcq : ¬ d.getD pos ' ' = '"' := by rw [hD]; decide
      have he : ¬ (d.getD pos ' ' = '\\' ∧ pos + 1 < d.length
          ∧ (d.getD (pos + 1) ' ' = '"' ∨ d.getD (pos + 1) ' ' = '$')) := by
        intro hx
        rw [hD] at hx
        exact absurd hx.1 (by decide)
      by_cases hD1 : pos + 1 < d.length ∧ d.getD (pos + 1) ' ' = '\n'
      case pos =>
        obtain ⟨hd1, hd2⟩ := hD1
        have hcq2 : ¬ d.getD (pos + 1) ' ' = '"' := by rw [hd2]; decide
        have he2 : ¬ (d.getD (pos + 1) ' ' = '\\' ∧ pos + 1 + 1 < d.length
            ∧ (d.getD (pos + 1 + 1) ' ' = '"' ∨ d.getD (pos + 1 + 1) ' ' = '$')) := by
          intro hx
          rw [hd2] at hx
          exact absurd hx.1 (by decide)
        rw [lexcf_crlf hp hA hB hC hD ⟨hd1, hd2⟩, spec_dquote_end_step d pos hp hcq he,
          spec_dquote_end_step d (pos + 1) hd1 hcq2 he2]
        exact ih f2 (pos + 2) (l + 1) depth (by omega) (by omega) (by omega)
      case neg =>
        rw [lexcf_cr hp hA hB hC hD hD1, spec_dquote_end_step d pos hp hcq he]
        exact ih f2 (pos + 1) (l + 1) depth (by omega) (by omega) (by omega)
    by_cases hG : (34 : Nat) ≠ 0 ∧ (d.getD pos ' ').toNat = 34
    case pos =>
      have hc : d.getD pos ' ' = '"' := by
        rw [← Char.ofNat_toNat (d.getD pos ' '), hG.2]
      rw [lexcf_qclose hp hA hB hC hD hE hF hG, spec_dquote_end_close d pos hp hc]
      exact lex_config_f_canon d f f2 (pos + 1) l 0 depth 0 (by omega) (by omega) (by omega)
    have hcq : ¬ d.getD pos ' ' = '"' := fun hx => hG ⟨by omega, by rw [hx]; decide⟩
    by_cases hH : d.getD pos ' ' = '\\' ∧ pos + 1 < d.length ∧ (34 : Nat) = ('"').toNat
    case pos =>
      obtain ⟨hh1, hh2, hh3⟩ := hH
      by_cases hH1 : d.getD (pos + 1) ' ' = '"' ∨ d.getD (pos + 1) ' ' = '$'
      case pos =>
        rw [lexcf_esc hp hA hB hC hD hE hF hG ⟨hh1, hh2, hh3⟩ hH1,
          spec_dquote_end_esc d pos hp hcq ⟨hh1, hh2, hH1⟩]
        exact ih f2 (pos + 2) l depth (by omega) (by omega) (by omega)
      case neg =>
        have he : ¬ (d.getD pos ' ' = '\\' ∧ pos + 1 < d.length
            ∧ (d.getD (pos + 1) ' ' = '"' ∨ d.getD (pos + 1) ' ' = '$')) :=
          fun hx => hH1 hx.2.2
        rw [lexcf_esc_other hp hA hB hC hD hE hF hG ⟨hh1, hh2, hh3⟩ hH1,
          spec_dquote_end_step d pos hp hcq he]
        exact ih f2 (pos + 1) l depth (by omega) (by omega) (by omega)
    case neg =>
      have he : ¬ (d.getD pos ' ' = '\\' ∧ pos + 1 < d.length
          ∧ (d.getD (pos + 1) ' ' = '"' ∨ d.getD (pos + 1) ' ' = '$')) :=
        fun hx => hH ⟨hx.1, hx.2.1, by decide⟩
      rw [lexcf_other hp hA hB hC hD hE hF hG hH, spec_dquote_end_step d pos hp hcq he]
      exact ih f2 (pos + 1) l depth (by omega) (by omega) (by omega)

theorem spec_config_end_f_fi (d : List Char) :
    ∀ f1 f2 pos depth, pos ≤ d.length → d.length - pos < f1 → d.length - pos < f2 →
      spec_config_end_f d f1 pos depth = spec_config_end_f d f2 pos depth := by
  intro f1
  induction f1 with
  | zero => intro f2 pos depth h hf1 hf2; omega
  | succ f ih =>
    intro f2 pos depth h hf1 hf2
    by_cases hp : pos < d.length
    case neg =>
      rw [spec_config_end_f_at_end d _ pos depth (by omega),
        spec_config_end_f_at_end d f2 pos depth (by omega)]
    match f2 with
    | 0 => omega
    | g + 1 =>
    by_cases hA : d.getD pos ' ' = '('
    case pos =>
      rw [specce_open hp hA, specce_open hp hA]
      exact ih g (pos + 1) (depth + 1) (by omega) (by omega) (by omega)
    by_cases hB : d.getD pos ' ' = ')'
    case pos =>
      by_cases hB1 : depth = 1
      case pos => rw [specce_close_done hp hA hB hB1, specce_close_done hp hA hB hB1]
      case neg =>
        rw [specce_close_step hp hA hB hB1, specce_close_step hp hA hB hB1]
        exact ih g (pos + 1) (depth - 1) (by omega) (by omega) (by omega)
    by_cases hE1 : d.getD pos ' ' = '/' ∧ pos + 1 < d.length ∧ d.getD (pos + 1) ' ' = '/'
    case pos =>
      obtain ⟨he1, he2, he3⟩ := hE1
      rw [specce_lcom hp hA hB ⟨he1, he2, he3⟩, specce_lcom hp hA hB ⟨he1, he2, he3⟩]
      have hlb := skip_line_lb d (pos + 2) 0
      have hub := skip_line_ub d (pos + 2) 0 (by omega)
      exact ih g _ depth (by omega) (by omega) (by omega)
    by_cases hE2 : d.getD pos ' ' = '/' ∧ pos + 1 < d.length ∧ d.getD (pos + 1) ' ' = '*'
    case pos =>
      obtain ⟨he1, he2, he3⟩ := hE2
      rw [specce_bcom hp hA hB hE1 ⟨he1, he2, he3⟩, specce_bcom hp hA hB hE1 ⟨he1, he2, he3⟩]
      have hlb := skip_slash_star_lb d (pos + 2) 0
      have hub := skip_slash_star_ub d (pos + 2) 0 (by omega)
      exact ih g _ depth (by omega) (by omega) (by omega)
    by_cases hQ : d.getD pos ' ' = Char.ofNat 39
    case pos =>
      rw [specce_sq hp hA hB hE1 hE2 hQ, specce_sq hp hA hB hE1 hE2 hQ]
      have hsb := spec_squote_end_bounds d (pos + 1) (by omega)
      exact ih g _ depth (by omega) (by omega) (by omega)
    by_cases hQ2 : d.getD pos ' ' = '"'
    case pos =>
      rw [specce_dq hp hA hB hE1 hE2 hQ hQ2, specce_dq hp hA hB hE1 hE2 hQ hQ2]
      have hsb := spec_dquote_end_bounds d (pos + 1) (by omega)
      exact ih g _ depth (by omega) (by omega) (by omega)
    rw [specce_other hp hA hB hE1 hE2 hQ hQ2, specce_other hp hA hB hE1 hE2 hQ hQ2]
    exact ih g (pos + 1) depth (by omega) (by omega) (by omega)

theorem lex_config_f_spec (d : List Char) :
    ∀ f1 f2 pos l depth, pos ≤ d.length → d.length - pos < f1 → d.length - pos < f2 →
      (lex_config_f d f1 pos l depth 0).1 = spec_config_end_f d f2 pos depth := by
  intro f1
  induction f1 with
  | zero => intro f2 pos l depth h hf1 hf2; omega
  | succ f ih =>
    intro f2 pos l depth h hf1 hf2
    by_cases hp : pos < d.length
    case neg =>
      rw [lex_config_f_at_end d _ pos l depth 0 (by omega),
        spec_config_end_f_at_end d f2 pos depth (by omega)]
    match f2 with
    | 0 => omega
    | g + 1 =>
    have hGn : ¬ ((0 : Nat) ≠ 0 ∧ (d.getD pos ' ').toNat = 0) := fun hx => hx.1 rfl
    have hHn : ¬ (d.getD pos ' ' = '\\' ∧ pos + 1 < d.length ∧ (0 : Nat) = ('"').toNat) :=
      fun hx => absurd hx.2.2 (by decide)
    by_cases hA : d.getD pos ' ' = '('
    case pos =>
      rw [lexcf_open hp ⟨hA, rfl⟩, specce_open hp hA]
      exact ih g (pos + 1) l (depth + 1) (by omega) (by omega) (by omega)
    have hAn : ¬ (d.getD pos ' ' = '(' ∧ (0 : Nat) = 0) := fun hx => hA hx.1
    by_cases hB : d.getD pos ' ' = ')'
    case pos =>
      by_cases hB1 : depth = 1
      case pos => rw [lexcf_close_done hp hAn ⟨hB, rfl⟩ hB1, specce_close_done hp hA hB hB1]
      case neg =>
        rw [lexcf_close_step hp hAn ⟨hB, rfl⟩ hB1, specce_close_step hp hA hB hB1]
        exact ih g (pos + 1) l (depth - 1) (by omega) (by omega) (by omega)
    have hBn : ¬ (d.getD pos ' ' = ')' ∧ (0 : Nat) = 0) := fun hx => hB hx.1
    by_cases hC : d.getD pos ' ' = '\n'
    case pos =>
      have hE1n : ¬ (d.getD pos ' ' = '/' ∧ pos + 1 < d.length ∧ d.getD (pos + 1) ' ' = '/') := by
        intro hx; rw [hC] at hx; exact absurd hx.1 (by decide)
      have hE2n : ¬ (d.getD pos ' ' = '/' ∧ pos + 1 < d.length ∧ d.getD (pos + 1) ' ' = '*') := by
        intro hx; rw [hC] at hx; exact absurd hx.1 (by decide)
      rw [lexcf_nl hp hAn hBn hC,
        specce_other hp hA hB hE1n hE2n (by rw [hC]; decide) (by rw [hC]; decide)]
      exact ih g (pos + 1) (l + 1) depth (by omega) (by omega) (by omega)
    by_cases hD : d.getD pos ' ' = '\r'
    case pos =>
      have hE1n : ¬ (d.getD pos ' ' = '/' ∧ pos + 1 < d.length ∧ d.getD (pos + 1) ' ' = '/') := by
        intro hx; rw [hD] at hx; exact absurd hx.1 (by decide)
      have hE2n : ¬ (d.getD pos ' ' = '/' ∧ pos + 1 < d.length ∧ d.getD (pos + 1) ' ' = '*') := by
        intro hx; rw [hD] at hx; exact absurd hx.1 (by decide)
      by_cases hD1 : pos + 1 < d.length ∧ d.getD (pos + 1) ' ' = '\n'
      case pos =>
        obtain ⟨hd1, hd2⟩ := hD1
        have hE1n2 : ¬ (d.getD (pos + 1) ' ' = '/' ∧ pos + 1 + 1 < d.length
            ∧ d.getD (pos + 1 + 1) ' ' = '/') := by
          intro hx; rw [hd2] at hx; exact absurd hx.1 (by decide)
        have hE2n2 : ¬ (d.getD (pos + 1) ' ' = '/' ∧ pos + 1 + 1 < d.length
            ∧ d.getD (pos + 1 + 1) ' ' = '*') := by
          intro hx; rw [hd2] at hx; exact absurd hx.1 (by decide)
        rw [lexcf_crlf hp hAn hBn hC hD ⟨hd1, hd2⟩,
          specce_other hp hA hB hE1n hE2n (by rw [hD]; decide) (by rw [hD]; decide),
          spec_config_end_f_fi d g (g + 1) (pos + 1) depth (by omega) (by omega) (by omega),
          specce_other hd1 (by rw [hd2]; decide) (by rw [hd2]; decide) hE1n2 hE2n2
            (by rw [hd2]; decide) (by rw [hd2]; decide)]
        exact ih g (pos + 2) (l + 1) depth (by omega) (by omega) (by omega)
      case neg =>
        rw [lexcf_cr hp hAn hBn hC hD hD1,
          specce_other hp hA hB hE1n hE2n (by rw [hD]; decide) (by rw [hD]; decide)]
        exact ih g (pos + 1) (l + 1) depth (by omega) (by omega) (by omega)
    by_cases hSl : d.getD pos ' ' = '/'
    case pos =>
      by_cases hS2 : pos + 1 < d.length
      case neg =>
        have hEn : ¬ (d.getD pos ' ' = '/' ∧ pos + 1 < d.length ∧ (0 : Nat) = 0) :=
          fun hx => hS2 hx.2.1
        have hFn : ¬ ((d.getD pos ' ' = Char.ofNat 39 ∨ d.getD pos ' ' = '"')
            ∧ (0 : Nat) = 0) := by
          intro hx
          rcases hx.1 with h1 | h1 <;> (rw [hSl] at h1; exact absurd h1 (by decide))
        have hE1n : ¬ (d.getD pos ' ' = '/' ∧ pos + 1 < d.length ∧ d.getD (pos + 1) ' ' = '/') :=
          fun hx => hS2 hx.2.1
        have hE2n : ¬ (d.getD pos ' ' = '/' ∧ pos + 1 < d.length ∧ d.getD (pos + 1) ' ' = '*') :=
          fun hx => hS2 hx.2.1
        rw [lexcf_other hp hAn hBn hC hD hEn hFn hGn hHn,
          specce_other hp hA hB hE1n hE2n (by rw [hSl]; decide) (by rw [hSl]; decide)]
        exact ih g (pos + 1) l depth (by omega) (by omega) (by omega)
      case pos =>
        by_cases hE1 : d.getD (pos + 1) ' ' = '/'
        case pos =>
          rw [lexcf_lcom hp hAn hBn hC hD ⟨hSl, hS2, rfl⟩ hE1,
            specce_lcom hp hA hB ⟨hSl, hS2, hE1⟩, skip_line_pos_indep d (pos + 2) l 0]
          have hlb := skip_line_lb d (pos + 2) 0
          have hub := skip_line_ub d (pos + 2) 0 (by omega)
          exact ih g _ _ depth (by omega) (by omega) (by omega)
        case neg =>
          by_cases hE2 : d.getD (pos + 1) ' ' = '*'
          case pos =>
            rw [lexcf_bcom hp hAn hBn hC hD ⟨hSl, hS2, rfl⟩ hE1 hE2,
              specce_bcom hp hA hB (fun hx => hE1 hx.2.2) ⟨hSl, hS2, hE2⟩,
              skip_slash_star_pos_indep d (pos + 2) l 0]
            have hlb := skip_slash_star_lb d (pos + 2) 0
            have hub := skip_slash_star_ub d (pos + 2) 0 (by omega)
            exact ih g _ _ depth (by omega) (by omega) (by omega)
          case neg =>
            have hFn : ¬ ((d.getD pos ' ' = Char.ofNat 39 ∨ d.getD pos ' ' = '"')
                ∧ (0 : Nat) = 0) := by
              intro hx
              rcases hx.1 with h1 | h1 <;> (rw [hSl] at h1; exact absurd h1 (by decide))
            rw [lexcf_slash_other hp hAn hBn hC hD ⟨hSl, hS2, rfl⟩ hE1 hE2,
              specce_other hp hA hB (fun hx => hE1 hx.2.2) (fun hx => hE2 hx.2.2)
                (by rw [hSl]; decide) (by rw [hSl]; decide)]
            exact ih g (pos + 1) l depth (by omega) (by omega) (by omega)
    have hEn : ¬ (d.getD pos ' ' = '/' ∧ pos + 1 < d.length ∧ (0 : Nat) = 0) :=
      fun hx => hSl hx.1
    have hE1n : ¬ (d.getD pos ' ' = '/' ∧ pos + 1 < d.length ∧ d.getD (pos + 1) ' ' = '/') :=
      fun hx => hSl hx.1
    have hE2n : ¬ (d.getD pos ' ' = '/' ∧ pos + 1 < d.length ∧ d.getD (pos + 1) ' ' = '*') :=
      fun hx => hSl hx.1
    by_cases hQ : d.getD pos ' ' = Char.ofNat 39
    case pos =>
      have ht : (d.getD pos ' ').toNat = 39 := by rw [hQ]; decide
      have hsb := spec_squote_end_bounds d (pos + 1) (by omega)
      rw [lexcf_qopen hp hAn hBn hC hD hEn ⟨Or.inl hQ, rfl⟩, ht, specce_sq hp hA hB hE1n hE2n hQ,
        lex_config_f_squote d f f (pos + 1) l depth (by omega) (by omega) (by omega)]
      exact ih g (spec_squote_end d (pos + 1)) 0 depth (by omega) (by omega) (by omega)
    by_cases hQ2 : d.getD pos ' ' = '"'
    case pos =>
      have ht : (d.getD pos ' ').toNat = 34 := by rw [hQ2]; decide
      have hsb := spec_dquote_end_bounds d (pos + 1) (by omega)
      rw [lexcf_qopen hp hAn hBn hC hD hEn ⟨Or.inr hQ2, rfl⟩, ht,
        specce_dq hp hA hB hE1n hE2n hQ hQ2,
        lex_config_f_dquote d f f (pos + 1) l depth (by omega) (by omega) (by omega)]
      exact ih g (spec_dquote_end d (pos + 1)) 0 depth (by omega) (by omega) (by omega)
    have hFn : ¬ ((d.getD pos ' ' = Char.ofNat 39 ∨ d.getD pos ' ' = '"') ∧ (0 : Nat) = 0) :=
      fun hx => Or.elim hx.1 hQ hQ2
    rw [lexcf_other hp hAn hBn hC hD hEn hFn hGn hHn,
      specce_other hp hA hB hE1n hE2n hQ hQ2]
    exact ih g (pos + 1) l depth (by omega) (by omega) (by omega)

theorem spec_config_end_f_stop (d : List Char) :
    ∀ fuel pos depth, pos ≤ d.length → d.length - pos < fuel →
      pos ≤ spec_config_end_f d fuel pos depth ∧ spec_config_end_f d fuel pos depth ≤ d.length
      ∧ (spec_config_end_f d fuel pos depth < d.length →
          d.getD (spec_config_end_f d fuel pos depth) ' ' = ')') := by
  intro fuel
  induction fuel with
  | zero => intro pos depth h hf; omega
  | succ f ih =>
    intro pos depth h hf
    by_cases hp : pos < d.length
    case neg =>
      rw [spec_config_end_f_at_end d _ pos depth (by omega)]
      exact ⟨le_refl _, h, fun hlt => absurd hlt hp⟩
    by_cases hA : d.getD pos ' ' = '('
    case pos =>
      rw [specce_open hp hA]
      have := ih (pos + 1) (depth + 1) (by omega) (by omega)
      exact ⟨by omega, this.2.1, this.2.2⟩
    by_cases hB : d.getD pos ' ' = ')'
    case pos =>
      by_cases hB1 : depth = 1
      case pos =>
        rw [specce_close_done hp hA hB hB1]
        exact ⟨le_refl _, by omega, fun _ => hB⟩
      case neg =>
        rw [specce_close_step hp hA hB hB1]
        have := ih (pos + 1) (depth - 1) (by omega) (by omega)
        exact ⟨by omega, this.2.1, this.2.2⟩
    by_cases hE1 : d.getD pos ' ' = '/' ∧ pos + 1 < d.length ∧ d.getD (pos + 1) ' ' = '/'
    case pos =>
      obtain ⟨he1, he2, he3⟩ := hE1
      rw [specce_lcom hp hA hB ⟨he1, he2, he3⟩]
      have hlb := skip_line_lb d (pos + 2) 0
      have hub := skip_line_ub d (pos + 2) 0 (by omega)
      have := ih (skip_line d (pos + 2) 0).1 depth (by omega) (by omega)
      exact ⟨by omega, this.2.1, this.2.2⟩
    by_cases hE2 : d.getD pos ' ' = '/' ∧ pos + 1 < d.length ∧ d.getD (pos + 1) ' ' = '*'
    case pos =>
      obtain ⟨he1, he2, he3⟩ := hE2
      rw [specce_bcom hp hA hB hE1 ⟨he1, he2, he3⟩]
      have hlb := skip_slash_star_lb d (pos + 2) 0
      have hub := skip_slash_star_ub d (pos + 2) 0 (by omega)
      have := ih (skip_slash_star d (pos + 2) 0).1 depth (by omega) (by omega)
      exact ⟨by omega, this.2.1, this.2.2⟩
    by_cases hQ : d.getD pos ' ' = Char.ofNat 39
    case pos =>
      rw [specce_sq hp hA hB hE1 hE2 hQ]
      have hsb := spec_squote_end_bounds d (pos + 1) (by omega)
      have := ih (spec_squote_end d (pos + 1)) depth (by omega) (by omega)
      exact ⟨by omega, this.2.1, this.2.2⟩
    by_cases hQ2 : d.getD pos ' ' = '"'
    case pos =>
      rw [specce_dq hp hA hB hE1 hE2 hQ hQ2]
      have hsb := spec_dquote_end_bounds d (pos + 1) (by omega)
      have := ih (spec_dquote_end d (pos + 1)) depth (by omega) (by omega)
      exact ⟨by omega, this.2.1, this.2.2⟩
    rw [specce_other hp hA hB hE1 hE2 hQ hQ2]
    have := ih (pos + 1) depth (by omega) (by omega)
    exact ⟨by omega, this.2.1, this.2.2⟩

/-- C7: lex_config returns the source substring from the current
    position up to the parenthesis that balances the already-consumed
    opening one — parentheses inside single- or double-quoted spans
    and inside comments are non-structural, formalised by the
    spec-side scanner spec_config_end — and it does not consume the
    closing parenthesis: the returned position points at it. -/
theorem C7_lex_config (d : List Char) (pos lineno : Nat) (hpos : pos ≤ d.length) :
    (lex_config d pos lineno).1 =
      (d.drop pos).take ((lex_config d pos lineno).2.1 - pos)
    ∧ pos ≤ (lex_config d pos lineno).2.1
    ∧ ((lex_config d pos lineno).2.1 < d.length →
        d.getD ((lex_config d pos lineno).2.1) ' ' = ')')
    ∧ (lex_config d pos lineno).2.1 = spec_config_end d pos := by
  have hspec : (lex_config d pos lineno).2.1 = spec_config_end d pos :=
    lex_config_f_spec d (d.length + 1 - pos) (d.length + 1 - pos) pos lineno 1 hpos
      (by omega) (by omega)
  have hstop := spec_config_end_f_stop d (d.length + 1 - pos) pos 1 hpos (by omega)
  refine ⟨rfl, ?_, ?_, hspec⟩
  · rw [hspec]
    exact hstop.1
  · rw [hspec]
    exact hstop.2.2

theorem C7_witness :
    (0 ≤ C7d.length)
    ∧ ((lex_config C7d 0 1).1 = (C7d.drop 0).take ((lex_config C7d 0 1).2.1 - 0)
      ∧ 0 ≤ (lex_config C7d 0 1).2.1
      ∧ ((lex_config C7d 0 1).2.1 < C7d.length →
          C7d.getD ((lex_config C7d 0 1).2.1) ' ' = ')')
      ∧ (lex_config C7d 0 1).2.1 = spec_config_end C7d 0)
    ∧ lex_config C7d 0 1 = (['a', Char.ofNat 39, '(', Char.ofNat 39, 'b'], 5, 1) :=
  ⟨by decide, C7_lex_config C7d 0 1 (by decide), by decide⟩

/-! ## next_lexeme: advance bounds and loop lemmas -/

theorem lex_ws_f_nonspace (d : List Char) (fuel pos l : Nat)
    (h : ¬ (pos < d.length ∧ c_isspace (d.getD pos ' ') = true)) :
    lex_ws_f d fuel pos l = (pos, l) := by
  cases fuel with
  | zero => rfl
  | succ f => simp only [lex_ws_f]; rw [if_neg h]

theorem lex_ws_f_lb (d : List Char) :
    ∀ fuel pos l, pos ≤ (lex_ws_f d fuel pos l).1 := by
  intro fuel
  induction fuel with
  | zero => intro pos l; exact le_refl _
  | succ f ih =>
    intro pos l
    simp only [lex_ws_f]
    split_ifs <;>
      first
      | (dsimp only; omega)
      | (have hh := ih (pos + 2) (l + 1); omega)
      | (have hh := ih (pos + 1) (l + 1); omega)
      | (have hh := ih (pos + 1) l; omega)

theorem skip_ws_ht_f_lb (d : List Char) :
    ∀ fuel pos, pos ≤ skip_ws_ht_f d fuel pos := by
  intro fuel
  induction fuel with
  | zero => intro pos; exact le_refl _
  | succ f ih =>
    intro pos
    simp only [skip_ws_ht_f]
    split_ifs <;> first | omega | (have hh := ih (pos + 1); omega)

theorem parse_digits_f_lb (d : List Char) :
    ∀ fuel pos acc, pos ≤ (parse_digits_f d fuel pos acc).1 := by
  intro fuel
  induction fuel with
  | zero => intro pos acc; exact le_refl _
  | succ f ih =>
    intro pos acc
    simp only [parse_digits_f]
    split_ifs <;>
      first
      | (dsimp only; omega)
      | (have hh := ih (pos + 1) (acc * 10 + ((d.getD pos ' ').toNat - 48)); omega)

theorem fname_scan_f_lb (d : List Char) :
    ∀ fuel pos, pos ≤ fname_scan_f d fuel pos := by
  intro fuel
  induction fuel with
  | zero => intro pos; exact le_refl _
  | succ f ih =>
    intro pos
    simp only [fname_scan_f]
    split_ifs <;>
      first
      | omega
      | (have hh := ih (pos + 2); omega)
      | (have hh := ih (pos + 1); omega)

theorem eol_scan_f_lb (d : List Char) :
    ∀ fuel pos, pos ≤ eol_scan_f d fuel pos := by
  intro fuel
  induction fuel with
  | zero => intro pos; exact le_refl _
  | succ f ih =>
    intro pos
    simp only [eol_scan_f]
    split_ifs <;> first | omega | (have hh := ih (pos + 1); omega)

theorem skip_ws_ht_lb (d : List Char) (pos : Nat) : pos ≤ skip_ws_ht d pos :=
  skip_ws_ht_f_lb d _ pos

theorem parse_digits_lb (d : List Char) (pos acc : Nat) : pos ≤ (parse_digits d pos acc).1 :=
  parse_digits_f_lb d _ pos acc

theorem fname_scan_lb (d : List Char) (pos : Nat) : pos ≤ fname_scan d pos :=
  fname_scan_f_lb d _ pos

theorem eol_scan_lb (d : List Char) (pos : Nat) : pos ≤ eol_scan d pos :=
  eol_scan_f_lb d _ pos

theorem pld_tail_lb (d : List Char) (cpu : String → String) (ofn : String)
    (st : Scan) (pos1 : Nat) (hp : st.pos < d.length) (h1 : st.pos + 1 ≤ pos1) :
    st.pos + 1 ≤ (pld_tail d cpu ofn st pos1).1.pos := by
  simp only [pld_tail]
  split_ifs with he hq hc hc2
  · dsimp only
    have := skip_line_lb d pos1 st.lineno
    omega
  all_goals
    (try dsimp only at *)
    have b1 := parse_digits_lb d pos1 0
    have c1 := skip_ws_ht_lb d (parse_digits d pos1 0).1
    have f1 := fname_scan_lb d (skip_ws_ht d (parse_digits d pos1 0).1 + 1)
    have e1 := eol_scan_lb d (fname_scan d (skip_ws_ht d (parse_digits d pos1 0).1 + 1))
    have e2 := eol_scan_lb d (skip_ws_ht d (parse_digits d pos1 0).1)
    omega

theorem process_line_directive_lb (d : List Char) (cpu : String → String) (ofn : String)
    (st : Scan) (hp : st.pos < d.length) :
    st.pos + 1 ≤ (process_line_directive d cpu ofn st).1.pos := by
  have h0 := skip_ws_ht_lb d (st.pos + 1)
  have h5 := skip_ws_ht_lb d (skip_ws_ht d (st.pos + 1) + 5)
  simp only [process_line_directive]
  split_ifs with hl
  · exact pld_tail_lb d cpu ofn st _ hp (by omega)
  · exact pld_tail_lb d cpu ofn st _ hp (by omega)

theorem nll_eof {d : List Char} {cpu : String → String} {ofn : String} {f : Nat} {st : Scan}
    {p l : Nat} (hw : lex_ws_f d (d.length + 1 - st.pos) st.pos st.lineno = (p, l))
    (hp : p ≥ d.length) :
    next_lexeme_loop d cpu ofn (f + 1) st =
      (⟨lexEOF, []⟩, { st with pos := d.length, lineno := l }) := by
  simp only [next_lexeme_loop, hw]
  rw [if_pos hp]

theorem nll_lcom {d : List Char} {cpu : String → String} {ofn : String} {f : Nat} {st : Scan}
    {p l : Nat} (hw : lex_ws_f d (d.length + 1 - st.pos) st.pos st.lineno = (p, l))
    (hp : ¬ p ≥ d.length)
    (h1 : d.getD p ' ' = '/' ∧ p + 1 < d.length ∧ d.getD (p + 1) ' ' = '/') :
    next_lexeme_loop d cpu ofn (f + 1) st =
      next_lexeme_loop d cpu ofn f
        { st with pos := (skip_line d (p + 2) l).1, lineno := (skip_line d (p + 2) l).2 } := by
  simp only [next_lexeme_loop, hw]
  rw [if_neg hp, if_pos h1]

theorem nll_bcom {d : List Char} {cpu : String → String} {ofn : String} {f : Nat} {st : Scan}
    {p l : Nat} (hw : lex_ws_f d (d.length + 1 - st.pos) st.pos st.lineno = (p, l))
    (hp : ¬ p ≥ d.length)
    (h1 : ¬ (d.getD p ' ' = '/' ∧ p + 1 < d.length ∧ d.getD (p + 1) ' ' = '/'))
    (h2 : d.getD p ' ' = '/' ∧ p + 1 < d.length ∧ d.getD (p + 1) ' ' = '*') :
    next_lexeme_loop d cpu ofn (f + 1) st =
      next_lexeme_loop d cpu ofn f
        { st with pos := (skip_slash_star d (p + 2) l).1, lineno := (skip_slash_star d (p + 2) l).2 } := by
  simp only [next_lexeme_loop, hw]
  rw [if_neg hp, if_neg h1, if_pos h2]

theorem nll_dir {d : List Char} {cpu : String → String} {ofn : String} {f : Nat} {st : Scan}
    {p l : Nat} (hw : lex_ws_f d (d.length + 1 - st.pos) st.pos st.lineno = (p, l))
    (hp : ¬ p ≥ d.length)
    (h1 : ¬ (d.getD p ' ' = '/' ∧ p + 1 < d.length ∧ d.getD (p + 1) ' ' = '/'))
    (h2 : ¬ (d.getD p ' ' = '/' ∧ p + 1 < d.length ∧ d.getD (p + 1) ' ' = '*'))
    (h3 : d.getD p ' ' = '#'
      ∧ (p = 0 ∨ d.getD (p - 1) ' ' = '\n' ∨ d.getD (p - 1) ' ' = '\r')) :
    next_lexeme_loop d cpu ofn (f + 1) st =
      next_lexeme_loop d cpu ofn f
        (process_line_directive d cpu ofn { st with pos := p, lineno := l }).1 := by
  simp only [next_lexeme_loop, hw]
  rw [if_neg hp, if_neg h1, if_neg h2, if_pos h3]

theorem nll_word {d : List Char} {cpu : String → String} {ofn : String} {f : Nat} {st : Scan}
    {p l : Nat} (hw : lex_ws_f d (d.length + 1 - st.pos) st.pos st.lineno = (p, l))
    (hp : ¬ p ≥ d.length)
    (h1 : ¬ (d.getD p ' ' = '/' ∧ p + 1 < d.length ∧ d.getD (p + 1) ' ' = '/'))
    (h2 : ¬ (d.getD p ' ' = '/' ∧ p + 1 < d.length ∧ d.getD (p + 1) ' ' = '*'))
    (h3 : ¬ (d.getD p ' ' = '#'
      ∧ (p = 0 ∨ d.getD (p - 1) ' ' = '\n' ∨ d.getD (p - 1) ' ' = '\r'))) :
    next_lexeme_loop d cpu ofn (f + 1) st =
      next_lexeme_word d { st with pos := p, lineno := l } := by
  simp only [next_lexeme_loop, hw]
  rw [if_neg hp, if_neg h1, if_neg h2, if_neg h3]

theorem next_lexeme_loop_fi (d : List Char) (cpu : String → String) (ofn : String) :
    ∀ f1 f2 st, d.length < st.pos + f1 → d.length < st.pos + f2 →
      next_lexeme_loop d cpu ofn f1 st = next_lexeme_loop d cpu ofn f2 st := by
  intro f1
  induction f1 with
  | zero =>
    intro f2 st hf1 hf2
    have hw : lex_ws_f d (d.length + 1 - st.pos) st.pos st.lineno = (st.pos, st.lineno) := by
      rw [show d.length + 1 - st.pos = 0 from by omega]
      rfl
    match f2 with
    | 0 => rfl
    | g + 1 => rw [nll_eof hw (by omega)]; rfl
  | succ f ih =>
    intro f2 st hf1 hf2
    match f2 with
    | 0 =>
      have hw : lex_ws_f d (d.length + 1 - st.pos) st.pos st.lineno = (st.pos, st.lineno) := by
        rw [show d.length + 1 - st.pos = 0 from by omega]
        rfl
      rw [nll_eof hw (by omega)]
      rfl
    | g + 1 =>
      rcases hwe : lex_ws_f d (d.length + 1 - st.pos) st.pos st.lineno with ⟨p, l⟩
      have hplb : st.pos ≤ p := by
        have := lex_ws_f_lb d (d.length + 1 - st.pos) st.pos st.lineno
        rw [hwe] at this
        exact this
      by_cases hp : p ≥ d.length
      case pos => rw [nll_eof hwe hp, nll_eof hwe hp]
      by_cases h1 : d.getD p ' ' = '/' ∧ p + 1 < d.length ∧ d.getD (p + 1) ' ' = '/'
      case pos =>
        rw [nll_lcom hwe hp h1, nll_lcom hwe hp h1]
        have hlb := skip_line_lb d (p + 2) l
        exact ih g _ (by dsimp only; omega) (by dsimp only; omega)
      by_cases h2 : d.getD p ' ' = '/' ∧ p + 1 < d.length ∧ d.getD (p + 1) ' ' = '*'
      case pos =>
        rw [nll_bcom hwe hp h1 h2, nll_bcom hwe hp h1 h2]
        have hlb := skip_slash_star_lb d (p + 2) l
        exact ih g _ (by dsimp only; omega) (by dsimp only; omega)
      by_cases h3 : d.getD p ' ' = '#'
          ∧ (p = 0 ∨ d.getD (p - 1) ' ' = '\n' ∨ d.getD (p - 1) ' ' = '\r')
      case pos =>
        rw [nll_dir hwe hp h1 h2 h3, nll_dir hwe hp h1 h2 h3]
        have hlb := process_line_directive_lb d cpu ofn
          { st with pos := p, lineno := l } (by dsimp only; omega)
        exact ih g _ (by dsimp only at hlb ⊢; omega) (by dsimp only at hlb ⊢; omega)
      rw [nll_word hwe hp h1 h2 h3, nll_word hwe hp h1 h2 h3]

/-- C8 (amended): a hash mark opens a line directive only when it
    sits at position zero or directly after a line terminator; the
    lexer then continues after process_line_directive.  A hash merely
    preceded by whitespace on its line is lexed as an ordinary
    punctuation token of kind 35 instead. -/
theorem C8_hash_directive_column0 (d : List Char) (cpu : String → String) (ofn : String)
    (st : Scan) (hp : st.pos < d.length) (hc : d.getD st.pos ' ' = '#') :
    ((st.pos = 0 ∨ d.getD (st.pos - 1) ' ' = '\n' ∨ d.getD (st.pos - 1) ' ' = '\r') →
      next_lexeme d cpu ofn st = next_lexeme d cpu ofn (process_line_directive d cpu ofn st).1)
    ∧ (¬ (st.pos = 0 ∨ d.getD (st.pos - 1) ' ' = '\n' ∨ d.getD (st.pos - 1) ' ' = '\r') →
      next_lexeme d cpu ofn st =
        (⟨('#').toNat, (d.drop st.pos).take 1⟩, { st with pos := st.pos + 1 })) := by
  have hw : lex_ws_f d (d.length + 1 - st.pos) st.pos st.lineno = (st.pos, st.lineno) :=
    lex_ws_f_nonspace d _ st.pos st.lineno
      (fun hx => by rw [hc] at hx; exact absurd hx.2 (by decide))
  have hn1 : ¬ (d.getD st.pos ' ' = '/' ∧ st.pos + 1 < d.length
      ∧ d.getD (st.pos + 1) ' ' = '/') :=
    fun hx => by rw [hc] at hx; exact absurd hx.1 (by decide)
  have hn2 : ¬ (d.getD st.pos ' ' = '/' ∧ st.pos + 1 < d.length
      ∧ d.getD (st.pos + 1) ' ' = '*') :=
    fun hx => by rw [hc] at hx; exact absurd hx.1 (by decide)
  constructor
  · intro hdir
    have hpld := process_line_directive_lb d cpu ofn st hp
    have he : next_lexeme_loop d cpu ofn (d.length + 1) st
        = next_lexeme_loop d cpu ofn d.length (process_line_directive d cpu ofn st).1 :=
      nll_dir hw (by omega) hn1 hn2 ⟨hc, hdir⟩
    calc next_lexeme d cpu ofn st
        = next_lexeme_loop d cpu ofn d.length (process_line_directive d cpu ofn st).1 := he
      _ = next_lexeme d cpu ofn (process_line_directive d cpu ofn st).1 :=
          next_lexeme_loop_fi d cpu ofn d.length (d.length + 1) _ (by omega) (by omega)
  · intro hdir
    have hn3 : ¬ (d.getD st.pos ' ' = '#'
        ∧ (st.pos = 0 ∨ d.getD (st.pos - 1) ' ' = '\n' ∨ d.getD (st.pos - 1) ' ' = '\r')) :=
      fun hx => hdir hx.2
    have hna : ¬ (c_isalnum (d.getD st.pos ' ') = true ∨ d.getD st.pos ' ' = '_'
        ∨ d.getD st.pos ' ' = '@') := by rw [hc]; decide
    have hnv : ¬ (d.getD st.pos ' ' = '$' ∧ var_scan d (st.pos + 1) > st.pos + 1) :=
      fun hx => by rw [hc] at hx; exact absurd hx.1 (by decide)
    have hm1 : ¬ (st.pos + 1 < d.length ∧ d.getD st.pos ' ' = '-'
        ∧ d.getD (st.pos + 1) ' ' = '>') :=
      fun hx => by rw [hc] at hx; exact absurd hx.2.1 (by decide)
    have hm2 : ¬ (st.pos + 1 < d.length ∧ d.getD st.pos ' ' = ':'
        ∧ d.getD (st.pos + 1) ' ' = ':') :=
      fun hx => by rw [hc] at hx; exact absurd hx.2.1 (by decide)
    have hm3 : ¬ (st.pos + 1 < d.length ∧ d.getD st.pos ' ' = '|'
        ∧ d.getD (st.pos + 1) ' ' = '|') :=
      fun hx => by rw [hc] at hx; exact absurd hx.2.1 (by decide)
    have hm4 : ¬ (st.pos + 2 < d.length ∧ d.getD st.pos ' ' = '.'
        ∧ d.getD (st.pos + 1) ' ' = '.' ∧ d.getD (st.pos + 2) ' ' = '.') :=
      fun hx => by rw [hc] at hx; exact absurd hx.2.1 (by decide)
    have hword : next_lexeme_loop d cpu ofn (d.length + 1) st
        = next_lexeme_word d { st with pos := st.pos, lineno := st.lineno } :=
      nll_word hw (by omega) hn1 hn2 hn3
    calc next_lexeme d cpu ofn st
        = next_lexeme_word d { st with pos := st.pos, lineno := st.lineno } := hword
      _ = (⟨('#').toNat, (d.drop st.pos).take 1⟩, { st with pos := st.pos + 1 }) := by
          simp only [next_lexeme_word]
          rw [if_neg hna, if_neg hnv, if_neg hm1, if_neg hm2, if_neg hm3, if_neg hm4, hc]

/-- C8 counterexample: on the text " #line 5\nx" the first line's
    first non-whitespace character is a hash, yet because a space
    precedes it the lexer does not process a line directive: it emits
    the hash as a punctuation lexeme of kind 35 and leaves the line
    number and filename untouched. -/
theorem C8_whitespace_hash_counterexample :
    c_isspace (C8d.getD 0 ' ') = true ∧ C8d.getD 1 ' ' = '#'
    ∧ next_lexeme C8d id "file" ⟨0, 1, "file"⟩ =
        (⟨35, ['#']⟩, ⟨2, 1, "file"⟩) := by
  refine ⟨by decide, by decide, by decide⟩

/-- C8 witness: the amended theorem applied to a hash placed
    directly after a newline in "x\n#line 7\ny": the directive is
    processed and the next lexeme is the identifier y carrying the
    rewritten line number 7. -/
theorem C8_witness :
    (2 < C8e.length ∧ C8e.getD 2 ' ' = '#'
      ∧ ((2 : Nat) = 0 ∨ C8e.getD 1 ' ' = '\n' ∨ C8e.getD 1 ' ' = '\r'))
    ∧ next_lexeme C8e id "f" ⟨2, 2, "f"⟩ =
        next_lexeme C8e id "f" (process_line_directive C8e id "f" ⟨2, 2, "f"⟩).1
    ∧ next_lexeme C8e id "f" ⟨2, 2, "f"⟩ = (⟨lexIdent, ['y']⟩, ⟨11, 7, "f"⟩) :=
  ⟨⟨by decide, by decide, by decide⟩,
   (C8_hash_directive_column0 C8e id "f" ⟨2, 2, "f"⟩ (by decide) (by decide)).1 (by decide),
   by decide⟩
